import Mathlib

/-! TrackMate: shortest paths on a road graph.

A shallow embedding of the modular TrackMate engine (`gps_types.h`, `heap.c`,
`graph.c`, `distance.c`, `pathfinding.c`), of the traffic weight of the
traffic-aware engine (`trackmate_advanced.c`) and of the search of the
monolithic program (`trackmate.c`), together with the properties proved about
them.

Conventions of the embedding:

* C `double` values are exact rationals (`ℚ`); C `int` values that may hold the
  sentinel `-1` (vertex ids, predecessors) are `Int`; array indices and sizes
  that are never negative are `Nat`.
* A C array is a total map from its index type; a write is `Function.update`.
  An access outside the declared bounds is undefined behaviour in C and is
  modelled by the result `none` (heap operations, path buffer) instead of a
  value.
* Loops with no bound that is visible in the code take an explicit iteration
  budget and report `Fault.fuel` when it is exhausted.
* The functions of distance.c are also read over an arbitrary field
  (`haversine_distance_over`), so that they can be stated over the reals with
  the real sine, cosine, square root and arctangent.
-/

set_option autoImplicit false

namespace TrackMate

/-! ## gps_types.h -/

/-- Constant `MAX_NODES` of gps_types.h. -/
def MAX_NODES : Nat := 50

/-- Constant `INF` of gps_types.h. -/
def INF : ℚ := 999999

/-- Constant `EARTH_RADIUS` of gps_types.h (kilometres). -/
def EARTH_RADIUS : ℚ := 6371

/-- Constant `PI` of gps_types.h, the decimal literal 3.14159265359. -/
def PI : ℚ := 314159265359 / 100000000000

/-- Struct `Location`; the character arrays are strings. -/
structure Location where
  id : Int
  name : String
  type : String
  latitude : ℚ
  longitude : ℚ
  elevation : ℚ
  traffic_level : Int
  district : String
deriving DecidableEq

/-- Struct `Edge`; the `next` pointer is the tail of the adjacency list. -/
structure Edge where
  destination : Int
  base_distance : ℚ
  current_weight : ℚ
  road_type : String
  traffic_factor : Int
  speed_limit : ℚ
deriving DecidableEq

/-- Struct `GraphNode`: a location, its adjacency list and the activity flag. -/
structure GraphNode where
  location : Location
  edges : List Edge
  is_active : Int
deriving DecidableEq

/-- Struct `PQNode`, an entry of the priority queue. -/
structure PQNode where
  vertex : Int
  distance : ℚ
  g_cost : ℚ
  h_cost : ℚ
  f_cost : ℚ
  parent : Int
deriving DecidableEq

/-- Struct `MinHeap`: the array `nodes[MAX_NODES]` and the number of live
entries. Slots at and above `size` keep whatever was last written there. -/
structure MinHeap where
  nodes : Nat → PQNode
  size : Nat

/-! ## heap.c -/

/-- Function `swap_nodes` applied to the slots `a` and `b` of one array. -/
def swap_nodes (nodes : Nat → PQNode) (a b : Nat) : Nat → PQNode :=
  Function.update (Function.update nodes a (nodes b)) b (nodes a)

/-- The recursion of `heapify_up`, with a budget on its depth. -/
def heapify_up_fuel : Nat → MinHeap → Nat → MinHeap
  | 0, heap, _ => heap
  | fuel + 1, heap, index =>
    if index ≠ 0 ∧ (heap.nodes index).distance < (heap.nodes ((index - 1) / 2)).distance then
      heapify_up_fuel fuel { heap with nodes := swap_nodes heap.nodes index ((index - 1) / 2) }
        ((index - 1) / 2)
    else heap

/-- Function `heapify_up`. The index moves to its parent at every call, so a
depth budget of `index` is never exhausted (see `heapify_up_unfold`). -/
def heapify_up (heap : MinHeap) (index : Nat) : MinHeap :=
  heapify_up_fuel index heap index

/-- The index `smallest` computed by `heapify_down` before its final test. -/
def smallest_child (heap : MinHeap) (index : Nat) : Nat :=
  let left := 2 * index + 1
  let right := 2 * index + 2
  let smallest :=
    if left < heap.size ∧ (heap.nodes left).distance < (heap.nodes index).distance then left
    else index
  if right < heap.size ∧ (heap.nodes right).distance < (heap.nodes smallest).distance then right
  else smallest

/-- The recursion of `heapify_down`, with a budget on its depth. -/
def heapify_down_fuel : Nat → MinHeap → Nat → MinHeap
  | 0, heap, _ => heap
  | fuel + 1, heap, index =>
    if smallest_child heap index ≠ index then
      heapify_down_fuel fuel
        { heap with nodes := swap_nodes heap.nodes index (smallest_child heap index) }
        (smallest_child heap index)
    else heap

/-- Function `heapify_down`. The index grows at every call and stays below
`size`, so a depth budget of `size` is never exhausted (see
`heapify_down_unfold`). -/
def heapify_down (heap : MinHeap) (index : Nat) : MinHeap :=
  heapify_down_fuel heap.size heap index

/-- Function `init_heap`: only `size` is reset, the array keeps its content. -/
def init_heap (heap : MinHeap) : MinHeap :=
  { heap with size := 0 }

/-- Function `is_empty`. -/
def is_empty (heap : MinHeap) : Bool :=
  heap.size == 0

/-- Function `insert_heap`. Only `vertex`, `distance` and `f_cost` of the new
slot are written. Writing slot `MAX_NODES` is outside the array: `none`. -/
def insert_heap (heap : MinHeap) (vertex : Int) (distance : ℚ) : Option MinHeap :=
  if heap.size < MAX_NODES then
    let slot : PQNode :=
      { heap.nodes heap.size with vertex := vertex, distance := distance, f_cost := distance }
    let heap1 : MinHeap := { heap with nodes := Function.update heap.nodes heap.size slot }
    some { heapify_up heap1 heap.size with size := heap.size + 1 }
  else none

/-- Function `insert_heap_astar`. The comparison key `distance` holds
`g_cost + h_cost`. Writing slot `MAX_NODES` is outside the array: `none`. -/
def insert_heap_astar (heap : MinHeap) (vertex : Int) (g_cost h_cost : ℚ) (parent : Int) :
    Option MinHeap :=
  if heap.size < MAX_NODES then
    let slot : PQNode :=
      { vertex := vertex, g_cost := g_cost, h_cost := h_cost, f_cost := g_cost + h_cost,
        distance := g_cost + h_cost, parent := parent }
    let heap1 : MinHeap := { heap with nodes := Function.update heap.nodes heap.size slot }
    some { heapify_up heap1 heap.size with size := heap.size + 1 }
  else none

/-- Function `extract_min`: the returned entry and the heap left behind.
On an empty heap the C code reads `nodes[-1]`: `none`. -/
def extract_min (heap : MinHeap) : Option (PQNode × MinHeap) :=
  if 0 < heap.size then
    let min_node := heap.nodes 0
    let heap1 : MinHeap :=
      { nodes := Function.update heap.nodes 0 (heap.nodes (heap.size - 1)),
        size := heap.size - 1 }
    some (min_node, heapify_down heap1 0)
  else none

/-- The loop `for (i = 0; i < heap->size; i++)` of `decrease_key` from index
`i`, with `k` iterations left: the first slot that holds `vertex` gets the new
priority in `distance` and `f_cost` and is sifted up, and the loop ends. -/
def decrease_key_loop (heap : MinHeap) (vertex : Int) (new_distance : ℚ) : Nat → Nat → MinHeap
  | 0, _ => heap
  | k + 1, i =>
    if (heap.nodes i).vertex = vertex then
      let slot : PQNode := { heap.nodes i with distance := new_distance, f_cost := new_distance }
      heapify_up { heap with nodes := Function.update heap.nodes i slot } i
    else decrease_key_loop heap vertex new_distance k (i + 1)

/-- Function `decrease_key`. -/
def decrease_key (heap : MinHeap) (vertex : Int) (new_distance : ℚ) : MinHeap :=
  decrease_key_loop heap vertex new_distance heap.size 0

/-! ## distance.c -/

/-- The functions of the C math library that distance.c calls. They are not
part of the repository and have no exact rational values in general, so the
embedding takes them as a parameter. -/
structure Libm where
  sin : ℚ → ℚ
  cos : ℚ → ℚ
  sqrt : ℚ → ℚ
  atan2 : ℚ → ℚ → ℚ

/-- Function `haversine_distance`. -/
def haversine_distance (m : Libm) (lat1 lon1 lat2 lon2 : ℚ) : ℚ :=
  let lat1 := lat1 * PI / 180
  let lon1 := lon1 * PI / 180
  let lat2 := lat2 * PI / 180
  let lon2 := lon2 * PI / 180
  let dlat := lat2 - lat1
  let dlon := lon2 - lon1
  let a := m.sin (dlat / 2) * m.sin (dlat / 2) +
    m.cos lat1 * m.cos lat2 * m.sin (dlon / 2) * m.sin (dlon / 2)
  let c := 2 * m.atan2 (m.sqrt a) (m.sqrt (1 - a))
  EARTH_RADIUS * c

/-- Function `enhanced_haversine_distance`. -/
def enhanced_haversine_distance (m : Libm) (lat1 lon1 elev1 lat2 lon2 elev2 : ℚ) : ℚ :=
  let lat1 := lat1 * (PI / 180)
  let lon1 := lon1 * (PI / 180)
  let lat2 := lat2 * (PI / 180)
  let lon2 := lon2 * (PI / 180)
  let dlat := lat2 - lat1
  let dlon := lon2 - lon1
  let a := m.sin (dlat / 2) * m.sin (dlat / 2) +
    m.cos lat1 * m.cos lat2 * m.sin (dlon / 2) * m.sin (dlon / 2)
  let c := 2 * m.atan2 (m.sqrt a) (m.sqrt (1 - a))
  let horizontal_dist := EARTH_RADIUS * c
  let elevation_diff := (elev2 - elev1) / 1000
  m.sqrt (horizontal_dist * horizontal_dist + elevation_diff * elevation_diff)

/-- The functions of the C math library that distance.c calls, over any field
of numbers. -/
structure LibmOver (α : Type) where
  sin : α → α
  cos : α → α
  sqrt : α → α
  atan2 : α → α → α

/-- Function `haversine_distance` read over any field of numbers, so that it
can be read over the reals with the real sine, cosine, square root and
two-argument arctangent. Over `ℚ` it is `haversine_distance`. -/
def haversine_distance_over {α : Type} [Field α] (m : LibmOver α) (lat1 lon1 lat2 lon2 : α) :
    α :=
  let lat1 := lat1 * (PI : α) / 180
  let lon1 := lon1 * (PI : α) / 180
  let lat2 := lat2 * (PI : α) / 180
  let lon2 := lon2 * (PI : α) / 180
  let dlat := lat2 - lat1
  let dlon := lon2 - lon1
  let a := m.sin (dlat / 2) * m.sin (dlat / 2) +
    m.cos lat1 * m.cos lat2 * m.sin (dlon / 2) * m.sin (dlon / 2)
  let c := 2 * m.atan2 (m.sqrt a) (m.sqrt (1 - a))
  (EARTH_RADIUS : α) * c

/-- Function `enhanced_haversine_distance` read over any field of numbers.
Over `ℚ` it is `enhanced_haversine_distance`. -/
def enhanced_haversine_distance_over {α : Type} [Field α] (m : LibmOver α)
    (lat1 lon1 elev1 lat2 lon2 elev2 : α) : α :=
  let lat1 := lat1 * ((PI : α) / 180)
  let lon1 := lon1 * ((PI : α) / 180)
  let lat2 := lat2 * ((PI : α) / 180)
  let lon2 := lon2 * ((PI : α) / 180)
  let dlat := lat2 - lat1
  let dlon := lon2 - lon1
  let a := m.sin (dlat / 2) * m.sin (dlat / 2) +
    m.cos lat1 * m.cos lat2 * m.sin (dlon / 2) * m.sin (dlon / 2)
  let c := 2 * m.atan2 (m.sqrt a) (m.sqrt (1 - a))
  let horizontal_dist := (EARTH_RADIUS : α) * c
  let elevation_diff := (elev2 - elev1) / 1000
  m.sqrt (horizontal_dist * horizontal_dist + elevation_diff * elevation_diff)

/-- A math library over `ℚ` as a math library over a field. -/
def Libm.over (m : Libm) : LibmOver ℚ :=
  { sin := m.sin, cos := m.cos, sqrt := m.sqrt, atan2 := m.atan2 }

/-! ## graph.c -/

/-- The globals `graph[MAX_NODES]` and `node_count`. -/
structure Graph where
  graph : Int → GraphNode
  node_count : Int

/-- The effect of `strncpy(dst, src, cap - 1); dst[cap - 1] = 0` on a buffer of
`cap` characters. A character stands for one byte: the names, types and
districts of the program's data are ASCII. -/
def strncpy_buf (cap : Nat) (src : String) : String :=
  String.mk (src.data.take (cap - 1))

/-- Function `init_graph`. -/
def init_graph (g : Graph) : Graph :=
  { node_count := 0,
    graph := fun i =>
      if 0 ≤ i ∧ i < MAX_NODES then { g.graph i with edges := [], is_active := 0 }
      else g.graph i }

/-- Function `add_location`. Slot `node_count` must exist in the array. -/
def add_location (g : Graph) (id : Int) (name : String) (lat lon : ℚ) : Option Graph :=
  if 0 ≤ g.node_count ∧ g.node_count < MAX_NODES then
    let node : GraphNode :=
      { location :=
          { (g.graph g.node_count).location with
            id := id, name := strncpy_buf 50 name, type := "general", district := "unknown",
            latitude := lat, longitude := lon, elevation := 0, traffic_level := 1 },
        edges := [],
        is_active := 1 }
    some { graph := Function.update g.graph g.node_count node, node_count := g.node_count + 1 }
  else none

/-- Function `add_enhanced_location`. Slot `node_count` must exist in the
array. -/
def add_enhanced_location (g : Graph) (id : Int) (name type district : String)
    (lat lon elev : ℚ) (traffic : Int) : Option Graph :=
  if 0 ≤ g.node_count ∧ g.node_count < MAX_NODES then
    let node : GraphNode :=
      { location :=
          { id := id, name := strncpy_buf 50 name, type := strncpy_buf 20 type,
            district := strncpy_buf 30 district, latitude := lat, longitude := lon,
            elevation := elev, traffic_level := traffic },
        edges := [],
        is_active := 1 }
    some { graph := Function.update g.graph g.node_count node, node_count := g.node_count + 1 }
  else none

/-- Prepending a freshly allocated edge to the adjacency list of `u`. -/
def push_edge (g : Graph) (u : Int) (e : Edge) : Graph :=
  { g with graph := Function.update g.graph u { g.graph u with edges := e :: (g.graph u).edges } }

/-- Function `add_edge`. Both indices must be slots of the array. -/
def add_edge (m : Libm) (g : Graph) (from_ to_ : Int) : Option Graph :=
  if 0 ≤ from_ ∧ from_ < MAX_NODES ∧ 0 ≤ to_ ∧ to_ < MAX_NODES then
    let distance := haversine_distance m
      (g.graph from_).location.latitude (g.graph from_).location.longitude
      (g.graph to_).location.latitude (g.graph to_).location.longitude
    let new_edge : Edge :=
      { destination := to_, base_distance := distance, current_weight := distance,
        road_type := "main", traffic_factor := 1, speed_limit := 50 }
    let reverse_edge : Edge :=
      { destination := from_, base_distance := distance, current_weight := distance,
        road_type := "main", traffic_factor := 1, speed_limit := 50 }
    some (push_edge (push_edge g from_ new_edge) to_ reverse_edge)
  else none

/-- Function `add_enhanced_edge`. Both indices must be slots of the array. -/
def add_enhanced_edge (m : Libm) (g : Graph) (from_ to_ : Int) (road_type : String)
    (traffic_factor : Int) (speed_limit : ℚ) : Option Graph :=
  if 0 ≤ from_ ∧ from_ < MAX_NODES ∧ 0 ≤ to_ ∧ to_ < MAX_NODES then
    let distance := enhanced_haversine_distance m
      (g.graph from_).location.latitude (g.graph from_).location.longitude
      (g.graph from_).location.elevation
      (g.graph to_).location.latitude (g.graph to_).location.longitude
      (g.graph to_).location.elevation
    let new_edge : Edge :=
      { destination := to_, base_distance := distance, current_weight := distance,
        road_type := strncpy_buf 20 road_type, traffic_factor := traffic_factor,
        speed_limit := speed_limit }
    let reverse_edge : Edge :=
      { destination := from_, base_distance := distance, current_weight := distance,
        road_type := strncpy_buf 20 road_type, traffic_factor := traffic_factor,
        speed_limit := speed_limit }
    some (push_edge (push_edge g from_ new_edge) to_ reverse_edge)
  else none

/-! ## pathfinding.c -/

/-- Why a run of the model produced no result. -/
inductive Fault where
  /-- a write past the end of a fixed-size array (undefined behaviour in C) -/
  | bounds
  /-- the iteration budget given to the model was used up -/
  | fuel
deriving DecidableEq

/-- The variables of `dijkstra`: the local heap and the two caller arrays. -/
structure DijkstraState where
  heap : MinHeap
  distances : Int → ℚ
  previous : Int → Int

/-- The inner loop of `dijkstra` over the adjacency list of `u`. -/
def dijkstra_relax (u : Int) : List Edge → DijkstraState → Option DijkstraState
  | [], st => some st
  | edge :: rest, st =>
    let v := edge.destination
    let alt := st.distances u + edge.current_weight
    if alt < st.distances v then
      match insert_heap st.heap v alt with
      | none => none
      | some heap' =>
        dijkstra_relax u rest
          { heap := heap',
            distances := Function.update st.distances v alt,
            previous := Function.update st.previous v u }
    else dijkstra_relax u rest st

/-- The main loop of `dijkstra`, run for at most `fuel` iterations. -/
def dijkstra_loop (g : Graph) (end_ : Int) : Nat → DijkstraState → Except Fault DijkstraState
  | 0, _ => .error .fuel
  | fuel + 1, st =>
    if is_empty st.heap then .ok st
    else
      match extract_min st.heap with
      | none => .error .bounds
      | some (current, heap') =>
        let u := current.vertex
        if u = end_ then .ok { st with heap := heap' }
        else if current.distance > st.distances u then
          dijkstra_loop g end_ fuel { st with heap := heap' }
        else
          match dijkstra_relax u (g.graph u).edges { st with heap := heap' } with
          | none => .error .bounds
          | some st' => dijkstra_loop g end_ fuel st'

/-- The state of `dijkstra` when its main loop starts. `st0` holds whatever
the local heap and the caller arrays contained on entry. -/
def dijkstra_init (g : Graph) (start : Int) (st0 : DijkstraState) : Option DijkstraState :=
  let distances : Int → ℚ := fun i => if 0 ≤ i ∧ i < g.node_count then INF else st0.distances i
  let previous : Int → Int := fun i => if 0 ≤ i ∧ i < g.node_count then -1 else st0.previous i
  match insert_heap (init_heap st0.heap) start 0 with
  | none => none
  | some heap =>
    some { heap := heap, distances := Function.update distances start 0, previous := previous }

/-- Function `dijkstra`, with its main loop run for at most `fuel` iterations.
The result holds the arrays `distances` and `previous` as the caller sees
them after the call. -/
def dijkstra (g : Graph) (start end_ : Int) (fuel : Nat) (st0 : DijkstraState) :
    Except Fault DijkstraState :=
  match dijkstra_init g start st0 with
  | none => .error .bounds
  | some st => dijkstra_loop g end_ fuel st

/-- Function `heuristic_distance`. -/
def heuristic_distance (m : Libm) (g : Graph) (from_ to_ : Int) : ℚ :=
  enhanced_haversine_distance m
    (g.graph from_).location.latitude (g.graph from_).location.longitude
    (g.graph from_).location.elevation
    (g.graph to_).location.latitude (g.graph to_).location.longitude
    (g.graph to_).location.elevation

/-- The loop `while (current != -1) { path[path_length++] = current;
current = previous[current]; }`. The first argument is the number of free
slots left in the path buffer; a write beyond them is outside the array. -/
def trace_back (previous : Int → Int) :
    Nat → Int → (Nat → Int) → Nat → Option ((Nat → Int) × Nat)
  | 0, current, path, path_length =>
    if current = -1 then some (path, path_length) else none
  | free + 1, current, path, path_length =>
    if current = -1 then some (path, path_length)
    else trace_back previous free (previous current)
      (Function.update path path_length current) (path_length + 1)

/-- The loop `for (i = 0; i < path_length / 2; i++)` that swaps `path[i]` and
`path[path_length - 1 - i]`; the first argument counts the iterations left. -/
def reverse_loop (path_length : Nat) : Nat → Nat → (Nat → Int) → (Nat → Int)
  | 0, _, path => path
  | k + 1, i, path =>
    reverse_loop path_length k (i + 1)
      (Function.update (Function.update path i (path (path_length - 1 - i)))
        (path_length - 1 - i) (path i))

/-- Function `reconstruct_path`: the returned length and the path buffer.
Every caller passes a buffer of `MAX_NODES` slots. -/
def reconstruct_path (end_ : Int) (previous : Int → Int) (path : Nat → Int) :
    Option (Nat × (Nat → Int)) :=
  match trace_back previous MAX_NODES end_ path 0 with
  | none => none
  | some (path1, path_length) =>
    some (path_length, reverse_loop path_length (path_length / 2) 0 path1)

/-- The local variables of `astar_pathfind`. -/
structure AStarState where
  open_set : MinHeap
  g_costs : Int → ℚ
  parents : Int → Int
  in_closed_set : Int → Int

/-- What `astar_pathfind` hands back: the returned length, the path buffer
and the cell `*total_cost`. -/
structure AStarResult where
  path_length : Nat
  path : Nat → Int
  total_cost : ℚ

/-- The inner loop of `astar_pathfind` over the adjacency list of `u`. -/
def astar_relax (m : Libm) (g : Graph) (end_ u : Int) :
    List Edge → AStarState → Option AStarState
  | [], st => some st
  | edge :: rest, st =>
    let v := edge.destination
    if st.in_closed_set v = 0 ∧ (g.graph v).is_active ≠ 0 then
      let tentative_g := st.g_costs u + edge.current_weight
      if tentative_g < st.g_costs v then
        let h := heuristic_distance m g v end_
        match insert_heap_astar st.open_set v tentative_g h u with
        | none => none
        | some heap' =>
          astar_relax m g end_ u rest
            { st with
              open_set := heap',
              g_costs := Function.update st.g_costs v tentative_g,
              parents := Function.update st.parents v u }
      else astar_relax m g end_ u rest st
    else astar_relax m g end_ u rest st

/-- The main loop of `astar_pathfind`, run for at most `fuel` iterations.
`path` and `total_cost` are the caller's buffer and cell. -/
def astar_loop (m : Libm) (g : Graph) (end_ : Int) (path : Nat → Int) (total_cost : ℚ) :
    Nat → AStarState → Except Fault AStarResult
  | 0, _ => .error .fuel
  | fuel + 1, st =>
    if st.open_set.size > 0 then
      match extract_min st.open_set with
      | none => .error .bounds
      | some (current, heap') =>
        let u := current.vertex
        if u = end_ then
          match trace_back st.parents MAX_NODES end_ path 0 with
          | none => .error .bounds
          | some (path1, path_length) =>
            .ok { path_length := path_length,
                  path := reverse_loop path_length (path_length / 2) 0 path1,
                  total_cost := st.g_costs end_ }
        else
          match astar_relax m g end_ u (g.graph u).edges
              { st with open_set := heap', in_closed_set := Function.update st.in_closed_set u 1 } with
          | none => .error .bounds
          | some st' => astar_loop m g end_ path total_cost fuel st'
    else .ok { path_length := 0, path := path, total_cost := total_cost }

/-- The state of `astar_pathfind` when its main loop starts. `st0` holds
whatever the local heap and arrays contained on entry. -/
def astar_init (m : Libm) (g : Graph) (start end_ : Int) (st0 : AStarState) :
    Option AStarState :=
  let g_costs : Int → ℚ := fun i => if 0 ≤ i ∧ i < g.node_count then INF else st0.g_costs i
  let parents : Int → Int := fun i => if 0 ≤ i ∧ i < g.node_count then -1 else st0.parents i
  let h_start := heuristic_distance m g start end_
  match insert_heap_astar (init_heap st0.open_set) start 0 h_start (-1) with
  | none => none
  | some heap =>
    some { open_set := heap, g_costs := Function.update g_costs start 0, parents := parents,
           in_closed_set := fun _ => 0 }

/-- Function `astar_pathfind`, with its main loop run for at most `fuel`
iterations. -/
def astar_pathfind (m : Libm) (g : Graph) (start end_ : Int) (path : Nat → Int)
    (total_cost : ℚ) (fuel : Nat) (st0 : AStarState) : Except Fault AStarResult :=
  match astar_init m g start end_ st0 with
  | none => .error .bounds
  | some st => astar_loop m g end_ path total_cost fuel st

/-- The state of `astar_pathfind` at the top of its main loop after `k`
iterations; `none` if the loop has returned or overrun an array by then. -/
def astar_state_after (m : Libm) (g : Graph) (end_ : Int) : Nat → AStarState → Option AStarState
  | 0, st => some st
  | k + 1, st =>
    if st.open_set.size > 0 then
      match extract_min st.open_set with
      | none => none
      | some (current, heap') =>
        let u := current.vertex
        if u = end_ then none
        else
          match astar_relax m g end_ u (g.graph u).edges
              { st with open_set := heap', in_closed_set := Function.update st.in_closed_set u 1 } with
          | none => none
          | some st' => astar_state_after m g end_ k st'
    else none

/-! ## trackmate.c

The monolithic program has its own copies of the heap functions and of
`dijkstra`. The text of `init_heap`, `is_empty`, `heapify_up`, `heapify_down`
and `extract_min` is that of heap.c and is shared here. Its queue entries have
only the fields `vertex` and `distance`, so its `insert_heap` writes no
`f_cost`; its edges call their weight `weight` (`current_weight` here); its
arrays have 20 slots. -/

/-- Constant `MAX_NODES` of trackmate.c. -/
def Mono.MAX_NODES : Nat := 20

/-- Function `insert_heap` of trackmate.c. Writing slot `MAX_NODES` is
outside the array: `none`. -/
def Mono.insert_heap (heap : MinHeap) (vertex : Int) (distance : ℚ) : Option MinHeap :=
  if heap.size < Mono.MAX_NODES then
    let slot : PQNode := { heap.nodes heap.size with vertex := vertex, distance := distance }
    let heap1 : MinHeap := { heap with nodes := Function.update heap.nodes heap.size slot }
    some { heapify_up heap1 heap.size with size := heap.size + 1 }
  else none

/-- The inner loop of `dijkstra` of trackmate.c over the adjacency list of
`u`. -/
def Mono.dijkstra_relax (u : Int) : List Edge → DijkstraState → Option DijkstraState
  | [], st => some st
  | edge :: rest, st =>
    let v := edge.destination
    let alt := st.distances u + edge.current_weight
    if alt < st.distances v then
      match Mono.insert_heap st.heap v alt with
      | none => none
      | some heap' =>
        Mono.dijkstra_relax u rest
          { heap := heap',
            distances := Function.update st.distances v alt,
            previous := Function.update st.previous v u }
    else Mono.dijkstra_relax u rest st

/-- The main loop of `dijkstra` of trackmate.c, run for at most `fuel`
iterations: every popped entry other than the goal is expanded. -/
def Mono.dijkstra_loop (g : Graph) (end_ : Int) :
    Nat → DijkstraState → Except Fault DijkstraState
  | 0, _ => .error .fuel
  | fuel + 1, st =>
    if is_empty st.heap then .ok st
    else
      match extract_min st.heap with
      | none => .error .bounds
      | some (current, heap') =>
        let u := current.vertex
        if u = end_ then .ok { st with heap := heap' }
        else
          match Mono.dijkstra_relax u (g.graph u).edges { st with heap := heap' } with
          | none => .error .bounds
          | some st' => Mono.dijkstra_loop g end_ fuel st'

/-- The state of `dijkstra` of trackmate.c when its main loop starts. -/
def Mono.dijkstra_init (g : Graph) (start : Int) (st0 : DijkstraState) : Option DijkstraState :=
  let distances : Int → ℚ := fun i => if 0 ≤ i ∧ i < g.node_count then INF else st0.distances i
  let previous : Int → Int := fun i => if 0 ≤ i ∧ i < g.node_count then -1 else st0.previous i
  match Mono.insert_heap (init_heap st0.heap) start 0 with
  | none => none
  | some heap =>
    some { heap := heap, distances := Function.update distances start 0, previous := previous }

/-- Function `dijkstra` of trackmate.c, with its main loop run for at most
`fuel` iterations. -/
def Mono.dijkstra (g : Graph) (start end_ : Int) (fuel : Nat) (st0 : DijkstraState) :
    Except Fault DijkstraState :=
  match Mono.dijkstra_init g start st0 with
  | none => .error .bounds
  | some st => Mono.dijkstra_loop g end_ fuel st

/-! ## graph.c: lookups -/

/-- Function `get_location`: the location behind the returned pointer, `none`
for the `NULL` result. -/
def get_location (g : Graph) (id : Int) : Option Location :=
  if id ≥ 0 ∧ id < g.node_count then some (g.graph id).location else none

/-- The loop `for (i = 0; i < node_count; i++)` of `find_location_by_name`
from index `i`, with `k` iterations left. `strcmp(a, b) == 0` is equality of
the two strings. -/
def find_location_loop (g : Graph) (name : String) : Nat → Int → Int
  | 0, _ => -1
  | k + 1, i =>
    if (g.graph i).location.name = name then i else find_location_loop g name k (i + 1)

/-- Function `find_location_by_name`. -/
def find_location_by_name (g : Graph) (name : String) : Int :=
  find_location_loop g name g.node_count.toNat 0

/-! ## trackmate_advanced.c

The traffic-aware engine is a single file with its own copies of the types,
of the constants and of `enhanced_haversine_distance`, which are identical to
those of the modular engine and shared with it here. -/

/-- Function `calculate_dynamic_weight`: the returned weight, and the edge
record behind the pointer as the call leaves it (the function only reads it).
The literals 1.5, 0.3, 0.8 and 1.2 are exact rationals. -/
def calculate_dynamic_weight (edge : Edge) (current_hour : Int) : ℚ × Edge :=
  let base_weight := edge.base_distance
  let traffic_multiplier : ℚ :=
    if (current_hour ≥ 7 ∧ current_hour ≤ 9) ∨ (current_hour ≥ 18 ∧ current_hour ≤ 20) then
      3 / 2 + (edge.traffic_factor : ℚ) * (3 / 10)
    else if current_hour ≥ 22 ∨ current_hour ≤ 6 then 4 / 5
    else 1
  let traffic_multiplier : ℚ :=
    if edge.road_type = "highway" then traffic_multiplier * (4 / 5)
    else if edge.road_type = "local" then traffic_multiplier * (6 / 5)
    else traffic_multiplier
  (base_weight * traffic_multiplier, edge)

/-- The effect of `strcpy(dst, src)` on a buffer of `cap` characters: the
copy and its terminator must fit, a longer source overruns the buffer. A
character stands for one byte (ASCII data). -/
def strcpy_buf (cap : Nat) (src : String) : Option String :=
  if src.length < cap then some src else none

/-- Function `add_enhanced_location` of trackmate_advanced.c, which copies the
three strings with `strcpy`. -/
def Advanced.add_enhanced_location (g : Graph) (id : Int) (name type district : String)
    (lat lon elev : ℚ) (traffic : Int) : Option Graph :=
  if 0 ≤ g.node_count ∧ g.node_count < MAX_NODES then
    match strcpy_buf 50 name, strcpy_buf 20 type, strcpy_buf 30 district with
    | some name', some type', some district' =>
      let node : GraphNode :=
        { location :=
            { id := id, name := name', type := type', district := district', latitude := lat,
              longitude := lon, elevation := elev, traffic_level := traffic },
          edges := [],
          is_active := 1 }
      some { graph := Function.update g.graph g.node_count node, node_count := g.node_count + 1 }
    | _, _, _ => none
  else none

/-- Function `add_enhanced_edge` of trackmate_advanced.c, which copies the
road type with `strcpy`. -/
def Advanced.add_enhanced_edge (m : Libm) (g : Graph) (from_ to_ : Int) (road_type : String)
    (traffic_factor : Int) (speed_limit : ℚ) : Option Graph :=
  if 0 ≤ from_ ∧ from_ < MAX_NODES ∧ 0 ≤ to_ ∧ to_ < MAX_NODES then
    match strcpy_buf 20 road_type with
    | none => none
    | some road_type' =>
      let distance := enhanced_haversine_distance m
        (g.graph from_).location.latitude (g.graph from_).location.longitude
        (g.graph from_).location.elevation
        (g.graph to_).location.latitude (g.graph to_).location.longitude
        (g.graph to_).location.elevation
      let new_edge : Edge :=
        { destination := to_, base_distance := distance, current_weight := distance,
          road_type := road_type', traffic_factor := traffic_factor,
          speed_limit := speed_limit }
      let reverse_edge : Edge :=
        { destination := from_, base_distance := distance, current_weight := distance,
          road_type := road_type', traffic_factor := traffic_factor,
          speed_limit := speed_limit }
      some (push_edge (push_edge g from_ new_edge) to_ reverse_edge)
  else none

/-! ## Specification vocabulary for the heap -/

/-- The entries held in the first `n` slots of an array, as a multiset. -/
def live (nodes : Nat → PQNode) (n : Nat) : Multiset PQNode :=
  (Multiset.range n).map nodes

/-- The live entries of a heap. -/
def entries (heap : MinHeap) : Multiset PQNode :=
  live heap.nodes heap.size

/-- Min-heap order on the `distance` field over the first `n` slots: every
slot but the root is at least its parent at `(i - 1) / 2`. -/
def Ordered (nodes : Nat → PQNode) (n : Nat) : Prop :=
  ∀ i, 0 < i → i < n → (nodes ((i - 1) / 2)).distance ≤ (nodes i).distance

/-- Min-heap order of a heap. -/
def HeapOrdered (heap : MinHeap) : Prop :=
  Ordered heap.nodes heap.size

/-- Heap order everywhere except possibly between `i` and its parent. -/
def UpInv (f : Nat → PQNode) (n i : Nat) : Prop :=
  (∀ j, 0 < j → j < n → j ≠ i → (f ((j - 1) / 2)).distance ≤ (f j).distance) ∧
  (∀ j, 0 < j → j < n → (j - 1) / 2 = i → 0 < i →
    (f ((i - 1) / 2)).distance ≤ (f j).distance)

/-- Heap order everywhere except possibly between `i` and its children. -/
def DownInv (f : Nat → PQNode) (n i : Nat) : Prop :=
  (∀ j, 0 < j → j < n → (j - 1) / 2 ≠ i → (f ((j - 1) / 2)).distance ≤ (f j).distance) ∧
  (∀ j, 0 < j → j < n → (j - 1) / 2 = i → 0 < i →
    (f ((i - 1) / 2)).distance ≤ (f j).distance)

/-- One call on the heap interface of heap.h (`decrease_key` apart). -/
inductive HeapOp where
  | insert (vertex : Int) (distance : ℚ)
  | insert_astar (vertex : Int) (g_cost h_cost : ℚ) (parent : Int)
  | extract
deriving DecidableEq

/-- The priority a call pushes, if it is a push. -/
def HeapOp.key : HeapOp → Option ℚ
  | .insert _ distance => some distance
  | .insert_astar _ g_cost h_cost _ => some (g_cost + h_cost)
  | .extract => none

/-- The heap after one call; `none` when the call overruns the array or pops
an empty heap. -/
def apply_op (heap : MinHeap) : HeapOp → Option MinHeap
  | .insert vertex distance => insert_heap heap vertex distance
  | .insert_astar vertex g_cost h_cost parent => insert_heap_astar heap vertex g_cost h_cost parent
  | .extract => (extract_min heap).map Prod.snd

/-- The heap after a sequence of calls. -/
def run_ops : List HeapOp → MinHeap → Option MinHeap
  | [], heap => some heap
  | op :: ops, heap =>
    match apply_op heap op with
    | none => none
    | some heap' => run_ops ops heap'

/-- The priorities of the entries that the `extract` calls of a sequence
return, in order. -/
def pop_trace : List HeapOp → MinHeap → Option (List ℚ)
  | [], _ => some []
  | .extract :: ops, heap =>
    match extract_min heap with
    | none => none
    | some (min_node, heap') => (pop_trace ops heap').map (min_node.distance :: ·)
  | op :: ops, heap =>
    match apply_op heap op with
    | none => none
    | some heap' => pop_trace ops heap'

/-- The push `op`, if it is one, has priority at least `bound`. -/
def key_at_least (bound : ℚ) (op : HeapOp) : Bool :=
  match op.key with
  | none => true
  | some k => decide (bound ≤ k)

/-- No push of the sequence has a priority below that of an earlier pop. -/
def pushes_above_pops : List HeapOp → MinHeap → Bool
  | [], _ => true
  | .extract :: ops, heap =>
    match extract_min heap with
    | none => true
    | some (min_node, heap') =>
      ops.all (key_at_least min_node.distance) && pushes_above_pops ops heap'
  | op :: ops, heap =>
    match apply_op heap op with
    | none => true
    | some heap' => pushes_above_pops ops heap'

/-! ## Specification vocabulary for graphs and searches -/

/-- The index `v` is one of the `node_count` nodes of the graph. -/
def InRange (g : Graph) (v : Int) : Prop :=
  0 ≤ v ∧ v < g.node_count

instance (g : Graph) (v : Int) : Decidable (InRange g v) :=
  inferInstanceAs (Decidable (0 ≤ v ∧ v < g.node_count))

/-- Every edge stored at a node of the graph leads to a node of the graph. -/
def WellFormed (g : Graph) : Prop :=
  ∀ u, InRange g u → ∀ e ∈ (g.graph u).edges, InRange g e.destination

/-- Every stored `current_weight` is non-negative. -/
def NonNeg (g : Graph) : Prop :=
  ∀ u, InRange g u → ∀ e ∈ (g.graph u).edges, 0 ≤ e.current_weight

/-- A walk from `u` to `v`: a list of edges, the first taken from the
adjacency list of `u`, each next one from the list of the node just reached. -/
def IsPath (g : Graph) : Int → List Edge → Int → Prop
  | u, [], v => u = v
  | u, e :: es, v => e ∈ (g.graph u).edges ∧ IsPath g e.destination es v

/-- The total `current_weight` of a list of edges. -/
def path_weight (es : List Edge) : ℚ :=
  (es.map Edge.current_weight).sum

/-- The nodes a walk from `u` visits, in order. -/
def path_nodes (u : Int) (es : List Edge) : List Int :=
  u :: es.map Edge.destination

/-- A walk from `u` to `v` that enters active nodes only. -/
def IsActivePath (g : Graph) : Int → List Edge → Int → Prop
  | u, [], v => u = v
  | u, e :: es, v =>
    e ∈ (g.graph u).edges ∧ (g.graph e.destination).is_active ≠ 0 ∧
      IsActivePath g e.destination es v

/-- There is a walk from `s` to `t`. -/
def Reachable (g : Graph) (s t : Int) : Prop :=
  ∃ es, IsPath g s es t

/-- The value `d` is the minimum total weight over all walks from `s` to `t`. -/
def IsMinDist (g : Graph) (s t : Int) (d : ℚ) : Prop :=
  (∃ es, IsPath g s es t ∧ path_weight es = d) ∧ ∀ es, IsPath g s es t → d ≤ path_weight es

/-- The sum of the weights stored in the adjacency list of `u`. -/
def row_weight (g : Graph) (u : Int) : ℚ :=
  ((g.graph u).edges.map Edge.current_weight).sum

/-- The sum of all stored edge weights of the graph. -/
def total_weight (g : Graph) : ℚ :=
  ∑ i in Finset.range g.node_count.toNat, row_weight g (i : Int)

/-- The number of stored edges of the graph. -/
def edge_count (g : Graph) : Nat :=
  ∑ i in Finset.range g.node_count.toNat, (g.graph (i : Int)).edges.length

/-- The nodes of the graph as a finite set. -/
def node_set (g : Graph) : Finset Int :=
  (Finset.range g.node_count.toNat).map Nat.castEmbedding

/-- The sequence a predecessor array spells out from `v`: `v`, its
predecessor, and so on up to the node whose predecessor is `-1`. -/
inductive Chain (prev : Int → Int) : Int → List Int → Prop where
  | stop : Chain prev (-1) []
  | step {v : Int} {l : List Int} : v ≠ -1 → Chain prev (prev v) l → Chain prev v (v :: l)

/-- The predecessor pointers lead from `v` back to the start `s` along stored
edges, through nodes that are no farther than their successors. -/
inductive Rooted (g : Graph) (prev : Int → Int) (dist : Int → ℚ) (s : Int) : Int → Prop where
  | root : prev s = -1 → Rooted g prev dist s s
  | step {v u : Int} : prev v = u → InRange g u → dist u ≤ dist v →
      (∃ e ∈ (g.graph u).edges, e.destination = v ∧ dist u + e.current_weight ≤ dist v) →
      Rooted g prev dist s u → Rooted g prev dist s v

/-- The invariant of the main loop of `dijkstra`. `R` is the set of nodes
that have not been expanded yet. -/
structure DijkstraInv (g : Graph) (s : Int) (R : Finset Int) (st : DijkstraState) : Prop where
  ordered : HeapOrdered st.heap
  dist_start : st.distances s = 0
  prev_start : st.previous s = -1
  dist_nonneg : ∀ v, InRange g v → 0 ≤ st.distances v
  dist_le_inf : ∀ v, InRange g v → st.distances v ≤ INF
  dist_path : ∀ v, InRange g v → st.distances v = INF ∨
    ∃ es, IsPath g s es v ∧ path_weight es = st.distances v
  prev_none : ∀ v, InRange g v → st.distances v = INF → st.previous v = -1
  rooted : ∀ v, InRange g v → st.distances v < INF → Rooted g st.previous st.distances s v
  heap_key : ∀ e ∈ entries st.heap, InRange g e.vertex ∧ st.distances e.vertex ≤ e.distance
  queued : ∀ v, InRange g v → st.distances v < INF → v ∈ R →
    ∃ e ∈ entries st.heap, e.vertex = v ∧ e.distance = st.distances v
  unexpanded : R ⊆ node_set g
  relaxed : ∀ u, InRange g u → u ∉ R → ∀ e ∈ (g.graph u).edges,
    st.distances e.destination ≤ st.distances u + e.current_weight
  settled : ∀ u, InRange g u → u ∉ R → ∀ e ∈ entries st.heap, st.distances u ≤ e.distance

/-- The invariant of the inner loop of `dijkstra` while node `u` is being
expanded. -/
structure RelaxInv (g : Graph) (s : Int) (R : Finset Int) (u : Int) (st : DijkstraState) :
    Prop where
  ordered : HeapOrdered st.heap
  dist_start : st.distances s = 0
  prev_start : st.previous s = -1
  dist_nonneg : ∀ v, InRange g v → 0 ≤ st.distances v
  dist_le_inf : ∀ v, InRange g v → st.distances v ≤ INF
  dist_path : ∀ v, InRange g v → st.distances v = INF ∨
    ∃ es, IsPath g s es v ∧ path_weight es = st.distances v
  prev_none : ∀ v, InRange g v → st.distances v = INF → st.previous v = -1
  rooted : ∀ v, InRange g v → st.distances v < INF → Rooted g st.previous st.distances s v
  heap_key : ∀ e ∈ entries st.heap, InRange g e.vertex ∧ st.distances e.vertex ≤ e.distance
  queued : ∀ v, InRange g v → st.distances v < INF → v ∈ R → v ≠ u →
    ∃ e ∈ entries st.heap, e.vertex = v ∧ e.distance = st.distances v
  unexpanded : R ⊆ node_set g
  relaxed : ∀ x, InRange g x → x ∉ R → ∀ e ∈ (g.graph x).edges,
    st.distances e.destination ≤ st.distances x + e.current_weight
  settled : ∀ x, InRange g x → x ∉ R → ∀ e ∈ entries st.heap, st.distances x ≤ e.distance
  current : InRange g u
  below_current : ∀ x, InRange g x → x ∉ R → st.distances x ≤ st.distances u
  above_current : ∀ e ∈ entries st.heap, st.distances u ≤ e.distance

/-- What `dijkstra` guarantees about the arrays it leaves behind. -/
structure DijkstraPost (g : Graph) (s t : Int) (st : DijkstraState) : Prop where
  dist_start : st.distances s = 0
  prev_start : st.previous s = -1
  dist_le_inf : ∀ v, InRange g v → st.distances v ≤ INF
  dist_path : ∀ v, InRange g v → st.distances v = INF ∨
    ∃ es, IsPath g s es v ∧ path_weight es = st.distances v
  prev_none : ∀ v, InRange g v → st.distances v = INF → st.previous v = -1
  rooted : ∀ v, InRange g v → st.distances v < INF → Rooted g st.previous st.distances s v
  lower : ∀ v es, IsPath g s es v →
    st.distances v ≤ path_weight es ∨ st.distances t ≤ path_weight es

/-- The termination measure of the main loop of `dijkstra`. -/
def dijkstra_measure (g : Graph) (R : Finset Int) (st : DijkstraState) : Nat :=
  st.heap.size + ∑ v in R, (g.graph v).edges.length

/-- Every node of the graph has its activity flag set. -/
def AllActive (g : Graph) : Prop :=
  ∀ v, InRange g v → (g.graph v).is_active ≠ 0

/-- The parent pointers of A* lead from `v` back to the start `s` through
closed nodes, each step along a stored edge whose weight is the difference of
the g-costs. -/
inductive ARooted (g : Graph) (par : Int → Int) (gc : Int → ℚ) (cl : Int → Int) (s : Int) :
    Int → Prop where
  | root : par s = -1 → gc s = 0 → ARooted g par gc cl s s
  | step {v u : Int} : par v = u → InRange g u → cl u ≠ 0 →
      (∃ e ∈ (g.graph u).edges, e.destination = v ∧ gc v = gc u + e.current_weight) →
      ARooted g par gc cl s u → ARooted g par gc cl s v

/-- The invariant of the main loop of `astar_pathfind` that holds for every
heuristic. -/
structure AStarInv (g : Graph) (s : Int) (st : AStarState) : Prop where
  ordered : HeapOrdered st.open_set
  g_start : st.g_costs s = 0
  par_start : st.parents s = -1
  g_nonneg : ∀ v, InRange g v → 0 ≤ st.g_costs v
  g_le_inf : ∀ v, InRange g v → st.g_costs v ≤ INF
  rooted : ∀ v, InRange g v → st.g_costs v < INF →
    ARooted g st.parents st.g_costs st.in_closed_set s v
  heap_key : ∀ e ∈ entries st.open_set, InRange g e.vertex ∧ st.g_costs e.vertex < INF

/-- What a non-empty result of `astar_pathfind` looks like: the path runs from
`s` to `t` along stored edges whose weights add up to the reported cost. -/
structure AStarPath (g : Graph) (s t : Int) (r : AStarResult) : Prop where
  first : r.path 0 = s
  last : r.path (r.path_length - 1) = t
  length_le : (r.path_length : Int) ≤ g.node_count
  edges : ∃ es, IsPath g s es t ∧ path_nodes s es = (List.range r.path_length).map r.path ∧
    path_weight es = r.total_cost
  finite : r.total_cost < INF

/-- The part of the invariant of the main loop of `astar_pathfind` that tracks
which nodes are finished; it holds for every heuristic. Only active nodes are
ever reached, a closed node has a finite g-cost, and each of its edges leads
to a closed node, to an inactive node, or to a node whose g-cost the edge
cannot lower. -/
structure AStarSweep (g : Graph) (s t : Int) (st : AStarState) : Prop where
  goal_open : st.in_closed_set t = 0
  active : ∀ v, InRange g v → v ≠ s → st.g_costs v < INF → (g.graph v).is_active ≠ 0
  closed_finite : ∀ v, InRange g v → st.in_closed_set v ≠ 0 → st.g_costs v < INF
  queued : ∀ v, InRange g v → st.g_costs v < INF → st.in_closed_set v = 0 →
    ∃ e ∈ entries st.open_set, e.vertex = v
  settled : ∀ u, InRange g u → st.in_closed_set u ≠ 0 → ∀ e ∈ (g.graph u).edges,
    st.in_closed_set e.destination ≠ 0 ∨ (g.graph e.destination).is_active = 0 ∨
      st.g_costs e.destination ≤ st.g_costs u + e.current_weight

/-- The termination measure of the main loop of `astar_pathfind`: the entries
in the open set plus the edges of the nodes that are not closed yet. -/
def astar_measure (g : Graph) (st : AStarState) : Nat :=
  st.open_set.size +
    ∑ v in (node_set g).filter (fun v => st.in_closed_set v = 0), (g.graph v).edges.length

/-! ## Specification vocabulary for building graphs and for traffic weights -/

/-- One call on the graph-building interface of graph.h. -/
inductive GraphOp where
  | add_location (id : Int) (name : String) (lat lon : ℚ)
  | add_enhanced_location (id : Int) (name type district : String) (lat lon elev : ℚ)
      (traffic : Int)
  | add_edge (from_ to_ : Int)
  | add_enhanced_edge (from_ to_ : Int) (road_type : String) (traffic_factor : Int)
      (speed_limit : ℚ)
deriving DecidableEq

/-- The call stores a location. -/
def GraphOp.is_location : GraphOp → Bool
  | .add_location _ _ _ _ => true
  | .add_enhanced_location _ _ _ _ _ _ _ _ => true
  | _ => false

/-- The call stores a pair of edges. -/
def GraphOp.is_edge : GraphOp → Bool
  | .add_edge _ _ => true
  | .add_enhanced_edge _ _ _ _ _ => true
  | _ => false

/-- The `id` argument of a call that stores a location (0 for an edge call). -/
def GraphOp.given_id : GraphOp → Int
  | .add_location id _ _ _ => id
  | .add_enhanced_location id _ _ _ _ _ _ _ => id
  | _ => 0

/-- The globals after one call; `none` when the call writes outside the
array `graph`. -/
def apply_graph_op (m : Libm) (g : Graph) : GraphOp → Option Graph
  | .add_location id name lat lon => add_location g id name lat lon
  | .add_enhanced_location id name type district lat lon elev traffic =>
    add_enhanced_location g id name type district lat lon elev traffic
  | .add_edge from_ to_ => add_edge m g from_ to_
  | .add_enhanced_edge from_ to_ road_type traffic_factor speed_limit =>
    add_enhanced_edge m g from_ to_ road_type traffic_factor speed_limit

/-- The globals after a sequence of calls. -/
def run_graph_ops (m : Libm) : List GraphOp → Graph → Option Graph
  | [], g => some g
  | op :: ops, g =>
    match apply_graph_op m g op with
    | none => none
    | some g' => run_graph_ops m ops g'

/-- The call is `add_edge`, which stores the 2D distance. -/
def GraphOp.is_plain_edge : GraphOp → Bool
  | .add_edge _ _ => true
  | _ => false

/-- The edge call `op`, if it is one, joins two locations that have been added
already. -/
def joins_existing_here (g : Graph) : GraphOp → Bool
  | .add_edge from_ to_ => decide (InRange g from_) && decide (InRange g to_)
  | .add_enhanced_edge from_ to_ _ _ _ => decide (InRange g from_) && decide (InRange g to_)
  | _ => true

/-- Every edge call of the sequence joins two locations added before it. -/
def joins_existing (m : Libm) : List GraphOp → Graph → Bool
  | [], _ => true
  | op :: ops, g =>
    joins_existing_here g op &&
      match apply_graph_op m g op with
      | none => true
      | some g' => joins_existing m ops g'

/-- The call `op`, if it stores a location, fills a slot whose adjacency list
is empty: no earlier edge call has used the index `node_count`. -/
def fills_empty_slot_here (g : Graph) : GraphOp → Bool
  | .add_location _ _ _ _ => (g.graph g.node_count).edges.isEmpty
  | .add_enhanced_location _ _ _ _ _ _ _ _ => (g.graph g.node_count).edges.isEmpty
  | _ => true

/-- Every call of the sequence that stores a location fills a slot whose
adjacency list is still empty. A sequence of edge calls alone has this
property, and so has every sequence whose edge calls join locations added
before them. -/
def fills_empty_slots (m : Libm) : List GraphOp → Graph → Bool
  | [], _ => true
  | op :: ops, g =>
    match apply_graph_op m g op with
    | none => true
    | some g' => fills_empty_slot_here g op && fills_empty_slots m ops g'

/-- Every edge stored in the array has a twin: the edge `u -> v` is matched
by an edge `v -> u` with the same base distance and road data. -/
def Mirrored (g : Graph) : Prop :=
  ∀ u : Int, 0 ≤ u → u < MAX_NODES → ∀ e ∈ (g.graph u).edges,
    (0 ≤ e.destination ∧ e.destination < MAX_NODES) ∧
    ∃ e' ∈ (g.graph e.destination).edges, e'.destination = u ∧
      e'.base_distance = e.base_distance ∧ e'.road_type = e.road_type ∧
      e'.traffic_factor = e.traffic_factor ∧ e'.speed_limit = e.speed_limit

/-- Every stored edge joins two nodes of the graph and weighs exactly what the
heuristic estimates between them. -/
def EdgesExact (m : Libm) (g : Graph) : Prop :=
  0 ≤ g.node_count ∧
  ∀ u, InRange g u → ∀ e ∈ (g.graph u).edges,
    InRange g e.destination ∧ heuristic_distance m g u e.destination = e.current_weight

/-- The traffic weight in the words of the specification: the base distance
times the time-of-day multiplier `T` times the road-class multiplier `R`. -/
def dynamic_weight_spec (edge : Edge) (hour : Int) : ℚ :=
  let T : ℚ :=
    if hour ∈ [7, 8, 9, 18, 19, 20] then 3 / 2 + 3 / 10 * (edge.traffic_factor : ℚ)
    else if hour ∈ [22, 23, 0, 1, 2, 3, 4, 5, 6] then 4 / 5
    else 1
  let R : ℚ :=
    if edge.road_type = "highway" then 4 / 5
    else if edge.road_type = "local" then 6 / 5
    else 1
  edge.base_distance * T * R

/-- The hour is one of the rush hours 7..9 and 18..20. -/
def is_rush_hour (hour : Int) : Prop :=
  (7 ≤ hour ∧ hour ≤ 9) ∨ (18 ≤ hour ∧ hour ≤ 20)

/-- The hour is one of the hours 10..17 and 21, which carry no time-of-day
multiplier. -/
def is_plain_hour (hour : Int) : Prop :=
  (10 ≤ hour ∧ hour ≤ 17) ∨ hour = 21

/-! ## Specification vocabulary for stale entries -/

/-- The main loop of A* in the words of the specification: an entry whose
vertex is already in the closed set is skipped, before anything else is done
with it. Everything else is the loop of `astar_pathfind`. -/
def astar_loop_skipping (m : Libm) (g : Graph) (end_ : Int) (path : Nat → Int)
    (total_cost : ℚ) : Nat → AStarState → Except Fault AStarResult
  | 0, _ => .error .fuel
  | fuel + 1, st =>
    if st.open_set.size > 0 then
      match extract_min st.open_set with
      | none => .error .bounds
      | some (current, heap') =>
        let u := current.vertex
        if st.in_closed_set u ≠ 0 then
          astar_loop_skipping m g end_ path total_cost fuel { st with open_set := heap' }
        else if u = end_ then
          match trace_back st.parents MAX_NODES end_ path 0 with
          | none => .error .bounds
          | some (path1, path_length) =>
            .ok { path_length := path_length,
                  path := reverse_loop path_length (path_length / 2) 0 path1,
                  total_cost := st.g_costs end_ }
        else
          match astar_relax m g end_ u (g.graph u).edges
              { st with open_set := heap', in_closed_set := Function.update st.in_closed_set u 1 } with
          | none => .error .bounds
          | some st' => astar_loop_skipping m g end_ path total_cost fuel st'
    else .ok { path_length := 0, path := path, total_cost := total_cost }

/-- A* in the words of the specification, with the skip of closed entries. -/
def astar_pathfind_skipping (m : Libm) (g : Graph) (start end_ : Int) (path : Nat → Int)
    (total_cost : ℚ) (fuel : Nat) (st0 : AStarState) : Except Fault AStarResult :=
  match astar_init m g start end_ st0 with
  | none => .error .bounds
  | some st => astar_loop_skipping m g end_ path total_cost fuel st

/-- What makes a second pop of a closed node harmless, for every graph state
and heuristic: the goal is never closed, the closed flags are 0 or 1, and no
edge out of a closed node can lower a g-cost any more. -/
structure AStarTidy (g : Graph) (t : Int) (st : AStarState) : Prop where
  goal_open : st.in_closed_set t = 0
  flags : ∀ u, st.in_closed_set u = 0 ∨ st.in_closed_set u = 1
  settled : ∀ u, st.in_closed_set u ≠ 0 → ∀ e ∈ (g.graph u).edges,
    st.in_closed_set e.destination ≠ 0 ∨ (g.graph e.destination).is_active = 0 ∨
      st.g_costs e.destination ≤ st.g_costs u + e.current_weight

/-- The math library read over the reals: the real sine, cosine and square
root, and `atan2 y x` the angle of the point `(x, y)`, in `(-π, π]`. -/
structure RealLibm (m : LibmOver ℝ) : Prop where
  sin_eq : ∀ x, m.sin x = Real.sin x
  cos_eq : ∀ x, m.cos x = Real.cos x
  sqrt_eq : ∀ x, m.sqrt x = Real.sqrt x
  atan2_eq : ∀ y x, m.atan2 y x = Complex.arg ⟨x, y⟩

/-- Two heap objects hold the same vertices and priorities, slot by slot. -/
def HeapSim (a b : MinHeap) : Prop :=
  a.size = b.size ∧
  ∀ i, (a.nodes i).vertex = (b.nodes i).vertex ∧ (a.nodes i).distance = (b.nodes i).distance

/-- Two states of `dijkstra` hold the same arrays and heaps with the same
vertices and priorities. -/
def StateSim (a b : DijkstraState) : Prop :=
  HeapSim a.heap b.heap ∧ a.distances = b.distances ∧ a.previous = b.previous

/-! ## Scenarios -/

/-- A zero-filled queue entry. -/
def zero_node : PQNode := ⟨0, 0, 0, 0, 0, 0⟩

/-- A zero-filled heap object. -/
def blank_heap : MinHeap := ⟨fun _ => zero_node, 0⟩

/-- A zero-filled location. -/
def blank_location : Location := ⟨0, "", "", 0, 0, 0, 0, ""⟩

/-- Zero-filled caller arrays and local heap for `dijkstra`. -/
def blank_dijkstra : DijkstraState := ⟨blank_heap, fun _ => 0, fun _ => 0⟩

/-- An edge as `add_edge` stores it, with the given destination and distance. -/
def road (dest : Int) (w : ℚ) : Edge := ⟨dest, w, w, "main", 1, 50⟩

/-- The graph state whose node `i` is active and owns the `i`-th adjacency
list of `adj`. -/
def graph_of (adj : List (List Edge)) : Graph :=
  { graph := fun i => ⟨blank_location, adj.getD i.toNat [], 1⟩, node_count := adj.length }

/-- The value `distances[v]` after a run of `dijkstra`, if it returned. -/
def dist_at (r : Except Fault DijkstraState) (v : Int) : Option ℚ :=
  match r with
  | .ok st => some (st.distances v)
  | .error _ => none

/-- The value `previous[v]` after a run of `dijkstra`, if it returned. -/
def prev_at (r : Except Fault DijkstraState) (v : Int) : Option Int :=
  match r with
  | .ok st => some (st.previous v)
  | .error _ => none

/-- The first `n` slots of a path buffer as a list. -/
def path_list (r : Option (Nat × (Nat → Int))) : Option (List Int) :=
  r.map fun np => (List.range np.1).map np.2

/-- A triangle 0-1-2 whose side 0-2 (5 km) is longer than the detour over 1
(1 km + 1 km). -/
def triangle : Graph :=
  graph_of [[road 2 5, road 1 1], [road 2 1, road 0 1], [road 1 1, road 0 5]]

/-- The zero-filled globals `graph` and `node_count` at program start. -/
def blank_graph : Graph := ⟨fun _ => ⟨blank_location, [], 0⟩, 0⟩

/-- Zero-filled locals for `astar_pathfind`. -/
def blank_astar : AStarState := ⟨blank_heap, fun _ => 0, fun _ => 0, fun _ => 0⟩

/-- A rational stand-in for the C math library: the small-angle values
`sin x = x`, `cos x = 1`, `atan2 y x = y / x`, and the square root that is
exact on squares of rationals. At the arguments that arise for two points
with the same latitude and longitude (`sin 0`, `sqrt 0`, `sqrt 1`,
`atan2 0 1`, `sqrt (d * d)`) these are the exact values of the C functions. -/
def small_angle_libm : Libm :=
  { sin := fun x => x, cos := fun _ => 1, sqrt := Rat.sqrt, atan2 := fun y x => y / x }

/-- The length `astar_pathfind` returned, if it returned. -/
def astar_length (r : Except Fault AStarResult) : Option Nat :=
  match r with
  | .ok res => some res.path_length
  | .error _ => none

/-- Three locations at one latitude and longitude, at 0 m, 10000 m and 3000 m,
with `add_edge(0, 1)`, `add_edge(1, 2)` and `add_enhanced_edge(0, 2)`: the two
plain edges have length 0 (elevation ignored), the enhanced edge 3 km. -/
def detour : Graph :=
  ((add_enhanced_location (init_graph blank_graph) 0 "S" "station" "d" 0 0 0 1).bind fun g1 =>
    (add_enhanced_location g1 1 "A" "summit" "d" 0 0 10000 1).bind fun g2 =>
    (add_enhanced_location g2 2 "G" "station" "d" 0 0 3000 1).bind fun g3 =>
    (add_edge small_angle_libm g3 0 1).bind fun g4 =>
    (add_edge small_angle_libm g4 1 2).bind fun g5 =>
    add_enhanced_edge small_angle_libm g5 0 2 "main" 1 50).getD blank_graph

/-- Three locations at one latitude and longitude, at 0 m, 1000 m and 3000 m,
pairwise joined by `add_enhanced_edge`: edges of 1 km, 2 km and 3 km. -/
def ridge : Graph :=
  ((add_enhanced_location (init_graph blank_graph) 0 "S" "station" "d" 0 0 0 1).bind fun g1 =>
    (add_enhanced_location g1 1 "A" "hut" "d" 0 0 1000 1).bind fun g2 =>
    (add_enhanced_location g2 2 "G" "summit" "d" 0 0 3000 1).bind fun g3 =>
    (add_enhanced_edge small_angle_libm g3 0 1 "local" 1 30).bind fun g4 =>
    (add_enhanced_edge small_angle_libm g4 1 2 "local" 1 30).bind fun g5 =>
    add_enhanced_edge small_angle_libm g5 0 2 "main" 1 50).getD blank_graph

/-- The road 0 - 1 - 2 (1 km each) in the graph state where node 1 has been
deactivated. -/
def closed_road : Graph :=
  { graph := fun i =>
      if i = 0 then ⟨blank_location, [road 1 1], 1⟩
      else if i = 1 then ⟨blank_location, [road 2 1, road 0 1], 0⟩
      else if i = 2 then ⟨blank_location, [road 1 1], 1⟩
      else ⟨blank_location, [], 0⟩,
    node_count := 3 }

/-- The calls of the straight-line scenario: three locations added in order and
`add_edge(0, 1)`, `add_edge(1, 2)`. -/
def build_line (m : Libm) (g0 : Graph) (idA idB idC : Int) (nameA nameB nameC : String)
    (latA lonA latB lonB latC lonC : ℚ) : Option Graph :=
  (add_location (init_graph g0) idA nameA latA lonA).bind fun g1 =>
  (add_location g1 idB nameB latB lonB).bind fun g2 =>
  (add_location g2 idC nameC latC lonC).bind fun g3 =>
  (add_edge m g3 0 1).bind fun g4 =>
  add_edge m g4 1 2

/-- The fault a run of the model ended in, if it did. -/
def fault_of {α : Type} (r : Except Fault α) : Option Fault :=
  match r with
  | .ok _ => none
  | .error f => some f

/-- A hub with 49 spokes on 50 nodes: node 0 is joined to node 1 by a road of
1 km and to each of the nodes 2..49 by a road of 10 km; node 1 is also joined
to the nodes 2, 3 and 4 by roads of 1 km. Every road is stored in both
directions, as `add_edge` stores it. -/
def hub : Graph :=
  graph_of
    (((List.range 49).map fun k => road ((k : Int) + 1) (if k = 0 then 1 else 10)) ::
      [road 0 1, road 2 1, road 3 1, road 4 1] ::
      ((List.range 48).map fun k => if k < 3 then [road 0 10, road 1 1] else [road 0 10]))

/-- The `id` field stored at index `i`, if the graph was built. -/
def id_at (g : Option Graph) (i : Int) : Option Int :=
  g.map fun g => (g.graph i).location.id

/-- The `id` field of the location `get_location(k)` returns, if the graph
was built and the result is not `NULL`. -/
def found_id (g : Option Graph) (k : Int) : Option Int :=
  (g.bind fun g => get_location g k).map Location.id

/-- The weights of the edges stored at node `u`, in list order, if the graph
was built. -/
def weights_at (g : Option Graph) (u : Int) : Option (List ℚ) :=
  g.map fun g => (g.graph u).edges.map Edge.current_weight

/-- Two locations at one latitude and longitude, at 0 m and 1000 m, added
through `add_enhanced_location` of trackmate_advanced.c to the zero-filled
globals. -/
def night_nodes : Graph :=
  ((Advanced.add_enhanced_location blank_graph 0 "S" "station" "d" 0 0 0 1).bind fun g1 =>
    Advanced.add_enhanced_location g1 1 "A" "hut" "d" 0 0 1000 1).getD blank_graph

/-- The two locations of `night_nodes` joined through `add_enhanced_edge` of
trackmate_advanced.c by one local road, 1 km long. -/
def night_road : Option Graph :=
  Advanced.add_enhanced_edge small_angle_libm night_nodes 0 1 "local" 1 30

/-- An edge is added before one of its endpoints: location 0 at sea level,
`add_enhanced_edge(0, 1)` while slot 1 is still zero-filled, then location 1
at the same latitude and longitude, 1000 m up. -/
def early_edge : Option Graph :=
  run_graph_ops small_angle_libm
    [.add_enhanced_location 0 "A" "station" "d" 0 0 0 1,
     .add_enhanced_edge 0 1 "main" 1 50,
     .add_enhanced_location 1 "B" "hut" "d" 0 0 1000 1]
    (init_graph blank_graph)

/-- The heap after a sequence of calls on an initialised heap; the zero-filled
heap if one of the calls faults. -/
def heap_after (ops : List HeapOp) : MinHeap :=
  (run_ops ops (init_heap blank_heap)).getD blank_heap

/-- The vertex and the priority in the live slots of a heap, by index. -/
def heap_listing (heap : MinHeap) : List (Int × ℚ) :=
  (List.range heap.size).map fun i => ((heap.nodes i).vertex, (heap.nodes i).distance)

/-- A full location table: `init_graph` followed by MAX_NODES calls of
`add_location` with the ids 0, 1, 2 and so on. -/
def crowded : Option Graph :=
  (List.range MAX_NODES).foldlM (fun g k => add_location g (k : Int) "stop" 0 0)
    (init_graph blank_graph)

/-- A one-way road 0 -> 2 of 5 km with a shortcut 0 -> 1 -> 2 of 1 km + 1 km,
and a road 2 -> 3 of 10 km. A search from 0 queues node 2 twice, with the
priorities 5 and 2. -/
def shortcut : Graph :=
  graph_of [[road 2 5, road 1 1], [road 2 1], [road 3 10], []]

/-- The vertex at the root of the open set after `k` iterations of the main
loop of `astar_pathfind`, with its closed flag at that moment. -/
def closed_pop_at (m : Libm) (g : Graph) (start end_ : Int) (st0 : AStarState) (k : Nat) :
    Option (Int × Int) :=
  (astar_init m g start end_ st0).bind fun sti =>
    (astar_state_after m g end_ k sti).bind fun st =>
      (extract_min st.open_set).map fun p => (p.1.vertex, st.in_closed_set p.1.vertex)

/-- The path `reconstruct_path(end, previous, path)` returns after a run of
`dijkstra`, if the run returned. -/
def route_at (r : Except Fault DijkstraState) (end_ : Int) : Option (List Int) :=
  match r with
  | .ok st => path_list (reconstruct_path end_ st.previous fun _ => 0)
  | .error _ => none

/-- Two nodes joined by one road of 1000000 km, a weight that is not below
`INF = 999999`: what `add_enhanced_edge` stores between two locations at one
latitude and longitude whose elevations differ by 10^9 m. -/
def far_road : Graph :=
  graph_of [[road 1 1000000], [road 0 1000000]]

/-- A hub with 19 spokes on 20 nodes, the node count of trackmate.c: node 0 is
joined to node 1 by a road of 1 km and to each of the nodes 2..19 by a road of
10 km; node 1 is also joined to the nodes 2, 3 and 4 by roads of 1 km. Every
road is stored in both directions. -/
def hub20 : Graph :=
  graph_of
    (((List.range 19).map fun k => road ((k : Int) + 1) (if k = 0 then 1 else 10)) ::
      [road 0 1, road 2 1, road 3 1, road 4 1] ::
      ((List.range 18).map fun k => if k < 3 then [road 0 10, road 1 1] else [road 0 10]))

/-- A location is added after an edge call has used its index: location 0,
`add_edge(0, 1)` while slot 1 is still empty, then location 1, whose call
resets the adjacency list of slot 1. -/
def late_location : Option Graph :=
  run_graph_ops small_angle_libm
    [.add_location 0 "A" 0 0, .add_edge 0 1, .add_location 1 "B" 0 0]
    (init_graph blank_graph)

/-! ## The binary heap -/

theorem swap_nodes_apply (nodes : Nat → PQNode) (a b k : Nat) :
    swap_nodes nodes a b k = nodes (Equiv.swap a b k) := by
  unfold swap_nodes
  by_cases hb : k = b
  · subst hb; simp
  · by_cases ha : k = a
    · subst ha; simp [Function.update_noteq hb]
    · simp [Function.update_noteq hb, Function.update_noteq ha,
        Equiv.swap_apply_of_ne_of_ne ha hb]

theorem swap_nodes_left (nodes : Nat → PQNode) (a b : Nat) :
    swap_nodes nodes a b a = nodes b := by
  rw [swap_nodes_apply, Equiv.swap_apply_left]

theorem swap_nodes_right (nodes : Nat → PQNode) (a b : Nat) :
    swap_nodes nodes a b b = nodes a := by
  rw [swap_nodes_apply, Equiv.swap_apply_right]

theorem swap_nodes_other (nodes : Nat → PQNode) {a b k : Nat} (ha : k ≠ a) (hb : k ≠ b) :
    swap_nodes nodes a b k = nodes k := by
  rw [swap_nodes_apply, Equiv.swap_apply_of_ne_of_ne ha hb]

theorem range_map_swap {a b n : Nat} (ha : a < n) (hb : b < n) :
    (Multiset.range n).map (Equiv.swap a b) = Multiset.range n := by
  rw [Multiset.Nodup.ext ((Multiset.nodup_range n).map (Equiv.swap a b).injective)
    (Multiset.nodup_range n)]
  intro k
  simp only [Multiset.mem_map, Multiset.mem_range]
  constructor
  · rintro ⟨j, hj, rfl⟩
    by_cases h1 : j = a
    · subst h1; simpa using hb
    · by_cases h2 : j = b
      · subst h2; simpa using ha
      · rwa [Equiv.swap_apply_of_ne_of_ne h1 h2]
  · intro hk
    refine ⟨Equiv.swap a b k, ?_, by simp⟩
    by_cases h1 : k = a
    · subst h1; simpa using hb
    · by_cases h2 : k = b
      · subst h2; simpa using ha
      · rwa [Equiv.swap_apply_of_ne_of_ne h1 h2]

theorem live_swap (nodes : Nat → PQNode) {a b n : Nat} (ha : a < n) (hb : b < n) :
    live (swap_nodes nodes a b) n = live nodes n := by
  unfold live
  have h : swap_nodes nodes a b = nodes ∘ (Equiv.swap a b) := by
    funext k; exact swap_nodes_apply nodes a b k
  rw [h, ← Multiset.map_map, range_map_swap ha hb]

theorem live_succ (nodes : Nat → PQNode) (n : Nat) :
    live nodes (n + 1) = nodes n ::ₘ live nodes n := by
  simp [live, Multiset.range_succ]

theorem live_congr {f g : Nat → PQNode} {n : Nat} (h : ∀ i, i < n → f i = g i) :
    live f n = live g n := by
  unfold live
  exact Multiset.map_congr rfl (fun i hi => h i (Multiset.mem_range.mp hi))

theorem mem_live {f : Nat → PQNode} {n : Nat} {e : PQNode} :
    e ∈ live f n ↔ ∃ i, i < n ∧ f i = e := by
  simp [live]

/-! ### heapify_up -/

theorem heapify_up_fuel_size (fuel : Nat) (heap : MinHeap) (index : Nat) :
    (heapify_up_fuel fuel heap index).size = heap.size := by
  induction fuel generalizing heap index with
  | zero => rfl
  | succ fuel ih =>
    unfold heapify_up_fuel
    split
    · rw [ih]
    · rfl

theorem heapify_up_fuel_live (fuel : Nat) (heap : MinHeap) (index n : Nat) (h : index < n) :
    live (heapify_up_fuel fuel heap index).nodes n = live heap.nodes n := by
  induction fuel generalizing heap index with
  | zero => rfl
  | succ fuel ih =>
    unfold heapify_up_fuel
    split
    · rw [ih _ _ (by omega)]
      exact live_swap _ h (by omega)
    · rfl

theorem heapify_up_fuel_above (fuel : Nat) (heap : MinHeap) (index k : Nat) (h : index < k) :
    (heapify_up_fuel fuel heap index).nodes k = heap.nodes k := by
  induction fuel generalizing heap index with
  | zero => rfl
  | succ fuel ih =>
    unfold heapify_up_fuel
    split
    · rw [ih _ _ (by omega)]
      exact swap_nodes_other _ (by omega) (by omega)
    · rfl

theorem heapify_up_fuel_enough (fuel1 fuel2 : Nat) (heap : MinHeap) (index : Nat)
    (h1 : index ≤ fuel1) (h2 : index ≤ fuel2) :
    heapify_up_fuel fuel1 heap index = heapify_up_fuel fuel2 heap index := by
  induction fuel1 generalizing fuel2 heap index with
  | zero =>
    have : index = 0 := by omega
    subst this
    cases fuel2 with
    | zero => rfl
    | succ f => simp [heapify_up_fuel]
  | succ fuel1 ih =>
    cases fuel2 with
    | zero =>
      have : index = 0 := by omega
      subst this
      simp [heapify_up_fuel]
    | succ fuel2 =>
      unfold heapify_up_fuel
      split
      · exact ih _ _ _ (by omega) (by omega)
      · rfl

/-- The defining equation of the C function `heapify_up`. -/
theorem heapify_up_unfold (heap : MinHeap) (index : Nat) :
    heapify_up heap index =
      if index ≠ 0 ∧ (heap.nodes index).distance < (heap.nodes ((index - 1) / 2)).distance then
        heapify_up { heap with nodes := swap_nodes heap.nodes index ((index - 1) / 2) }
          ((index - 1) / 2)
      else heap := by
  unfold heapify_up
  cases index with
  | zero => simp [heapify_up_fuel]
  | succ i =>
    rw [heapify_up_fuel]
    split
    · exact heapify_up_fuel_enough _ _ _ _ (by omega) (le_refl _)
    · rfl

theorem heapify_up_fuel_ordered (fuel : Nat) (heap : MinHeap) (i n : Nat)
    (hf : i ≤ fuel) (hi : i < n) (inv : UpInv heap.nodes n i) :
    Ordered (heapify_up_fuel fuel heap i).nodes n := by
  induction fuel generalizing heap i with
  | zero =>
    have h0 : i = 0 := by omega
    subst h0
    intro j hj hjn
    exact inv.1 j hj hjn (by omega)
  | succ fuel ih =>
    unfold heapify_up_fuel
    split
    · rename_i hc
      obtain ⟨hi0, hlt⟩ := hc
      have hpi : (i - 1) / 2 < i := by omega
      apply ih _ _ (by omega) (by omega)
      refine ⟨?_, ?_⟩
      · intro j hj hjn hjp
        by_cases hji : j = i
        · subst hji
          simp only
          rw [swap_nodes_right, swap_nodes_left]
          exact le_of_lt hlt
        · simp only
          rw [swap_nodes_other _ hji hjp]
          by_cases hq : (j - 1) / 2 = i
          · rw [hq, swap_nodes_left]
            exact inv.2 j hj hjn hq (by omega)
          · by_cases hq2 : (j - 1) / 2 = (i - 1) / 2
            · rw [hq2, swap_nodes_right]
              have := inv.1 j hj hjn hji
              rw [hq2] at this
              exact le_trans (le_of_lt hlt) this
            · rw [swap_nodes_other _ hq hq2]
              exact inv.1 j hj hjn hji
      · intro j hj hjn hq hp
        simp only
        have hr1 : ((i - 1) / 2 - 1) / 2 ≠ i := by omega
        have hr2 : ((i - 1) / 2 - 1) / 2 ≠ (i - 1) / 2 := by omega
        rw [swap_nodes_other _ hr1 hr2]
        have hrp := inv.1 ((i - 1) / 2) hp (by omega) (by omega)
        by_cases hji : j = i
        · subst hji
          rw [swap_nodes_left]
          exact hrp
        · have hjp : j ≠ (i - 1) / 2 := by omega
          rw [swap_nodes_other _ hji hjp]
          have := inv.1 j hj hjn hji
          rw [hq] at this
          exact le_trans hrp this
    · rename_i hc
      intro j hj hjn
      by_cases hji : j = i
      · subst hji
        have : ¬ (heap.nodes j).distance < (heap.nodes ((j - 1) / 2)).distance := by
          intro h; exact hc ⟨by omega, h⟩
        exact not_lt.mp this
      · exact inv.1 j hj hjn hji

/-! ### heapify_down -/

theorem smallest_child_cases (heap : MinHeap) (i : Nat) :
    smallest_child heap i = i ∨
    (smallest_child heap i = 2 * i + 1 ∧ 2 * i + 1 < heap.size) ∨
    (smallest_child heap i = 2 * i + 2 ∧ 2 * i + 2 < heap.size) := by
  unfold smallest_child
  simp only
  by_cases hL : 2 * i + 1 < heap.size ∧ (heap.nodes (2 * i + 1)).distance < (heap.nodes i).distance
  · simp only [if_pos hL]
    by_cases hR : 2 * i + 2 < heap.size ∧
        (heap.nodes (2 * i + 2)).distance < (heap.nodes (2 * i + 1)).distance
    · rw [if_pos hR]; exact Or.inr (Or.inr ⟨rfl, hR.1⟩)
    · rw [if_neg hR]; exact Or.inr (Or.inl ⟨rfl, hL.1⟩)
  · simp only [if_neg hL]
    by_cases hR : 2 * i + 2 < heap.size ∧
        (heap.nodes (2 * i + 2)).distance < (heap.nodes i).distance
    · rw [if_pos hR]; exact Or.inr (Or.inr ⟨rfl, hR.1⟩)
    · rw [if_neg hR]; exact Or.inl rfl

theorem smallest_child_le_self (heap : MinHeap) (i : Nat) :
    (heap.nodes (smallest_child heap i)).distance ≤ (heap.nodes i).distance := by
  unfold smallest_child
  simp only
  by_cases hL : 2 * i + 1 < heap.size ∧ (heap.nodes (2 * i + 1)).distance < (heap.nodes i).distance
  · simp only [if_pos hL]
    by_cases hR : 2 * i + 2 < heap.size ∧
        (heap.nodes (2 * i + 2)).distance < (heap.nodes (2 * i + 1)).distance
    · rw [if_pos hR]; exact le_trans (le_of_lt hR.2) (le_of_lt hL.2)
    · rw [if_neg hR]; exact le_of_lt hL.2
  · simp only [if_neg hL]
    by_cases hR : 2 * i + 2 < heap.size ∧
        (heap.nodes (2 * i + 2)).distance < (heap.nodes i).distance
    · rw [if_pos hR]; exact le_of_lt hR.2
    · rw [if_neg hR]

theorem smallest_child_le_left (heap : MinHeap) (i : Nat) (hl : 2 * i + 1 < heap.size) :
    (heap.nodes (smallest_child heap i)).distance ≤ (heap.nodes (2 * i + 1)).distance := by
  unfold smallest_child
  simp only
  by_cases hL : 2 * i + 1 < heap.size ∧ (heap.nodes (2 * i + 1)).distance < (heap.nodes i).distance
  · simp only [if_pos hL]
    by_cases hR : 2 * i + 2 < heap.size ∧
        (heap.nodes (2 * i + 2)).distance < (heap.nodes (2 * i + 1)).distance
    · rw [if_pos hR]; exact le_of_lt hR.2
    · rw [if_neg hR]
  · simp only [if_neg hL]
    have h2 : (heap.nodes i).distance ≤ (heap.nodes (2 * i + 1)).distance :=
      not_lt.mp (fun hh => hL ⟨hl, hh⟩)
    by_cases hR : 2 * i + 2 < heap.size ∧
        (heap.nodes (2 * i + 2)).distance < (heap.nodes i).distance
    · rw [if_pos hR]; exact le_trans (le_of_lt hR.2) h2
    · rw [if_neg hR]; exact h2

theorem smallest_child_le_right (heap : MinHeap) (i : Nat) (hr : 2 * i + 2 < heap.size) :
    (heap.nodes (smallest_child heap i)).distance ≤ (heap.nodes (2 * i + 2)).distance := by
  unfold smallest_child
  simp only
  by_cases hL : 2 * i + 1 < heap.size ∧ (heap.nodes (2 * i + 1)).distance < (heap.nodes i).distance
  · simp only [if_pos hL]
    by_cases hR : 2 * i + 2 < heap.size ∧
        (heap.nodes (2 * i + 2)).distance < (heap.nodes (2 * i + 1)).distance
    · rw [if_pos hR]
    · rw [if_neg hR]; exact not_lt.mp (fun hh => hR ⟨hr, hh⟩)
  · simp only [if_neg hL]
    by_cases hR : 2 * i + 2 < heap.size ∧
        (heap.nodes (2 * i + 2)).distance < (heap.nodes i).distance
    · rw [if_pos hR]
    · rw [if_neg hR]; exact not_lt.mp (fun hh => hR ⟨hr, hh⟩)

theorem heapify_down_fuel_size (fuel : Nat) (heap : MinHeap) (index : Nat) :
    (heapify_down_fuel fuel heap index).size = heap.size := by
  induction fuel generalizing heap index with
  | zero => rfl
  | succ fuel ih =>
    unfold heapify_down_fuel
    split
    · rw [ih]
    · rfl

theorem heapify_down_fuel_live (fuel : Nat) (heap : MinHeap) (index : Nat)
    (h : index < heap.size) :
    live (heapify_down_fuel fuel heap index).nodes heap.size = live heap.nodes heap.size := by
  induction fuel generalizing heap index with
  | zero => rfl
  | succ fuel ih =>
    unfold heapify_down_fuel
    split
    · rename_i hs
      have hlt : smallest_child heap index < heap.size := by
        rcases smallest_child_cases heap index with h1 | h1 | h1
        · exact absurd h1 hs
        · omega
        · omega
      have := ih { heap with nodes := swap_nodes heap.nodes index (smallest_child heap index) }
        (smallest_child heap index) hlt
      simp only at this
      rw [this]
      exact live_swap _ h hlt
    · rfl

theorem heapify_down_fuel_enough (fuel1 fuel2 : Nat) (heap : MinHeap) (index : Nat)
    (h1 : heap.size ≤ fuel1 + index) (h2 : heap.size ≤ fuel2 + index) :
    heapify_down_fuel fuel1 heap index = heapify_down_fuel fuel2 heap index := by
  induction fuel1 generalizing fuel2 heap index with
  | zero =>
    have hs : smallest_child heap index = index := by
      rcases smallest_child_cases heap index with h | h | h
      · exact h
      · omega
      · omega
    cases fuel2 with
    | zero => rfl
    | succ f => simp [heapify_down_fuel, hs]
  | succ fuel1 ih =>
    cases fuel2 with
    | zero =>
      have hs : smallest_child heap index = index := by
        rcases smallest_child_cases heap index with h | h | h
        · exact h
        · omega
        · omega
      simp [heapify_down_fuel, hs]
    | succ fuel2 =>
      unfold heapify_down_fuel
      split
      · rename_i hs
        have hgt : index < smallest_child heap index := by
          rcases smallest_child_cases heap index with h | h | h
          · exact absurd h hs
          · omega
          · omega
        exact ih _ _ _ (by show heap.size ≤ _; omega) (by show heap.size ≤ _; omega)
      · rfl

theorem heapify_down_fuel_step (fuel : Nat) (heap : MinHeap) (index : Nat)
    (h : heap.size ≤ fuel + index) :
    heapify_down_fuel fuel heap index =
      if smallest_child heap index ≠ index then
        heapify_down_fuel fuel
          { heap with nodes := swap_nodes heap.nodes index (smallest_child heap index) }
          (smallest_child heap index)
      else heap := by
  cases fuel with
  | zero =>
    have hs : smallest_child heap index = index := by
      rcases smallest_child_cases heap index with h | h | h
      · exact h
      · omega
      · omega
    simp [heapify_down_fuel, hs]
  | succ n =>
    rw [heapify_down_fuel]
    split
    · rename_i hs
      have hgt : index < smallest_child heap index := by
        rcases smallest_child_cases heap index with h | h | h
        · exact absurd h hs
        · omega
        · omega
      exact heapify_down_fuel_enough _ _ _ _ (by show heap.size ≤ _; omega)
        (by show heap.size ≤ _; omega)
    · rfl

/-- The defining equation of the C function `heapify_down`. -/
theorem heapify_down_unfold (heap : MinHeap) (index : Nat) :
    heapify_down heap index =
      if smallest_child heap index ≠ index then
        heapify_down { heap with nodes := swap_nodes heap.nodes index (smallest_child heap index) }
          (smallest_child heap index)
      else heap :=
  heapify_down_fuel_step heap.size heap index (by omega)

theorem heapify_down_fuel_ordered (fuel : Nat) (heap : MinHeap) (i : Nat)
    (hf : heap.size ≤ fuel + i) (inv : DownInv heap.nodes heap.size i) :
    Ordered (heapify_down_fuel fuel heap i).nodes heap.size := by
  induction fuel generalizing heap i with
  | zero =>
    intro j hj hjn
    exact inv.1 j hj hjn (by omega)
  | succ fuel ih =>
    unfold heapify_down_fuel
    split
    · rename_i hs
      have hcases := smallest_child_cases heap i
      have hself := smallest_child_le_self heap i
      have hleft := smallest_child_le_left heap i
      have hright := smallest_child_le_right heap i
      generalize smallest_child heap i = s at *
      have hgt : i < s := by omega
      have hsn : s < heap.size := by omega
      have hps : (s - 1) / 2 = i := by omega
      have := ih { heap with nodes := swap_nodes heap.nodes i s } s (by show heap.size ≤ _; omega)
      simp only at this
      apply this
      refine ⟨?_, ?_⟩
      · intro j hj hjn hq
        by_cases hjs : j = s
        · subst hjs
          rw [hps, swap_nodes_left, swap_nodes_right]
          exact hself
        · by_cases hji : j = i
          · subst hji
            have hr1 : (j - 1) / 2 ≠ j := by omega
            rw [swap_nodes_left, swap_nodes_other _ hr1 hq]
            exact inv.2 s (by omega) hsn hps hj
          · rw [swap_nodes_other _ hji hjs]
            by_cases hqi : (j - 1) / 2 = i
            · rw [hqi, swap_nodes_left]
              have hj2 : j = 2 * i + 1 ∨ j = 2 * i + 2 := by omega
              rcases hj2 with h | h
              · subst h; exact hleft hjn
              · subst h; exact hright hjn
            · rw [swap_nodes_other _ hqi hq]
              exact inv.1 j hj hjn hqi
      · intro j hj hjn hq hs0
        rw [hps, swap_nodes_left]
        have hji : j ≠ i := by omega
        have hjs : j ≠ s := by omega
        rw [swap_nodes_other _ hji hjs]
        have := inv.1 j hj hjn (by omega)
        rw [hq] at this
        exact this
    · rename_i hs
      have hs : smallest_child heap i = i := not_not.mp hs
      intro j hj hjn
      by_cases hq : (j - 1) / 2 = i
      · have hj2 : j = 2 * i + 1 ∨ j = 2 * i + 2 := by omega
        rw [hq]
        rcases hj2 with h | h
        · have := smallest_child_le_left heap i (by omega)
          rw [hs] at this; rw [h]; exact this
        · have := smallest_child_le_right heap i (by omega)
          rw [hs] at this; rw [h]; exact this
      · exact inv.1 j hj hjn hq

theorem ordered_root_le {f : Nat → PQNode} {n : Nat} (h : Ordered f n) (i : Nat) (hi : i < n) :
    (f 0).distance ≤ (f i).distance := by
  induction i using Nat.strong_induction_on with
  | _ i ih =>
    by_cases h0 : i = 0
    · subst h0; exact le_refl _
    · exact le_trans (ih ((i - 1) / 2) (by omega) (by omega)) (h i (by omega) hi)

/-! ### insert_heap, insert_heap_astar, extract_min -/

theorem push_slot_entries (heap : MinHeap) (slot : PQNode) :
    live (heapify_up { heap with nodes := Function.update heap.nodes heap.size slot }
      heap.size).nodes (heap.size + 1) = slot ::ₘ entries heap := by
  unfold heapify_up
  rw [heapify_up_fuel_live _ _ _ _ (Nat.lt_succ_self _), live_succ]
  simp only [Function.update_same]
  congr 1
  exact live_congr (fun i hi => Function.update_noteq (by omega) _ _)

theorem push_slot_ordered (heap : MinHeap) (slot : PQNode) (ho : HeapOrdered heap) :
    Ordered (heapify_up { heap with nodes := Function.update heap.nodes heap.size slot }
      heap.size).nodes (heap.size + 1) := by
  unfold heapify_up
  apply heapify_up_fuel_ordered _ _ _ _ (le_refl _) (Nat.lt_succ_self _)
  refine ⟨?_, ?_⟩
  · intro j hj hjn hne
    have hjs : j < heap.size := by omega
    simp only
    rw [Function.update_noteq (by omega), Function.update_noteq (by omega)]
    exact ho j hj hjs
  · intro j hj hjn hq _
    omega

theorem insert_heap_none {heap : MinHeap} {v : Int} {d : ℚ} :
    insert_heap heap v d = none ↔ MAX_NODES ≤ heap.size := by
  unfold insert_heap
  split <;> simp <;> omega

theorem insert_heap_some {heap heap' : MinHeap} {v : Int} {d : ℚ}
    (h : insert_heap heap v d = some heap') :
    heap.size < MAX_NODES ∧ heap'.size = heap.size + 1 ∧
    ∃ e : PQNode, e.vertex = v ∧ e.distance = d ∧ entries heap' = e ::ₘ entries heap ∧
      (HeapOrdered heap → HeapOrdered heap') := by
  unfold insert_heap at h
  split at h
  · rename_i hlt
    simp only [Option.some.injEq] at h
    subst h
    refine ⟨hlt, rfl, ⟨v, d, (heap.nodes heap.size).g_cost, (heap.nodes heap.size).h_cost, d,
      (heap.nodes heap.size).parent⟩, rfl, rfl, ?_, ?_⟩
    · exact push_slot_entries heap _
    · intro ho
      exact push_slot_ordered heap _ ho
  · exact absurd h (by simp)

theorem insert_heap_astar_none {heap : MinHeap} {v : Int} {g h : ℚ} {p : Int} :
    insert_heap_astar heap v g h p = none ↔ MAX_NODES ≤ heap.size := by
  unfold insert_heap_astar
  split <;> simp <;> omega

theorem insert_heap_astar_some {heap heap' : MinHeap} {v : Int} {g h : ℚ} {p : Int}
    (hs : insert_heap_astar heap v g h p = some heap') :
    heap.size < MAX_NODES ∧ heap'.size = heap.size + 1 ∧
    entries heap' = (⟨v, g + h, g, h, g + h, p⟩ : PQNode) ::ₘ entries heap ∧
      (HeapOrdered heap → HeapOrdered heap') := by
  unfold insert_heap_astar at hs
  split at hs
  · rename_i hlt
    simp only [Option.some.injEq] at hs
    subst hs
    refine ⟨hlt, rfl, ?_, ?_⟩
    · exact push_slot_entries heap _
    · intro ho
      exact push_slot_ordered heap _ ho
  · exact absurd hs (by simp)

theorem live_update_zero (f : Nat → PQNode) (x : PQNode) (n : Nat) (hn : 1 ≤ n) :
    f 0 ::ₘ live (Function.update f 0 x) n = x ::ₘ live f n := by
  induction n, hn using Nat.le_induction with
  | base =>
    simp only [live, Multiset.range_succ, Multiset.range_zero, Multiset.map_cons,
      Multiset.map_zero, Function.update_same]
    exact Multiset.cons_swap _ _ _
  | succ n hn ih =>
    rw [live_succ, live_succ, Function.update_noteq (by omega), Multiset.cons_swap, ih,
      Multiset.cons_swap]

theorem extract_min_eq (heap : MinHeap) :
    extract_min heap =
      if 0 < heap.size then
        some (heap.nodes 0,
          heapify_down { nodes := Function.update heap.nodes 0 (heap.nodes (heap.size - 1)),
                         size := heap.size - 1 } 0)
      else none := rfl

theorem extract_min_none {heap : MinHeap} : extract_min heap = none ↔ heap.size = 0 := by
  rw [extract_min_eq]
  split <;> simp <;> omega

theorem extract_min_some {heap heap' : MinHeap} {m : PQNode}
    (h : extract_min heap = some (m, heap')) :
    0 < heap.size ∧ m = heap.nodes 0 ∧ heap'.size + 1 = heap.size ∧
    entries heap = m ::ₘ entries heap' := by
  rw [extract_min_eq] at h
  split at h
  · rename_i hpos
    simp only [Option.some.injEq, Prod.mk.injEq] at h
    obtain ⟨hm, hh⟩ := h
    subst hm hh
    refine ⟨hpos, rfl, ?_, ?_⟩
    · unfold heapify_down
      rw [heapify_down_fuel_size]
      show heap.size - 1 + 1 = heap.size
      omega
    · unfold entries heapify_down
      rw [heapify_down_fuel_size]
      show live heap.nodes heap.size = _ ::ₘ live _ (heap.size - 1)
      by_cases h1 : heap.size - 1 = 0
      · have h2 : heap.size = 1 := by omega
        rw [h1, h2]
        simp [live, Multiset.range_succ]
      · have := heapify_down_fuel_live (heap.size - 1)
          { nodes := Function.update heap.nodes 0 (heap.nodes (heap.size - 1)),
            size := heap.size - 1 } 0 (by show 0 < heap.size - 1; omega)
        simp only at this
        rw [this, live_update_zero _ _ _ (by omega), ← live_succ]
        congr 1
        omega
  · exact absurd h (by simp)

theorem extract_min_ordered {heap heap' : MinHeap} {m : PQNode}
    (h : extract_min heap = some (m, heap')) (ho : HeapOrdered heap) :
    HeapOrdered heap' ∧ ∀ e ∈ entries heap, m.distance ≤ e.distance := by
  have hspec := extract_min_some h
  rw [extract_min_eq] at h
  split at h
  · rename_i hpos
    simp only [Option.some.injEq, Prod.mk.injEq] at h
    obtain ⟨hm, hh⟩ := h
    subst hm hh
    constructor
    · unfold HeapOrdered heapify_down
      rw [heapify_down_fuel_size]
      have := heapify_down_fuel_ordered (heap.size - 1)
        { nodes := Function.update heap.nodes 0 (heap.nodes (heap.size - 1)),
          size := heap.size - 1 } 0 (by show heap.size - 1 ≤ _; omega)
      simp only at this
      apply this
      refine ⟨?_, ?_⟩
      · intro j hj hjn hq
        rw [Function.update_noteq hq, Function.update_noteq (by omega)]
        exact ho j hj (by omega)
      · intro j _ _ _ h0
        omega
    · intro e he
      obtain ⟨i, hi, rfl⟩ := mem_live.mp he
      exact ordered_root_le ho i hi
  · exact absurd h (by simp)

/-! ## Walks in the graph -/

theorem mem_node_set {g : Graph} {v : Int} : v ∈ node_set g ↔ InRange g v := by
  unfold node_set InRange
  simp only [Finset.mem_map, Finset.mem_range, Nat.castEmbedding_apply]
  constructor
  · rintro ⟨i, hi, rfl⟩
    omega
  · rintro ⟨h0, h1⟩
    exact ⟨v.toNat, by omega, by omega⟩

theorem path_weight_nil : path_weight [] = 0 := rfl

theorem path_weight_cons (e : Edge) (es : List Edge) :
    path_weight (e :: es) = e.current_weight + path_weight es := by
  simp [path_weight]

theorem path_weight_append (a b : List Edge) :
    path_weight (a ++ b) = path_weight a + path_weight b := by
  simp [path_weight]

theorem isPath_append {g : Graph} {s t : Int} {a b : List Edge} :
    IsPath g s (a ++ b) t ↔ ∃ m, IsPath g s a m ∧ IsPath g m b t := by
  induction a generalizing s with
  | nil =>
    simp only [List.nil_append, IsPath]
    constructor
    · intro h; exact ⟨s, rfl, h⟩
    · rintro ⟨m, rfl, h⟩; exact h
  | cons e a ih =>
    show (e ∈ (g.graph s).edges ∧ IsPath g e.destination (a ++ b) t) ↔
      ∃ m, (e ∈ (g.graph s).edges ∧ IsPath g e.destination a m) ∧ IsPath g m b t
    rw [ih]
    constructor
    · rintro ⟨he, m, h1, h2⟩; exact ⟨m, ⟨he, h1⟩, h2⟩
    · rintro ⟨m, ⟨he, h1⟩, h2⟩; exact ⟨he, m, h1, h2⟩

theorem isPath_snoc {g : Graph} {s u : Int} {es : List Edge} {e : Edge}
    (h : IsPath g s es u) (he : e ∈ (g.graph u).edges) :
    IsPath g s (es ++ [e]) e.destination :=
  isPath_append.mpr ⟨u, h, he, rfl⟩

theorem isPath_inRange {g : Graph} (wf : WellFormed g) {s t : Int} {es : List Edge}
    (hs : InRange g s) (h : IsPath g s es t) : InRange g t := by
  induction es generalizing s with
  | nil => exact h ▸ hs
  | cons e es ih => exact ih (wf s hs e h.1) h.2

theorem path_weight_nonneg {g : Graph} (wf : WellFormed g) (nn : NonNeg g) {s t : Int}
    {es : List Edge} (hs : InRange g s) (h : IsPath g s es t) : 0 ≤ path_weight es := by
  induction es generalizing s with
  | nil => exact le_refl _
  | cons e es ih =>
    rw [path_weight_cons]
    exact add_nonneg (nn s hs e h.1) (ih (wf s hs e h.1) h.2)

theorem path_nodes_inRange {g : Graph} (wf : WellFormed g) {s t : Int} {es : List Edge}
    (hs : InRange g s) (h : IsPath g s es t) : ∀ x ∈ path_nodes s es, InRange g x := by
  induction es generalizing s with
  | nil =>
    intro x hx
    simp only [path_nodes, List.map_nil, List.mem_singleton] at hx
    exact hx ▸ hs
  | cons e es ih =>
    intro x hx
    simp only [path_nodes, List.map_cons, List.mem_cons] at hx
    rcases hx with rfl | hx
    · exact hs
    · exact ih (wf s hs e h.1) h.2 x (by simpa [path_nodes] using hx)

/-- A node on a walk starts a final stretch of that walk, which is no heavier
and visits only nodes the walk visits after it. -/
theorem isPath_suffix_from {g : Graph} (wf : WellFormed g) (nn : NonNeg g) {s t x : Int}
    {es : List Edge} (hs : InRange g s) (h : IsPath g s es t) (hx : x ∈ path_nodes s es) :
    ∃ es', IsPath g x es' t ∧ path_weight es' ≤ path_weight es ∧
      path_nodes x es' <:+ path_nodes s es := by
  induction es generalizing s with
  | nil =>
    simp only [path_nodes, List.map_nil, List.mem_singleton] at hx
    subst hx
    exact ⟨[], h, le_refl _, List.suffix_refl _⟩
  | cons e es ih =>
    simp only [path_nodes, List.map_cons, List.mem_cons] at hx
    rcases hx with rfl | hx
    · exact ⟨e :: es, h, le_refl _, List.suffix_refl _⟩
    · obtain ⟨es', h1, h2, h3⟩ := ih (wf s hs e h.1) h.2 (by simpa [path_nodes] using hx)
      refine ⟨es', h1, ?_, ?_⟩
      · rw [path_weight_cons]
        linarith [nn s hs e h.1]
      · exact h3.trans (List.suffix_cons _ _)

/-- Every walk can be replaced by one that visits no node twice and is no
heavier. -/
theorem exists_simple_path {g : Graph} (wf : WellFormed g) (nn : NonNeg g) {s t : Int}
    {es : List Edge} (hs : InRange g s) (h : IsPath g s es t) :
    ∃ es', IsPath g s es' t ∧ (path_nodes s es').Nodup ∧ path_weight es' ≤ path_weight es := by
  induction es generalizing s with
  | nil => exact ⟨[], h, by simp [path_nodes], le_refl _⟩
  | cons e es ih =>
    have hd := wf s hs e h.1
    obtain ⟨es1, p1, n1, w1⟩ := ih hd h.2
    by_cases hmem : s ∈ path_nodes e.destination es1
    · obtain ⟨es2, p2, w2, suf⟩ := isPath_suffix_from wf nn hd p1 hmem
      refine ⟨es2, p2, ?_, ?_⟩
      · exact List.Nodup.sublist suf.sublist n1
      · rw [path_weight_cons]
        linarith [nn s hs e h.1]
    · refine ⟨e :: es1, ⟨h.1, p1⟩, ?_, ?_⟩
      · simp only [path_nodes, List.map_cons, List.nodup_cons]
        exact ⟨by simpa [path_nodes] using hmem, by simpa [path_nodes] using n1⟩
      · rw [path_weight_cons, path_weight_cons]
        linarith

theorem row_weight_nonneg {g : Graph} (nn : NonNeg g) {u : Int} (hu : InRange g u) :
    0 ≤ row_weight g u := by
  unfold row_weight
  apply List.sum_nonneg
  intro x hx
  obtain ⟨e, he, rfl⟩ := List.mem_map.mp hx
  exact nn u hu e he

theorem edge_le_row_weight {g : Graph} (nn : NonNeg g) {u : Int} (hu : InRange g u)
    {e : Edge} (he : e ∈ (g.graph u).edges) : e.current_weight ≤ row_weight g u := by
  unfold row_weight
  apply List.single_le_sum
  · intro x hx
    obtain ⟨e', he', rfl⟩ := List.mem_map.mp hx
    exact nn u hu e' he'
  · exact List.mem_map.mpr ⟨e, he, rfl⟩

theorem path_weight_le_rows {g : Graph} (wf : WellFormed g) (nn : NonNeg g) {s t : Int}
    {es : List Edge} (hs : InRange g s) (h : IsPath g s es t) :
    path_weight es ≤ ((path_nodes s es).map (row_weight g)).sum := by
  induction es generalizing s with
  | nil =>
    simp only [path_weight_nil, path_nodes, List.map_nil, List.map_cons, List.sum_cons,
      List.sum_nil, add_zero]
    exact row_weight_nonneg nn hs
  | cons e es ih =>
    have := ih (wf s hs e h.1) h.2
    rw [path_weight_cons]
    simp only [path_nodes, List.map_cons, List.sum_cons] at this ⊢
    linarith [edge_le_row_weight nn hs h.1]

theorem total_weight_eq (g : Graph) : total_weight g = ∑ v in node_set g, row_weight g v := by
  unfold total_weight node_set
  rw [Finset.sum_map]
  rfl

theorem edge_count_eq (g : Graph) :
    edge_count g = ∑ v in node_set g, (g.graph v).edges.length := by
  unfold edge_count node_set
  rw [Finset.sum_map]
  rfl

theorem simple_path_le_total {g : Graph} (wf : WellFormed g) (nn : NonNeg g) {s t : Int}
    {es : List Edge} (hs : InRange g s) (h : IsPath g s es t)
    (nd : (path_nodes s es).Nodup) : path_weight es ≤ total_weight g := by
  refine le_trans (path_weight_le_rows wf nn hs h) ?_
  rw [total_weight_eq, ← List.sum_toFinset _ nd]
  apply Finset.sum_le_sum_of_subset_of_nonneg
  · intro x hx
    rw [List.mem_toFinset] at hx
    exact mem_node_set.mpr (path_nodes_inRange wf hs h x hx)
  · intro x hx _
    exact row_weight_nonneg nn (mem_node_set.mp hx)

/-- A reachable node is reached by a walk no heavier than all edges together. -/
theorem exists_path_le_total {g : Graph} (wf : WellFormed g) (nn : NonNeg g) {s t : Int}
    (hs : InRange g s) (h : Reachable g s t) :
    ∃ es, IsPath g s es t ∧ path_weight es ≤ total_weight g := by
  obtain ⟨es, hp⟩ := h
  obtain ⟨es', p, nd, _⟩ := exists_simple_path wf nn hs hp
  exact ⟨es', p, simple_path_le_total wf nn hs p nd⟩

/-! ## Dijkstra: the predecessor pointers -/

theorem rooted_update_below {g : Graph} {prev : Int → Int} {dist : Int → ℚ} {s v u : Int}
    {alt : ℚ} (hvs : v ≠ s) :
    ∀ x, Rooted g prev dist s x → dist x < dist v →
      Rooted g (Function.update prev v u) (Function.update dist v alt) s x := by
  intro x hx
  induction hx with
  | root h0 =>
    intro _
    exact Rooted.root (by rw [Function.update_noteq (Ne.symm hvs)]; exact h0)
  | @step x u0 hp hr hle hedge _ ih =>
    intro hlt
    have hxv : x ≠ v := fun h => by rw [h] at hlt; exact lt_irrefl _ hlt
    have huv : u0 ≠ v := fun h => by rw [h] at hle; exact absurd (lt_of_le_of_lt hle hlt) (lt_irrefl _)
    refine Rooted.step (u := u0) ?_ hr ?_ ?_ (ih (lt_of_le_of_lt hle hlt))
    · rw [Function.update_noteq hxv]; exact hp
    · rw [Function.update_noteq hxv, Function.update_noteq huv]; exact hle
    · rw [Function.update_noteq hxv, Function.update_noteq huv]; exact hedge

theorem rooted_update {g : Graph} {prev : Int → Int} {dist : Int → ℚ} {s v u : Int}
    {alt : ℚ} {e : Edge} (hvs : v ≠ s) (hu : InRange g u) (he : e ∈ (g.graph u).edges)
    (hdest : e.destination = v) (halt : alt = dist u + e.current_weight)
    (hw : 0 ≤ e.current_weight) (hlt : alt < dist v) (hru : Rooted g prev dist s u) :
    ∀ y, Rooted g prev dist s y →
      Rooted g (Function.update prev v u) (Function.update dist v alt) s y := by
  have hua : dist u ≤ alt := by rw [halt]; linarith
  have huv : u ≠ v := fun h => by rw [h] at hua; exact absurd (lt_of_le_of_lt hua hlt) (lt_irrefl _)
  have hv : Rooted g (Function.update prev v u) (Function.update dist v alt) s v := by
    refine Rooted.step (u := u) ?_ hu ?_ ?_
      (rooted_update_below hvs u hru (lt_of_le_of_lt hua hlt))
    · rw [Function.update_same]
    · rw [Function.update_same, Function.update_noteq huv]; exact hua
    · refine ⟨e, he, hdest, ?_⟩
      rw [Function.update_same, Function.update_noteq huv, halt]
  intro y hy
  induction hy with
  | root h0 => exact Rooted.root (by rw [Function.update_noteq (Ne.symm hvs)]; exact h0)
  | @step y u0 hp hr hle hedge _ ih =>
    by_cases hyv : y = v
    · rw [hyv]; exact hv
    · have hd : Function.update dist v alt u0 ≤ dist u0 := by
        by_cases h : u0 = v
        · rw [h, Function.update_same]; exact le_of_lt hlt
        · rw [Function.update_noteq h]
      refine Rooted.step (u := u0) ?_ hr ?_ ?_ ih
      · rw [Function.update_noteq hyv]; exact hp
      · rw [Function.update_noteq hyv]; exact le_trans hd hle
      · obtain ⟨e0, he0, hd0, hw0⟩ := hedge
        refine ⟨e0, he0, hd0, ?_⟩
        rw [Function.update_noteq hyv]
        linarith

theorem update_le {dist : Int → ℚ} {v : Int} {alt : ℚ} (hlt : alt < dist v) (x : Int) :
    Function.update dist v alt x ≤ dist x := by
  by_cases h : x = v
  · rw [h, Function.update_same]; exact le_of_lt hlt
  · rw [Function.update_noteq h]

/-! ## Dijkstra: the inner loop -/

theorem relax_step_inv {g : Graph} (wf : WellFormed g) (nn : NonNeg g) {s : Int}
    {R : Finset Int} {u : Int} {st : DijkstraState} (inv : RelaxInv g s R u st) {e : Edge}
    (he : e ∈ (g.graph u).edges)
    (hlt : st.distances u + e.current_weight < st.distances e.destination)
    {heap' : MinHeap}
    (hins : insert_heap st.heap e.destination (st.distances u + e.current_weight) = some heap') :
    RelaxInv g s R u
      { heap := heap',
        distances := Function.update st.distances e.destination
          (st.distances u + e.current_weight),
        previous := Function.update st.previous e.destination u } := by
  have hu := inv.current
  have hv : InRange g e.destination := wf u hu e he
  have hw : 0 ≤ e.current_weight := nn u hu e he
  have hdu0 : 0 ≤ st.distances u := inv.dist_nonneg u hu
  have hvu : e.destination ≠ u := by
    intro h; rw [h] at hlt; linarith
  have hvs : e.destination ≠ s := by
    intro h; rw [h, inv.dist_start] at hlt; linarith
  have hvR : e.destination ∈ R := by
    by_contra h
    have := inv.below_current _ hv h
    linarith
  have hduI : st.distances u < INF := by
    have := inv.dist_le_inf _ hv
    linarith
  obtain ⟨_, _, ent, hev, hed, hent, hord⟩ := insert_heap_some hins
  have hmem : ∀ x, x ∈ entries heap' ↔ x = ent ∨ x ∈ entries st.heap := by
    intro x; rw [hent, Multiset.mem_cons]
  have hle := @update_le st.distances _ _ hlt
  refine
    { ordered := hord inv.ordered
      dist_start := ?_
      prev_start := ?_
      dist_nonneg := ?_
      dist_le_inf := ?_
      dist_path := ?_
      prev_none := ?_
      rooted := ?_
      heap_key := ?_
      queued := ?_
      unexpanded := inv.unexpanded
      relaxed := ?_
      settled := ?_
      current := hu
      below_current := ?_
      above_current := ?_ }
  · show Function.update st.distances _ _ s = 0
    rw [Function.update_noteq (Ne.symm hvs)]; exact inv.dist_start
  · show Function.update st.previous _ _ s = -1
    rw [Function.update_noteq (Ne.symm hvs)]; exact inv.prev_start
  · intro x hx
    show 0 ≤ Function.update st.distances _ _ x
    by_cases h : x = e.destination
    · rw [h, Function.update_same]; linarith
    · rw [Function.update_noteq h]; exact inv.dist_nonneg x hx
  · intro x hx
    exact le_trans (hle x) (inv.dist_le_inf x hx)
  · intro x hx
    show Function.update st.distances _ _ x = INF ∨
      ∃ es, IsPath g s es x ∧ path_weight es = Function.update st.distances _ _ x
    by_cases h : x = e.destination
    · right
      rw [h, Function.update_same]
      rcases inv.dist_path u hu with h1 | ⟨es, hp, hwt⟩
      · rw [h1] at hduI; exact absurd hduI (lt_irrefl _)
      · refine ⟨es ++ [e], isPath_snoc hp he, ?_⟩
        rw [path_weight_append, hwt, path_weight_cons, path_weight_nil, add_zero]
    · rw [Function.update_noteq h]; exact inv.dist_path x hx
  · intro x hx
    show Function.update st.distances _ _ x = INF → Function.update st.previous _ _ x = -1
    by_cases h : x = e.destination
    · rw [h, Function.update_same]
      intro h1
      have := inv.dist_le_inf _ hv
      linarith
    · rw [Function.update_noteq h, Function.update_noteq h]; exact inv.prev_none x hx
  · intro x hx
    show Function.update st.distances _ _ x < INF → Rooted g _ _ s x
    intro hxI
    have hru := inv.rooted u hu hduI
    by_cases h : x = e.destination
    · rw [h]
      have := @rooted_update g st.previous st.distances s _ u _ e hvs hu he rfl rfl hw hlt hru u hru
      refine Rooted.step (u := u) ?_ hu ?_ ?_ this
      · show Function.update st.previous _ _ _ = u
        rw [Function.update_same]
      · show Function.update st.distances _ _ u ≤ Function.update st.distances _ _ _
        rw [Function.update_same, Function.update_noteq (Ne.symm hvu)]; linarith
      · refine ⟨e, he, rfl, ?_⟩
        show Function.update st.distances _ _ u + _ ≤ Function.update st.distances _ _ _
        rw [Function.update_same, Function.update_noteq (Ne.symm hvu)]
    · rw [Function.update_noteq h] at hxI
      exact rooted_update hvs hu he rfl rfl hw hlt hru x (inv.rooted x hx hxI)
  · intro x hx
    show InRange g x.vertex ∧ Function.update st.distances _ _ x.vertex ≤ x.distance
    rcases (hmem x).mp hx with h | h
    · rw [h, hev, hed, Function.update_same]
      exact ⟨hv, le_refl _⟩
    · exact ⟨(inv.heap_key x h).1, le_trans (hle _) (inv.heap_key x h).2⟩
  · intro x hx hxI hxR hxu
    show ∃ e0 ∈ entries heap', e0.vertex = x ∧ e0.distance = Function.update st.distances _ _ x
    by_cases h : x = e.destination
    · refine ⟨ent, (hmem ent).mpr (Or.inl rfl), ?_, ?_⟩
      · rw [hev, h]
      · rw [hed, h, Function.update_same]
    · have hxI' : st.distances x < INF := by
        have : Function.update st.distances e.destination
          (st.distances u + e.current_weight) x < INF := hxI
        rwa [Function.update_noteq h] at this
      obtain ⟨e0, h0, h1, h2⟩ := inv.queued x hx hxI' hxR hxu
      refine ⟨e0, (hmem e0).mpr (Or.inr h0), h1, ?_⟩
      rw [Function.update_noteq h]; exact h2
  · intro x hx hxR e0 he0
    show Function.update st.distances _ _ e0.destination ≤
      Function.update st.distances _ _ x + e0.current_weight
    have hxv : x ≠ e.destination := fun h => hxR (h ▸ hvR)
    rw [Function.update_noteq hxv]
    exact le_trans (hle _) (inv.relaxed x hx hxR e0 he0)
  · intro x hx hxR e0 he0
    show Function.update st.distances _ _ x ≤ e0.distance
    have hxv : x ≠ e.destination := fun h => hxR (h ▸ hvR)
    rw [Function.update_noteq hxv]
    rcases (hmem e0).mp he0 with h | h
    · rw [h, hed]
      have := inv.below_current x hx hxR
      linarith
    · exact inv.settled x hx hxR e0 h
  · intro x hx hxR
    show Function.update st.distances _ _ x ≤ Function.update st.distances _ _ u
    have hxv : x ≠ e.destination := fun h => hxR (h ▸ hvR)
    rw [Function.update_noteq hxv, Function.update_noteq (Ne.symm hvu)]
    exact inv.below_current x hx hxR
  · intro e0 he0
    show Function.update st.distances _ _ u ≤ e0.distance
    rw [Function.update_noteq (Ne.symm hvu)]
    rcases (hmem e0).mp he0 with h | h
    · rw [h, hed]; linarith
    · exact inv.above_current e0 h

theorem dijkstra_relax_spec {g : Graph} (wf : WellFormed g) (nn : NonNeg g) {s : Int}
    {R : Finset Int} {u : Int} (rest : List Edge) :
    ∀ (st st' : DijkstraState), RelaxInv g s R u st →
      (∀ e ∈ rest, e ∈ (g.graph u).edges) → dijkstra_relax u rest st = some st' →
      RelaxInv g s R u st' ∧ (∀ v, st'.distances v ≤ st.distances v) ∧
        st'.distances u = st.distances u ∧
        (∀ e ∈ rest, st'.distances e.destination ≤ st'.distances u + e.current_weight) ∧
        st'.heap.size ≤ st.heap.size + rest.length := by
  induction rest with
  | nil =>
    intro st st' inv _ h
    simp only [dijkstra_relax, Option.some.injEq] at h
    subst h
    exact ⟨inv, fun _ => le_refl _, rfl, by simp, by simp⟩
  | cons e rest ih =>
    intro st st' inv hmem h
    have he : e ∈ (g.graph u).edges := hmem e (List.mem_cons_self _ _)
    have hrest : ∀ e' ∈ rest, e' ∈ (g.graph u).edges :=
      fun e' he' => hmem e' (List.mem_cons_of_mem _ he')
    unfold dijkstra_relax at h
    simp only at h
    by_cases hlt : st.distances u + e.current_weight < st.distances e.destination
    · rw [if_pos hlt] at h
      cases hins : insert_heap st.heap e.destination (st.distances u + e.current_weight) with
      | none => rw [hins] at h; exact absurd h (by simp)
      | some heap' =>
        rw [hins] at h
        simp only at h
        have inv1 := relax_step_inv wf nn inv he hlt hins
        obtain ⟨inv', hmono, hu', hrel, hsz⟩ := ih _ st' inv1 hrest h
        have hvu : e.destination ≠ u := by
          intro hh; rw [hh] at hlt
          linarith [nn u inv.current e he]
        have hsz1 := (insert_heap_some hins).2.1
        simp only at hmono hu' hsz
        rw [Function.update_noteq (Ne.symm hvu)] at hu'
        refine ⟨inv', ?_, hu', ?_, ?_⟩
        · intro v
          exact le_trans (hmono v) (update_le hlt v)
        · intro e' he'
          rcases List.mem_cons.mp he' with h1 | h1
          · rw [h1, hu']
            have := hmono e.destination
            rw [Function.update_same] at this
            exact this
          · exact hrel e' h1
        · rw [hsz1] at hsz
          simp only [List.length_cons]
          omega
    · rw [if_neg hlt] at h
      obtain ⟨inv', hmono, hu', hrel, hsz⟩ := ih st st' inv hrest h
      refine ⟨inv', hmono, hu', ?_, ?_⟩
      · intro e' he'
        rcases List.mem_cons.mp he' with h1 | h1
        · rw [h1, hu']
          exact le_trans (hmono _) (not_lt.mp hlt)
        · exact hrel e' h1
      · simp only [List.length_cons]
        omega

/-- Expanding a node whose edges are all relaxed already changes nothing. -/
theorem dijkstra_relax_noop (u : Int) (rest : List Edge) (st : DijkstraState)
    (h : ∀ e ∈ rest, st.distances e.destination ≤ st.distances u + e.current_weight) :
    dijkstra_relax u rest st = some st := by
  induction rest with
  | nil => rfl
  | cons e rest ih =>
    unfold dijkstra_relax
    simp only
    rw [if_neg (not_lt.mpr (h e (List.mem_cons_self _ _)))]
    exact ih (fun e' he' => h e' (List.mem_cons_of_mem _ he'))

/-! ## Dijkstra: the main loop -/

theorem dijkstra_inv_stale {g : Graph} {s : Int} {R : Finset Int} {st : DijkstraState}
    (inv : DijkstraInv g s R st) {cur : PQNode} {heap' : MinHeap}
    (hext : extract_min st.heap = some (cur, heap'))
    (hstale : cur.distance > st.distances cur.vertex) :
    DijkstraInv g s R { st with heap := heap' } := by
  obtain ⟨_, _, _, hent⟩ := extract_min_some hext
  have hmem : ∀ x, x ∈ entries st.heap ↔ x = cur ∨ x ∈ entries heap' := by
    intro x; rw [hent, Multiset.mem_cons]
  exact
    { ordered := (extract_min_ordered hext inv.ordered).1
      dist_start := inv.dist_start
      prev_start := inv.prev_start
      dist_nonneg := inv.dist_nonneg
      dist_le_inf := inv.dist_le_inf
      dist_path := inv.dist_path
      prev_none := inv.prev_none
      rooted := inv.rooted
      heap_key := fun e he => inv.heap_key e ((hmem e).mpr (Or.inr he))
      queued := by
        intro v hv hvI hvR
        obtain ⟨e, he, h1, h2⟩ := inv.queued v hv hvI hvR
        rcases (hmem e).mp he with h | h
        · subst h
          rw [h1] at hstale
          exact absurd h2 (ne_of_gt hstale)
        · exact ⟨e, h, h1, h2⟩
      unexpanded := inv.unexpanded
      relaxed := inv.relaxed
      settled := fun u hu hR e he => inv.settled u hu hR e ((hmem e).mpr (Or.inr he)) }

theorem dijkstra_inv_expand_start {g : Graph} {s : Int} {R : Finset Int} {st : DijkstraState}
    (inv : DijkstraInv g s R st) {cur : PQNode} {heap' : MinHeap}
    (hext : extract_min st.heap = some (cur, heap'))
    (hfresh : ¬ cur.distance > st.distances cur.vertex) :
    RelaxInv g s R cur.vertex { st with heap := heap' } ∧
      cur.distance = st.distances cur.vertex := by
  obtain ⟨_, _, _, hent⟩ := extract_min_some hext
  have hmem : ∀ x, x ∈ entries st.heap ↔ x = cur ∨ x ∈ entries heap' := by
    intro x; rw [hent, Multiset.mem_cons]
  have hcur : cur ∈ entries st.heap := (hmem cur).mpr (Or.inl rfl)
  have hkey := inv.heap_key cur hcur
  have heq : cur.distance = st.distances cur.vertex :=
    le_antisymm (not_lt.mp hfresh) hkey.2
  have hmin := (extract_min_ordered hext inv.ordered).2
  refine ⟨?_, heq⟩
  exact
    { ordered := (extract_min_ordered hext inv.ordered).1
      dist_start := inv.dist_start
      prev_start := inv.prev_start
      dist_nonneg := inv.dist_nonneg
      dist_le_inf := inv.dist_le_inf
      dist_path := inv.dist_path
      prev_none := inv.prev_none
      rooted := inv.rooted
      heap_key := fun e he => inv.heap_key e ((hmem e).mpr (Or.inr he))
      queued := by
        intro v hv hvI hvR hvu
        obtain ⟨e, he, h1, h2⟩ := inv.queued v hv hvI hvR
        rcases (hmem e).mp he with h | h
        · subst h
          exact absurd h1.symm hvu
        · exact ⟨e, h, h1, h2⟩
      unexpanded := inv.unexpanded
      relaxed := inv.relaxed
      settled := fun u hu hR e he => inv.settled u hu hR e ((hmem e).mpr (Or.inr he))
      current := hkey.1
      below_current := by
        intro x hx hxR
        have := inv.settled x hx hxR cur hcur
        show st.distances x ≤ st.distances cur.vertex
        rw [← heq]; exact this
      above_current := by
        intro e he
        show st.distances cur.vertex ≤ e.distance
        rw [← heq]
        exact hmin e ((hmem e).mpr (Or.inr he)) }

theorem dijkstra_inv_expand_finish {g : Graph} {s : Int} {R : Finset Int} {u : Int}
    {st : DijkstraState} (inv : RelaxInv g s R u st)
    (hrel : ∀ e ∈ (g.graph u).edges,
      st.distances e.destination ≤ st.distances u + e.current_weight) :
    DijkstraInv g s (R.erase u) st :=
  { ordered := inv.ordered
    dist_start := inv.dist_start
    prev_start := inv.prev_start
    dist_nonneg := inv.dist_nonneg
    dist_le_inf := inv.dist_le_inf
    dist_path := inv.dist_path
    prev_none := inv.prev_none
    rooted := inv.rooted
    heap_key := inv.heap_key
    queued := fun v hv hvI hvR =>
      inv.queued v hv hvI (Finset.mem_of_mem_erase hvR) (Finset.ne_of_mem_erase hvR)
    unexpanded := (Finset.erase_subset _ _).trans inv.unexpanded
    relaxed := by
      intro x hx hxR e he
      by_cases hxu : x = u
      · subst hxu; exact hrel e he
      · exact inv.relaxed x hx (fun h => hxR (Finset.mem_erase.mpr ⟨hxu, h⟩)) e he
    settled := by
      intro x hx hxR e he
      by_cases hxu : x = u
      · subst hxu; exact inv.above_current e he
      · exact inv.settled x hx (fun h => hxR (Finset.mem_erase.mpr ⟨hxu, h⟩)) e he }

/-- Along any walk from the start, either every node is within the walked
weight or some unexpanded node on it carries a queued key within that
weight. -/
theorem dijkstra_walk_bound {g : Graph} (wf : WellFormed g) (nn : NonNeg g) {s : Int}
    {R : Finset Int} {st : DijkstraState} (inv : DijkstraInv g s R st) (bound : ℚ)
    (hb : bound ≤ INF)
    (hq : ∀ e ∈ entries st.heap, bound ≤ e.distance) :
    ∀ (es : List Edge) (x v : Int) (a : ℚ), InRange g x → IsPath g x es v →
      st.distances x ≤ a → st.distances v ≤ a + path_weight es ∨ bound ≤ a + path_weight es := by
  intro es
  induction es with
  | nil =>
    intro x v a _ hp ha
    left
    rw [path_weight_nil, add_zero]
    exact hp ▸ ha
  | cons e es ih =>
    intro x v a hx hp ha
    have hw := nn x hx e hp.1
    have hrest := path_weight_nonneg wf nn (wf x hx e hp.1) hp.2
    rw [path_weight_cons]
    by_cases hI : st.distances x < INF
    · by_cases hR : x ∈ R
      · obtain ⟨e0, he0, _, h2⟩ := inv.queued x hx hI hR
        right
        have := hq e0 he0
        linarith
      · have := inv.relaxed x hx hR e hp.1
        have := ih e.destination v (a + e.current_weight) (wf x hx e hp.1) hp.2 (by linarith)
        rcases this with h | h
        · left; linarith
        · right; linarith
    · right
      have : INF ≤ st.distances x := not_lt.mp hI
      linarith

theorem dijkstra_post_of_goal {g : Graph} (wf : WellFormed g) (nn : NonNeg g) {s t : Int}
    (hs : InRange g s) {R : Finset Int} {st : DijkstraState} (inv : DijkstraInv g s R st)
    {cur : PQNode} {heap' : MinHeap} (hext : extract_min st.heap = some (cur, heap'))
    (hgoal : cur.vertex = t) : DijkstraPost g s t { st with heap := heap' } := by
  obtain ⟨_, _, _, hent⟩ := extract_min_some hext
  have hcur : cur ∈ entries st.heap := by rw [hent]; exact Multiset.mem_cons_self _ _
  have hkey := inv.heap_key cur hcur
  rw [hgoal] at hkey
  have hmin := (extract_min_ordered hext inv.ordered).2
  exact
    { dist_start := inv.dist_start
      prev_start := inv.prev_start
      dist_le_inf := inv.dist_le_inf
      dist_path := inv.dist_path
      prev_none := inv.prev_none
      rooted := inv.rooted
      lower := by
        intro v es hp
        have := dijkstra_walk_bound wf nn inv (st.distances t) (inv.dist_le_inf t hkey.1)
          (fun e he => le_trans hkey.2 (hmin e he)) es s v 0 hs hp (le_of_eq inv.dist_start)
        simpa using this }

theorem dijkstra_post_of_empty {g : Graph} (wf : WellFormed g) (nn : NonNeg g) {s t : Int}
    (hs : InRange g s) {R : Finset Int} {st : DijkstraState} (inv : DijkstraInv g s R st)
    (hempty : st.heap.size = 0) : DijkstraPost g s t st := by
  have hnone : ∀ e, e ∉ entries st.heap := by
    intro e he
    unfold entries at he
    rw [hempty] at he
    simp [live] at he
  exact
    { dist_start := inv.dist_start
      prev_start := inv.prev_start
      dist_le_inf := inv.dist_le_inf
      dist_path := inv.dist_path
      prev_none := inv.prev_none
      rooted := inv.rooted
      lower := by
        intro v es hp
        have := dijkstra_walk_bound wf nn inv INF (le_refl _)
          (fun e he => absurd he (hnone e)) es s v 0 hs hp (le_of_eq inv.dist_start)
        rw [zero_add] at this
        rcases this with h | h
        · exact Or.inl h
        · exact Or.inl (le_trans (inv.dist_le_inf v (isPath_inRange wf hs hp)) h) }

/-- Partial correctness of the main loop: whenever it returns, the arrays
satisfy the postcondition. -/
theorem dijkstra_loop_post {g : Graph} (wf : WellFormed g) (nn : NonNeg g) {s t : Int}
    (hs : InRange g s) (fuel : Nat) :
    ∀ (R : Finset Int) (st st' : DijkstraState), DijkstraInv g s R st →
      dijkstra_loop g t fuel st = .ok st' → DijkstraPost g s t st' := by
  induction fuel with
  | zero =>
    intro R st st' _ h
    simp [dijkstra_loop] at h
  | succ fuel ih =>
    intro R st st' inv h
    unfold dijkstra_loop at h
    by_cases hemp : is_empty st.heap = true
    · rw [if_pos hemp] at h
      simp only [Except.ok.injEq] at h
      subst h
      exact dijkstra_post_of_empty wf nn hs inv (by simpa [is_empty] using hemp)
    · rw [if_neg hemp] at h
      cases hext : extract_min st.heap with
      | none => rw [hext] at h; simp at h
      | some p =>
        obtain ⟨cur, heap'⟩ := p
        rw [hext] at h
        simp only at h
        by_cases hgoal : cur.vertex = t
        · rw [if_pos hgoal] at h
          simp only [Except.ok.injEq] at h
          subst h
          exact dijkstra_post_of_goal wf nn hs inv hext hgoal
        · rw [if_neg hgoal] at h
          by_cases hstale : cur.distance > st.distances cur.vertex
          · rw [if_pos hstale] at h
            exact ih R _ st' (dijkstra_inv_stale inv hext hstale) h
          · rw [if_neg hstale] at h
            obtain ⟨rinv, _⟩ := dijkstra_inv_expand_start inv hext hstale
            cases hrel : dijkstra_relax cur.vertex (g.graph cur.vertex).edges
                { st with heap := heap' } with
            | none => rw [hrel] at h; simp at h
            | some st1 =>
              rw [hrel] at h
              simp only at h
              obtain ⟨rinv1, _, _, hrelaxed, _⟩ :=
                dijkstra_relax_spec wf nn _ _ st1 rinv (fun e he => he) hrel
              exact ih _ st1 st' (dijkstra_inv_expand_finish rinv1 hrelaxed) h

/-- Termination of the main loop: a budget above the measure is never used
up. -/
theorem dijkstra_loop_terminates {g : Graph} (wf : WellFormed g) (nn : NonNeg g) {s t : Int}
    (fuel : Nat) :
    ∀ (R : Finset Int) (st : DijkstraState), DijkstraInv g s R st →
      dijkstra_measure g R st < fuel → dijkstra_loop g t fuel st ≠ .error .fuel := by
  induction fuel with
  | zero => intro R st _ h; omega
  | succ fuel ih =>
    intro R st inv hm
    unfold dijkstra_loop
    by_cases hemp : is_empty st.heap = true
    · rw [if_pos hemp]; simp
    · rw [if_neg hemp]
      cases hext : extract_min st.heap with
      | none => simp
      | some p =>
        obtain ⟨cur, heap'⟩ := p
        simp only
        obtain ⟨_, _, hsz, _⟩ := extract_min_some hext
        by_cases hgoal : cur.vertex = t
        · rw [if_pos hgoal]; simp
        · rw [if_neg hgoal]
          by_cases hstale : cur.distance > st.distances cur.vertex
          · rw [if_pos hstale]
            apply ih R _ (dijkstra_inv_stale inv hext hstale)
            unfold dijkstra_measure at hm ⊢
            simp only
            omega
          · rw [if_neg hstale]
            obtain ⟨rinv, _⟩ := dijkstra_inv_expand_start inv hext hstale
            by_cases hR : cur.vertex ∈ R
            · cases hrel : dijkstra_relax cur.vertex (g.graph cur.vertex).edges
                  { st with heap := heap' } with
              | none => simp
              | some st1 =>
                simp only
                obtain ⟨rinv1, _, _, hrelaxed, hsz1⟩ :=
                  dijkstra_relax_spec wf nn _ _ st1 rinv (fun e he => he) hrel
                apply ih _ st1 (dijkstra_inv_expand_finish rinv1 hrelaxed)
                unfold dijkstra_measure at hm ⊢
                have := Finset.add_sum_erase R (fun v => (g.graph v).edges.length) hR
                simp only at hsz1 this
                omega
            · have hnoop := dijkstra_relax_noop cur.vertex (g.graph cur.vertex).edges
                { st with heap := heap' } (inv.relaxed _ rinv.current hR)
              rw [hnoop]
              simp only
              have hrelaxed := inv.relaxed _ rinv.current hR
              apply ih _ _ (dijkstra_inv_expand_finish rinv hrelaxed)
              unfold dijkstra_measure at hm ⊢
              rw [Finset.erase_eq_of_not_mem hR]
              simp only
              omega

theorem dijkstra_relax_ne_none (u : Int) (rest : List Edge) :
    ∀ st : DijkstraState, st.heap.size + rest.length ≤ MAX_NODES →
      dijkstra_relax u rest st ≠ none := by
  induction rest with
  | nil => intro st _; simp [dijkstra_relax]
  | cons e rest ih =>
    intro st h
    unfold dijkstra_relax
    simp only [List.length_cons] at h
    simp only
    split
    · cases hins : insert_heap st.heap e.destination (st.distances u + e.current_weight) with
      | none =>
        have := insert_heap_none.mp hins
        omega
      | some heap' =>
        simp only
        apply ih
        have := (insert_heap_some hins).2.1
        simp only
        omega
    · exact ih st (by omega)

/-- With room in the heap for every stored edge the main loop neither
overruns the heap nor uses up a budget above the measure. -/
theorem dijkstra_loop_ok {g : Graph} (wf : WellFormed g) (nn : NonNeg g) {s t : Int}
    (fuel : Nat) :
    ∀ (R : Finset Int) (st : DijkstraState), DijkstraInv g s R st →
      dijkstra_measure g R st < fuel → dijkstra_measure g R st ≤ MAX_NODES →
      ∃ st', dijkstra_loop g t fuel st = .ok st' := by
  induction fuel with
  | zero => intro R st _ h; omega
  | succ fuel ih =>
    intro R st inv hm hcap
    unfold dijkstra_loop
    by_cases hemp : is_empty st.heap = true
    · rw [if_pos hemp]; exact ⟨_, rfl⟩
    · rw [if_neg hemp]
      cases hext : extract_min st.heap with
      | none =>
        have := extract_min_none.mp hext
        simp [is_empty] at hemp
        omega
      | some p =>
        obtain ⟨cur, heap'⟩ := p
        simp only
        obtain ⟨_, _, hsz, _⟩ := extract_min_some hext
        by_cases hgoal : cur.vertex = t
        · rw [if_pos hgoal]; exact ⟨_, rfl⟩
        · rw [if_neg hgoal]
          by_cases hstale : cur.distance > st.distances cur.vertex
          · rw [if_pos hstale]
            apply ih R _ (dijkstra_inv_stale inv hext hstale)
            · unfold dijkstra_measure at hm ⊢
              simp only
              omega
            · unfold dijkstra_measure at hcap ⊢
              simp only
              omega
          · rw [if_neg hstale]
            obtain ⟨rinv, _⟩ := dijkstra_inv_expand_start inv hext hstale
            by_cases hR : cur.vertex ∈ R
            · have hsum := Finset.add_sum_erase R (fun v => (g.graph v).edges.length) hR
              simp only at hsum
              cases hrel : dijkstra_relax cur.vertex (g.graph cur.vertex).edges
                  { st with heap := heap' } with
              | none =>
                exfalso
                refine dijkstra_relax_ne_none _ _ _ ?_ hrel
                unfold dijkstra_measure at hcap
                simp only
                omega
              | some st1 =>
                simp only
                obtain ⟨rinv1, _, _, hrelaxed, hsz1⟩ :=
                  dijkstra_relax_spec wf nn _ _ st1 rinv (fun e he => he) hrel
                simp only at hsz1
                apply ih _ st1 (dijkstra_inv_expand_finish rinv1 hrelaxed)
                · unfold dijkstra_measure at hm ⊢
                  omega
                · unfold dijkstra_measure at hcap ⊢
                  omega
            · have hnoop := dijkstra_relax_noop cur.vertex (g.graph cur.vertex).edges
                { st with heap := heap' } (inv.relaxed _ rinv.current hR)
              rw [hnoop]
              simp only
              have hrelaxed := inv.relaxed _ rinv.current hR
              apply ih _ _ (dijkstra_inv_expand_finish rinv hrelaxed)
              · unfold dijkstra_measure at hm ⊢
                rw [Finset.erase_eq_of_not_mem hR]
                simp only
                omega
              · unfold dijkstra_measure at hcap ⊢
                rw [Finset.erase_eq_of_not_mem hR]
                simp only
                omega

/-! ## Dijkstra: the whole function -/

theorem dijkstra_init_some (g : Graph) (s : Int) (st0 : DijkstraState) :
    ∃ st, dijkstra_init g s st0 = some st := by
  unfold dijkstra_init
  simp only
  cases hins : insert_heap (init_heap st0.heap) s 0 with
  | none =>
    have := insert_heap_none.mp hins
    simp [init_heap, MAX_NODES] at this
  | some heap => exact ⟨_, rfl⟩

theorem dijkstra_init_inv {g : Graph} {s : Int} (hs : InRange g s) {st0 st : DijkstraState}
    (h : dijkstra_init g s st0 = some st) :
    DijkstraInv g s (node_set g) st ∧ st.heap.size = 1 := by
  unfold dijkstra_init at h
  simp only at h
  cases hins : insert_heap (init_heap st0.heap) s 0 with
  | none => rw [hins] at h; simp at h
  | some heap =>
    rw [hins] at h
    simp only [Option.some.injEq] at h
    obtain ⟨_, hsz, ent, hev, hed, hent, hord⟩ := insert_heap_some hins
    have hH : st.heap = heap := by rw [← h]
    have hD : st.distances = Function.update
        (fun i => if 0 ≤ i ∧ i < g.node_count then INF else st0.distances i) s 0 := by
      rw [← h]
    have hP : st.previous =
        fun i => if 0 ≤ i ∧ i < g.node_count then (-1 : Int) else st0.previous i := by
      rw [← h]
    have hent' : entries st.heap = {ent} := by
      rw [hH, hent]
      simp [entries, init_heap, live]
    have hINF : (0 : ℚ) < INF := by norm_num [INF]
    have hds : st.distances s = 0 := by rw [hD, Function.update_same]
    have hd : ∀ v, InRange g v → v ≠ s → st.distances v = INF := by
      intro v hv hvs
      rw [hD, Function.update_noteq hvs]
      exact if_pos hv
    have hp : ∀ v, InRange g v → st.previous v = -1 := by
      intro v hv
      rw [hP]
      exact if_pos hv
    refine ⟨?_, by rw [hH, hsz]; rfl⟩
    exact
      { ordered := by
          rw [hH]
          exact hord (by intro i _ hi; simp [init_heap] at hi)
        dist_start := hds
        prev_start := hp s hs
        dist_nonneg := by
          intro v hv
          by_cases hvs : v = s
          · rw [hvs, hds]
          · rw [hd v hv hvs]; exact le_of_lt hINF
        dist_le_inf := by
          intro v hv
          by_cases hvs : v = s
          · rw [hvs, hds]; exact le_of_lt hINF
          · rw [hd v hv hvs]
        dist_path := by
          intro v hv
          by_cases hvs : v = s
          · right
            refine ⟨[], hvs.symm, ?_⟩
            rw [hvs, hds]; rfl
          · left; exact hd v hv hvs
        prev_none := fun v hv _ => hp v hv
        rooted := by
          intro v hv hvI
          by_cases hvs : v = s
          · rw [hvs]; exact Rooted.root (hp s hs)
          · rw [hd v hv hvs] at hvI
            exact absurd hvI (lt_irrefl _)
        heap_key := by
          intro e he
          rw [hent', Multiset.mem_singleton] at he
          rw [he, hev, hed, hds]
          exact ⟨hs, le_refl _⟩
        queued := by
          intro v hv hvI _
          by_cases hvs : v = s
          · refine ⟨ent, by rw [hent']; exact Multiset.mem_singleton_self _, ?_, ?_⟩
            · rw [hev, hvs]
            · rw [hed, hvs, hds]
          · rw [hd v hv hvs] at hvI
            exact absurd hvI (lt_irrefl _)
        unexpanded := Finset.Subset.refl _
        relaxed := fun u hu hR => absurd (mem_node_set.mpr hu) hR
        settled := fun u hu hR => absurd (mem_node_set.mpr hu) hR }

/-- Whenever `dijkstra` returns, its arrays satisfy the postcondition. -/
theorem dijkstra_post {g : Graph} (wf : WellFormed g) (nn : NonNeg g) {s t : Int}
    (hs : InRange g s) {fuel : Nat} {st0 st' : DijkstraState}
    (h : dijkstra g s t fuel st0 = .ok st') : DijkstraPost g s t st' := by
  unfold dijkstra at h
  obtain ⟨st, hinit⟩ := dijkstra_init_some g s st0
  rw [hinit] at h
  exact dijkstra_loop_post wf nn hs fuel _ st st' (dijkstra_init_inv hs hinit).1 h

theorem dijkstra_init_measure {g : Graph} {s : Int} (hs : InRange g s)
    {st0 st : DijkstraState} (h : dijkstra_init g s st0 = some st) :
    dijkstra_measure g (node_set g) st = edge_count g + 1 := by
  unfold dijkstra_measure
  rw [(dijkstra_init_inv hs h).2, edge_count_eq]
  omega

/-- A budget of more than `edge_count g + 1` iterations is never used up. -/
theorem dijkstra_terminates {g : Graph} (wf : WellFormed g) (nn : NonNeg g) {s : Int}
    (t : Int) (hs : InRange g s) {fuel : Nat} (hf : edge_count g + 1 < fuel)
    (st0 : DijkstraState) : dijkstra g s t fuel st0 ≠ .error .fuel := by
  unfold dijkstra
  obtain ⟨st, hinit⟩ := dijkstra_init_some g s st0
  rw [hinit]
  exact dijkstra_loop_terminates wf nn fuel _ st (dijkstra_init_inv hs hinit).1
    (by rw [dijkstra_init_measure hs hinit]; exact hf)

/-- When the heap has room for every stored edge, `dijkstra` returns. -/
theorem dijkstra_returns {g : Graph} (wf : WellFormed g) (nn : NonNeg g) {s : Int}
    (t : Int) (hs : InRange g s) {fuel : Nat} (hf : edge_count g + 1 < fuel)
    (hcap : edge_count g + 1 ≤ MAX_NODES) (st0 : DijkstraState) :
    ∃ st', dijkstra g s t fuel st0 = .ok st' := by
  unfold dijkstra
  obtain ⟨st, hinit⟩ := dijkstra_init_some g s st0
  rw [hinit]
  exact dijkstra_loop_ok wf nn fuel _ st (dijkstra_init_inv hs hinit).1
    (by rw [dijkstra_init_measure hs hinit]; exact hf)
    (by rw [dijkstra_init_measure hs hinit]; exact hcap)

/-- The distance left at the goal is the minimum over all walks. -/
theorem dijkstra_post_min {g : Graph} (wf : WellFormed g) (nn : NonNeg g) {s t : Int}
    (hs : InRange g s) (htot : total_weight g < INF) (hreach : Reachable g s t)
    {st : DijkstraState} (post : DijkstraPost g s t st) :
    IsMinDist g s t (st.distances t) := by
  have ht : InRange g t := by
    obtain ⟨es, hp⟩ := hreach
    exact isPath_inRange wf hs hp
  have hlow : ∀ es, IsPath g s es t → st.distances t ≤ path_weight es := by
    intro es hp
    rcases post.lower t es hp with h | h <;> exact h
  refine ⟨?_, hlow⟩
  rcases post.dist_path t ht with h | h
  · obtain ⟨es, hp, hw⟩ := exists_path_le_total wf nn hs hreach
    have := hlow es hp
    rw [h] at this
    linarith
  · exact h

/-! ## Predecessor chains and path reconstruction -/

theorem chain_det {prev : Int → Int} {v : Int} {l1 l2 : List Int}
    (h1 : Chain prev v l1) (h2 : Chain prev v l2) : l1 = l2 := by
  induction h1 generalizing l2 with
  | stop =>
    cases h2 with
    | stop => rfl
    | step hv _ => exact absurd rfl hv
  | step hv _ ih =>
    cases h2 with
    | stop => exact absurd rfl hv
    | step _ hc => rw [ih hc]

theorem chain_suffix {prev : Int → Int} {v : Int} {l : List Int} (h : Chain prev v l) :
    ∀ x ∈ l, ∃ l', Chain prev x l' ∧ l' <:+ l ∧ l' ≠ [] := by
  induction h with
  | stop => intro x hx; exact absurd hx (List.not_mem_nil _)
  | @step v l hv hc ih =>
    intro x hx
    rcases List.mem_cons.mp hx with rfl | hx
    · exact ⟨x :: l, Chain.step hv hc, List.suffix_refl _, by simp⟩
    · obtain ⟨l', h1, h2, h3⟩ := ih x hx
      exact ⟨l', h1, h2.trans (List.suffix_cons _ _), h3⟩

theorem chain_nodup {prev : Int → Int} {v : Int} {l : List Int} (h : Chain prev v l) :
    l.Nodup := by
  induction h with
  | stop => exact List.nodup_nil
  | @step v l hv hc ih =>
    refine List.nodup_cons.mpr ⟨?_, ih⟩
    intro hmem
    obtain ⟨l', h1, h2, _⟩ := chain_suffix hc v hmem
    have := chain_det h1 (Chain.step hv hc)
    subst this
    have := h2.length_le
    simp at this

theorem chain_head {prev : Int → Int} {v : Int} {l : List Int} (h : Chain prev v l)
    (hl : l ≠ []) : l.getD 0 0 = v := by
  cases h with
  | stop => exact absurd rfl hl
  | step _ _ => rfl

theorem chain_next {prev : Int → Int} {v : Int} {l : List Int} (h : Chain prev v l) :
    ∀ k, k + 1 < l.length → l.getD (k + 1) 0 = prev (l.getD k 0) := by
  induction h with
  | stop => intro k hk; simp at hk
  | @step v l hv hc ih =>
    intro k hk
    simp only [List.length_cons] at hk
    cases k with
    | zero =>
      simp only [List.getD_cons_succ, List.getD_cons_zero]
      exact chain_head hc (by intro h; rw [h] at hk; simp at hk)
    | succ k =>
      simp only [List.getD_cons_succ]
      exact ih k (by omega)

theorem chain_nil {prev : Int → Int} {x : Int} {l : List Int} (h : Chain prev x l)
    (hl : l = []) : x = -1 := by
  cases h with
  | stop => rfl
  | step => simp at hl

theorem chain_last {prev : Int → Int} {v : Int} {l : List Int} (h : Chain prev v l)
    (hl : l ≠ []) : prev (l.getD (l.length - 1) 0) = -1 := by
  induction h with
  | stop => exact absurd rfl hl
  | @step v l hv hc ih =>
    cases l with
    | nil =>
      have := chain_nil hc rfl
      simpa using this
    | cons a l =>
      have := ih (by simp)
      simpa using this

theorem rooted_chain {g : Graph} {prev : Int → Int} {dist : Int → ℚ} {s v : Int}
    (hs : InRange g s) (h : Rooted g prev dist s v) (hv : InRange g v) :
    ∃ l, Chain prev v l ∧ 1 ≤ l.length ∧ l.getD (l.length - 1) 0 = s ∧
      ∀ x ∈ l, InRange g x := by
  induction h with
  | root h0 =>
    refine ⟨[s], Chain.step (by have := hs.1; omega) (h0 ▸ Chain.stop), by simp, by simp, ?_⟩
    intro x hx
    rw [List.mem_singleton.mp hx]; exact hs
  | @step v u hp hu _ _ _ ih =>
    obtain ⟨l, hc, hlen, hlast, hr⟩ := ih hu
    refine ⟨v :: l, Chain.step (by have := hv.1; omega) (hp ▸ hc), by simp, ?_, ?_⟩
    · cases l with
      | nil => simp at hlen
      | cons a l => simpa using hlast
    · intro x hx
      rcases List.mem_cons.mp hx with rfl | hx
      · exact hv
      · exact hr x hx

theorem card_node_set (g : Graph) : (node_set g).card = g.node_count.toNat := by
  simp [node_set]

theorem chain_length_le {g : Graph} {prev : Int → Int} {v : Int} {l : List Int}
    (h : Chain prev v l) (hr : ∀ x ∈ l, InRange g x) : l.length ≤ g.node_count.toNat := by
  rw [← card_node_set, ← List.toFinset_card_of_nodup (chain_nodup h)]
  apply Finset.card_le_card
  intro x hx
  exact mem_node_set.mpr (hr x (List.mem_toFinset.mp hx))

theorem trace_back_spec {prev : Int → Int} {v : Int} {l : List Int} (h : Chain prev v l) :
    ∀ (free : Nat) (path : Nat → Int) (len : Nat), l.length ≤ free →
      ∃ path', trace_back prev free v path len = some (path', len + l.length) ∧
        (∀ i, i < len → path' i = path i) ∧
        (∀ k, k < l.length → path' (len + k) = l.getD k 0) ∧
        (∀ i, len + l.length ≤ i → path' i = path i) := by
  induction h with
  | stop =>
    intro free path len _
    refine ⟨path, ?_, fun _ _ => rfl, fun k hk => by simp at hk, fun _ _ => rfl⟩
    cases free <;> simp [trace_back]
  | @step v l hv hc ih =>
    intro free path len hfree
    simp only [List.length_cons] at hfree
    obtain ⟨f, rfl⟩ : ∃ f, free = f + 1 := ⟨free - 1, by omega⟩
    obtain ⟨path', h1, h2, h3, h4⟩ := ih f (Function.update path len v) (len + 1) (by omega)
    refine ⟨path', ?_, ?_, ?_, ?_⟩
    · rw [trace_back, if_neg hv, h1]
      simp only [List.length_cons]
      congr 2
      omega
    · intro i hi
      rw [h2 i (by omega), Function.update_noteq (by omega)]
    · intro k hk
      cases k with
      | zero =>
        rw [add_zero, h2 len (by omega), Function.update_same]
        rfl
      | succ k =>
        simp only [List.length_cons] at hk
        have := h3 k (by omega)
        rw [List.getD_cons_succ, ← this]
        congr 1
        omega
    · intro i hi
      simp only [List.length_cons] at hi
      rw [h4 i (by omega), Function.update_noteq (by omega)]

theorem reverse_loop_spec (L : Nat) :
    ∀ (k i : Nat) (path : Nat → Int), i + k = L / 2 →
      ∀ j, reverse_loop L k i path j =
        if i ≤ j ∧ j < L - i then path (L - 1 - j) else path j := by
  intro k
  induction k with
  | zero =>
    intro i path hik j
    simp only [reverse_loop]
    split
    · rename_i h
      have : L - 1 - j = j := by omega
      rw [this]
    · rfl
  | succ k ih =>
    intro i path hik j
    rw [reverse_loop, ih (i + 1) _ (by omega) j]
    by_cases hj1 : i + 1 ≤ j ∧ j < L - (i + 1)
    · rw [if_pos hj1, if_pos (by omega)]
      rw [Function.update_noteq (by omega), Function.update_noteq (by omega)]
    · rw [if_neg hj1]
      by_cases hji : j = i
      · subst hji
        rw [if_pos (by omega), Function.update_noteq (by omega), Function.update_same]
      · by_cases hjl : j = L - 1 - i
        · subst hjl
          rw [if_pos (by omega), Function.update_same]
          congr 1
          omega
        · rw [if_neg (by omega), Function.update_noteq hjl, Function.update_noteq hji]

/-- What `reconstruct_path` returns when the predecessor chain from `end_`
fits into the path buffer: its length and, slot by slot, the chain reversed. -/
theorem reconstruct_path_spec {prev : Int → Int} {t : Int} {l : List Int}
    (h : Chain prev t l) (hlen : l.length ≤ MAX_NODES) (path : Nat → Int) :
    ∃ p, reconstruct_path t prev path = some (l.length, p) ∧
      ∀ j, j < l.length → p j = l.getD (l.length - 1 - j) 0 := by
  obtain ⟨path1, h1, _, h3, _⟩ := trace_back_spec h MAX_NODES path 0 hlen
  rw [zero_add] at h1
  refine ⟨_, by rw [reconstruct_path, h1], ?_⟩
  intro j hj
  rw [reverse_loop_spec l.length (l.length / 2) 0 path1 (by omega) j, if_pos (by omega)]
  have := h3 (l.length - 1 - j) (by omega)
  rw [zero_add] at this
  exact this

/-! ## A*: the parent pointers -/

theorem arooted_close {g : Graph} {par : Int → Int} {gc : Int → ℚ} {cl : Int → Int}
    {s : Int} (u : Int) :
    ∀ x, ARooted g par gc cl s x → ARooted g par gc (Function.update cl u 1) s x := by
  intro x hx
  induction hx with
  | root h0 h1 => exact ARooted.root h0 h1
  | @step x u0 hp hr hc hedge _ ih =>
    refine ARooted.step hp hr ?_ hedge ih
    by_cases h : u0 = u
    · rw [h, Function.update_same]; decide
    · rw [Function.update_noteq h]; exact hc

theorem arooted_update_other {g : Graph} {par : Int → Int} {gc : Int → ℚ} {cl : Int → Int}
    {s v u : Int} {tg : ℚ} (hcl : cl v = 0) :
    ∀ x, ARooted g par gc cl s x → x ≠ v →
      ARooted g (Function.update par v u) (Function.update gc v tg) cl s x := by
  intro x hx
  induction hx with
  | root h0 h1 =>
    intro hsv
    exact ARooted.root (by rw [Function.update_noteq hsv]; exact h0)
      (by rw [Function.update_noteq hsv]; exact h1)
  | @step x u0 hp hr hc hedge _ ih =>
    intro hxv
    have hu0 : u0 ≠ v := fun h => hc (h ▸ hcl)
    refine ARooted.step ?_ hr hc ?_ (ih hu0)
    · rw [Function.update_noteq hxv]; exact hp
    · rw [Function.update_noteq hxv, Function.update_noteq hu0]; exact hedge

theorem path_nodes_snoc (s : Int) (es : List Edge) (e : Edge) :
    path_nodes s (es ++ [e]) = path_nodes s es ++ [e.destination] := by
  simp [path_nodes]

/-- The parent chain of a reached node, read backwards, is a walk from the
start whose weight is the g-cost of the node. -/
theorem arooted_path {g : Graph} {par : Int → Int} {gc : Int → ℚ} {cl : Int → Int}
    {s v : Int} (hs : InRange g s) (h : ARooted g par gc cl s v) (hv : InRange g v) :
    ∃ l es, Chain par v l ∧ 1 ≤ l.length ∧ (∀ x ∈ l, InRange g x) ∧
      IsPath g s es v ∧ path_nodes s es = l.reverse ∧ path_weight es = gc v := by
  induction h with
  | root h0 h1 =>
    refine ⟨[s], [], Chain.step (by have := hs.1; omega) (h0 ▸ Chain.stop), by simp, ?_,
      rfl, rfl, by rw [h1]; rfl⟩
    intro x hx
    rw [List.mem_singleton.mp hx]; exact hs
  | @step v u hp hu _ hedge _ ih =>
    obtain ⟨l, es, hc, hlen, hr, hpath, hnodes, hw⟩ := ih hu
    obtain ⟨e, he, hd, hg⟩ := hedge
    refine ⟨v :: l, es ++ [e], Chain.step (by have := hv.1; omega) (hp ▸ hc), by simp, ?_,
      ?_, ?_, ?_⟩
    · intro x hx
      rcases List.mem_cons.mp hx with rfl | hx
      · exact hv
      · exact hr x hx
    · exact hd ▸ isPath_snoc hpath he
    · rw [path_nodes_snoc, hnodes, hd, List.reverse_cons]
    · rw [path_weight_append, hw, path_weight_cons, path_weight_nil, add_zero, hg]

/-! ## A*: the loops, for every heuristic -/

theorem astar_relax_step_inv {g : Graph} (wf : WellFormed g) (nn : NonNeg g) {s u : Int}
    {st : AStarState} (inv : AStarInv g s st) (hu : InRange g u)
    (hcu : st.in_closed_set u ≠ 0) (hgu : st.g_costs u < INF) {e : Edge}
    (he : e ∈ (g.graph u).edges) (hcv : st.in_closed_set e.destination = 0)
    (hlt : st.g_costs u + e.current_weight < st.g_costs e.destination) (hh : ℚ)
    {heap' : MinHeap}
    (hins : insert_heap_astar st.open_set e.destination
      (st.g_costs u + e.current_weight) hh u = some heap') :
    AStarInv g s
      { st with
        open_set := heap',
        g_costs := Function.update st.g_costs e.destination
          (st.g_costs u + e.current_weight),
        parents := Function.update st.parents e.destination u } := by
  have hv : InRange g e.destination := wf u hu e he
  have hw : 0 ≤ e.current_weight := nn u hu e he
  have hgu0 : 0 ≤ st.g_costs u := inv.g_nonneg u hu
  have hvu : e.destination ≠ u := fun h => hcu (h ▸ hcv)
  have hvs : e.destination ≠ s := by
    intro h; rw [h, inv.g_start] at hlt; linarith
  obtain ⟨_, _, hent, hord⟩ := insert_heap_astar_some hins
  have hmem : ∀ x, x ∈ entries heap' ↔
      x = (⟨e.destination, st.g_costs u + e.current_weight + hh,
        st.g_costs u + e.current_weight, hh, st.g_costs u + e.current_weight + hh, u⟩ : PQNode)
      ∨ x ∈ entries st.open_set := by
    intro x; rw [hent, Multiset.mem_cons]
  have hle := @update_le st.g_costs _ _ hlt
  refine
    { ordered := hord inv.ordered
      g_start := ?_
      par_start := ?_
      g_nonneg := ?_
      g_le_inf := ?_
      rooted := ?_
      heap_key := ?_ }
  · show Function.update st.g_costs _ _ s = 0
    rw [Function.update_noteq (Ne.symm hvs)]; exact inv.g_start
  · show Function.update st.parents _ _ s = -1
    rw [Function.update_noteq (Ne.symm hvs)]; exact inv.par_start
  · intro x hx
    show 0 ≤ Function.update st.g_costs _ _ x
    by_cases h : x = e.destination
    · rw [h, Function.update_same]; linarith
    · rw [Function.update_noteq h]; exact inv.g_nonneg x hx
  · intro x hx
    exact le_trans (hle x) (inv.g_le_inf x hx)
  · intro x hx hxI
    show ARooted g (Function.update st.parents _ _) (Function.update st.g_costs _ _)
      st.in_closed_set s x
    have hru := @arooted_update_other g st.parents st.g_costs st.in_closed_set s e.destination u
      (st.g_costs u + e.current_weight) hcv u (inv.rooted u hu hgu) (Ne.symm hvu)
    by_cases h : x = e.destination
    · rw [h]
      refine ARooted.step (u := u) ?_ hu hcu ?_ hru
      · rw [Function.update_same]
      · refine ⟨e, he, rfl, ?_⟩
        rw [Function.update_same, Function.update_noteq (Ne.symm hvu)]
    · have hxI' : st.g_costs x < INF := by
        have : Function.update st.g_costs e.destination
          (st.g_costs u + e.current_weight) x < INF := hxI
        rwa [Function.update_noteq h] at this
      exact arooted_update_other hcv x (inv.rooted x hx hxI') h
  · intro x hx
    show InRange g x.vertex ∧ Function.update st.g_costs _ _ x.vertex < INF
    rcases (hmem x).mp hx with h | h
    · rw [h]
      refine ⟨hv, ?_⟩
      show Function.update st.g_costs _ _ e.destination < INF
      rw [Function.update_same]
      exact lt_of_lt_of_le hlt (inv.g_le_inf _ hv)
    · exact ⟨(inv.heap_key x h).1, lt_of_le_of_lt (hle _) (inv.heap_key x h).2⟩

theorem astar_relax_inv {m : Libm} {g : Graph} (wf : WellFormed g) (nn : NonNeg g)
    {s t u : Int} (hu : InRange g u) (rest : List Edge) :
    ∀ (st st' : AStarState), AStarInv g s st → st.in_closed_set u ≠ 0 →
      st.g_costs u < INF → (∀ e ∈ rest, e ∈ (g.graph u).edges) →
      astar_relax m g t u rest st = some st' →
      AStarInv g s st' ∧ st'.in_closed_set = st.in_closed_set ∧
        st'.g_costs u = st.g_costs u := by
  induction rest with
  | nil =>
    intro st st' inv _ _ _ h
    simp only [astar_relax, Option.some.injEq] at h
    subst h
    exact ⟨inv, rfl, rfl⟩
  | cons e rest ih =>
    intro st st' inv hcu hgu hmem h
    have he : e ∈ (g.graph u).edges := hmem e (List.mem_cons_self _ _)
    have hrest : ∀ e' ∈ rest, e' ∈ (g.graph u).edges :=
      fun e' he' => hmem e' (List.mem_cons_of_mem _ he')
    unfold astar_relax at h
    simp only at h
    by_cases hc : st.in_closed_set e.destination = 0 ∧ (g.graph e.destination).is_active ≠ 0
    · rw [if_pos hc] at h
      by_cases hlt : st.g_costs u + e.current_weight < st.g_costs e.destination
      · rw [if_pos hlt] at h
        cases hins : insert_heap_astar st.open_set e.destination
            (st.g_costs u + e.current_weight) (heuristic_distance m g e.destination t) u with
        | none => rw [hins] at h; simp at h
        | some heap' =>
          rw [hins] at h
          simp only at h
          have hvu : e.destination ≠ u := fun hh => hcu (hh ▸ hc.1)
          have inv1 := astar_relax_step_inv wf nn inv hu hcu hgu he hc.1 hlt _ hins
          obtain ⟨inv', hcl, hg⟩ := ih _ st' inv1 hcu
            (by show Function.update st.g_costs _ _ u < INF
                rw [Function.update_noteq (Ne.symm hvu)]; exact hgu) hrest h
          refine ⟨inv', hcl, ?_⟩
          rw [hg]
          show Function.update st.g_costs _ _ u = _
          rw [Function.update_noteq (Ne.symm hvu)]
      · rw [if_neg hlt] at h
        exact ih st st' inv hcu hgu hrest h
    · rw [if_neg hc] at h
      exact ih st st' inv hcu hgu hrest h

theorem astar_inv_pop_close {g : Graph} {s : Int} {st : AStarState} (inv : AStarInv g s st)
    {cur : PQNode} {heap' : MinHeap} (hext : extract_min st.open_set = some (cur, heap')) :
    AStarInv g s
      { st with open_set := heap',
                in_closed_set := Function.update st.in_closed_set cur.vertex 1 } := by
  obtain ⟨_, _, _, hent⟩ := extract_min_some hext
  exact
    { ordered := (extract_min_ordered hext inv.ordered).1
      g_start := inv.g_start
      par_start := inv.par_start
      g_nonneg := inv.g_nonneg
      g_le_inf := inv.g_le_inf
      rooted := fun v hv hvI => arooted_close cur.vertex v (inv.rooted v hv hvI)
      heap_key := fun e he =>
        inv.heap_key e (by rw [hent]; exact Multiset.mem_cons_of_mem he) }

theorem list_range_map_eq_reverse (l : List Int) (p : Nat → Int)
    (hp : ∀ j, j < l.length → p j = l.getD (l.length - 1 - j) 0) :
    (List.range l.length).map p = l.reverse := by
  apply List.ext_getElem
  · simp
  · intro i h1 h2
    simp only [List.length_map, List.length_range] at h1
    rw [List.getElem_map, List.getElem_range, hp i h1, List.getElem_reverse,
      List.getD_eq_getElem _ _ (by omega)]

theorem getD_reverse_zero (l : List Int) (hl : 1 ≤ l.length) :
    l.reverse.getD 0 0 = l.getD (l.length - 1) 0 := by
  rw [List.getD_eq_getElem _ _ (by simp; omega), List.getElem_reverse,
    List.getD_eq_getElem _ _ (by omega)]
  simp

/-- The result that the goal branch of `astar_pathfind` builds. -/
theorem astar_goal_result {g : Graph} (hn : g.node_count ≤ MAX_NODES) {s t : Int}
    (hs : InRange g s) {st : AStarState} (inv : AStarInv g s st) (ht : InRange g t)
    (hgt : st.g_costs t < INF) (path : Nat → Int) :
    ∃ path1 L, trace_back st.parents MAX_NODES t path 0 = some (path1, L) ∧ 0 < L ∧
      (s = t → L = 1) ∧
      AStarPath g s t
        { path_length := L, path := reverse_loop L (L / 2) 0 path1,
          total_cost := st.g_costs t } := by
  obtain ⟨l, es, hc, hlen, hr, hpath, hnodes, hw⟩ := arooted_path hs (inv.rooted t ht hgt) ht
  have hle := chain_length_le hc hr
  have hcap : l.length ≤ MAX_NODES := by
    have := hs.1; have := hs.2; omega
  obtain ⟨path1, h1, _, h3, _⟩ := trace_back_spec hc MAX_NODES path 0 hcap
  rw [zero_add] at h1
  have hp : ∀ j, j < l.length →
      reverse_loop l.length (l.length / 2) 0 path1 j = l.getD (l.length - 1 - j) 0 := by
    intro j hj
    rw [reverse_loop_spec l.length (l.length / 2) 0 path1 (by omega) j, if_pos (by omega)]
    have := h3 (l.length - 1 - j) (by omega)
    rw [zero_add] at this
    exact this
  have hrev := list_range_map_eq_reverse l _ hp
  have hl0 : l ≠ [] := by intro h; rw [h] at hlen; simp at hlen
  refine ⟨path1, l.length, h1, by omega, ?_, ?_⟩
  · intro hst
    have hc1 : Chain st.parents t [t] :=
      Chain.step (by have := ht.1; omega)
        (by rw [← hst, inv.par_start]; exact Chain.stop)
    rw [chain_det hc hc1]; rfl
  · refine
      { first := ?_
        last := ?_
        length_le := ?_
        edges := ⟨es, hpath, by rw [hnodes, ← hrev], hw⟩
        finite := hgt }
    · show reverse_loop l.length (l.length / 2) 0 path1 0 = s
      have h0 : (path_nodes s es).getD 0 0 = s := rfl
      rw [hp 0 (by omega), Nat.sub_zero, ← getD_reverse_zero l hlen, ← hnodes, h0]
    · show reverse_loop l.length (l.length / 2) 0 path1 (l.length - 1) = t
      rw [hp _ (by omega)]
      have : l.length - 1 - (l.length - 1) = 0 := by omega
      rw [this]
      exact chain_head hc hl0
    · show (l.length : Int) ≤ g.node_count
      have := hs.1; have := hs.2; omega

/-- Whenever the main loop of `astar_pathfind` returns, either the length is
0 and nothing was written, or the result is a path from start to end. -/
theorem astar_loop_result {m : Libm} {g : Graph} (wf : WellFormed g) (nn : NonNeg g)
    (hn : g.node_count ≤ MAX_NODES) {s t : Int} (hs : InRange g s) (path : Nat → Int)
    (cost : ℚ) (fuel : Nat) :
    ∀ (st : AStarState) (r : AStarResult), AStarInv g s st →
      astar_loop m g t path cost fuel st = .ok r →
      (r.path_length = 0 ∧ r.path = path ∧ r.total_cost = cost) ∨
      (0 < r.path_length ∧ (s = t → r.path_length = 1 ∧ r.total_cost = 0) ∧
        AStarPath g s t r) := by
  induction fuel with
  | zero =>
    intro st r _ h
    simp [astar_loop] at h
  | succ fuel ih =>
    intro st r inv h
    unfold astar_loop at h
    by_cases hsz : st.open_set.size > 0
    · rw [if_pos hsz] at h
      cases hext : extract_min st.open_set with
      | none => rw [hext] at h; simp at h
      | some p =>
        obtain ⟨cur, heap'⟩ := p
        rw [hext] at h
        simp only at h
        obtain ⟨_, _, _, hent⟩ := extract_min_some hext
        have hkey := inv.heap_key cur (by rw [hent]; exact Multiset.mem_cons_self _ _)
        by_cases hgoal : cur.vertex = t
        · rw [if_pos hgoal] at h
          rw [hgoal] at hkey
          obtain ⟨path1, L, htb, hL, hst, hres⟩ := astar_goal_result hn hs inv hkey.1 hkey.2 path
          rw [htb] at h
          simp only [Except.ok.injEq] at h
          subst h
          refine Or.inr ⟨hL, ?_, hres⟩
          intro hst'
          exact ⟨hst hst', by show st.g_costs t = 0; rw [← hst']; exact inv.g_start⟩
        · rw [if_neg hgoal] at h
          have inv1 := astar_inv_pop_close inv hext
          cases hrel : astar_relax m g t cur.vertex (g.graph cur.vertex).edges
              { st with open_set := heap',
                        in_closed_set := Function.update st.in_closed_set cur.vertex 1 } with
          | none => rw [hrel] at h; simp at h
          | some st1 =>
            rw [hrel] at h
            simp only at h
            obtain ⟨inv2, _, _⟩ := astar_relax_inv wf nn hkey.1 _ _ st1 inv1
              (by show Function.update st.in_closed_set cur.vertex 1 cur.vertex ≠ 0
                  rw [Function.update_same]; decide)
              hkey.2 (fun e he => he) hrel
            exact ih st1 r inv2 h
    · rw [if_neg hsz] at h
      simp only [Except.ok.injEq] at h
      subst h
      exact Or.inl ⟨rfl, rfl, rfl⟩

theorem astar_init_some (m : Libm) (g : Graph) (s t : Int) (st0 : AStarState) :
    ∃ st, astar_init m g s t st0 = some st := by
  unfold astar_init
  simp only
  cases hins : insert_heap_astar (init_heap st0.open_set) s 0 (heuristic_distance m g s t)
      (-1) with
  | none =>
    have := insert_heap_astar_none.mp hins
    simp [init_heap, MAX_NODES] at this
  | some heap => exact ⟨_, rfl⟩

theorem astar_init_inv {m : Libm} {g : Graph} {s t : Int} (hs : InRange g s)
    {st0 st : AStarState} (h : astar_init m g s t st0 = some st) :
    AStarInv g s st ∧
      (∀ v, st.in_closed_set v = 0) ∧
      (∀ v, InRange g v → v ≠ s → st.g_costs v = INF) ∧
      entries st.open_set = {(⟨s, 0 + heuristic_distance m g s t, 0,
        heuristic_distance m g s t, 0 + heuristic_distance m g s t, -1⟩ : PQNode)} := by
  unfold astar_init at h
  simp only at h
  cases hins : insert_heap_astar (init_heap st0.open_set) s 0 (heuristic_distance m g s t)
      (-1) with
  | none => rw [hins] at h; simp at h
  | some heap =>
    rw [hins] at h
    simp only [Option.some.injEq] at h
    obtain ⟨_, hsz, hent, hord⟩ := insert_heap_astar_some hins
    have hH : st.open_set = heap := by rw [← h]
    have hG : st.g_costs = Function.update
        (fun i => if 0 ≤ i ∧ i < g.node_count then INF else st0.g_costs i) s 0 := by
      rw [← h]
    have hP : st.parents =
        fun i => if 0 ≤ i ∧ i < g.node_count then (-1 : Int) else st0.parents i := by
      rw [← h]
    have hC : st.in_closed_set = fun _ => 0 := by rw [← h]
    have hent' : entries st.open_set = {(⟨s, 0 + heuristic_distance m g s t, 0,
        heuristic_distance m g s t, 0 + heuristic_distance m g s t, -1⟩ : PQNode)} := by
      rw [hH, hent]
      simp [entries, init_heap, live]
    have hINF : (0 : ℚ) < INF := by norm_num [INF]
    have hgs : st.g_costs s = 0 := by rw [hG, Function.update_same]
    have hg : ∀ v, InRange g v → v ≠ s → st.g_costs v = INF := by
      intro v hv hvs
      rw [hG, Function.update_noteq hvs]
      exact if_pos hv
    have hp : ∀ v, InRange g v → st.parents v = -1 := by
      intro v hv
      rw [hP]
      exact if_pos hv
    refine ⟨?_, fun v => by rw [hC], hg, hent'⟩
    exact
      { ordered := by
          rw [hH]
          exact hord (by intro i _ hi; simp [init_heap] at hi)
        g_start := hgs
        par_start := hp s hs
        g_nonneg := by
          intro v hv
          by_cases hvs : v = s
          · rw [hvs, hgs]
          · rw [hg v hv hvs]; exact le_of_lt hINF
        g_le_inf := by
          intro v hv
          by_cases hvs : v = s
          · rw [hvs, hgs]; exact le_of_lt hINF
          · rw [hg v hv hvs]
        rooted := by
          intro v hv hvI
          by_cases hvs : v = s
          · rw [hvs]; exact ARooted.root (hp s hs) hgs
          · rw [hg v hv hvs] at hvI
            exact absurd hvI (lt_irrefl _)
        heap_key := by
          intro e he
          rw [hent', Multiset.mem_singleton] at he
          rw [he]
          exact ⟨hs, by show st.g_costs s < INF; rw [hgs]; exact hINF⟩ }

/-- Whenever `astar_pathfind` returns, either the length is 0 and nothing was
written, or the result is a path from start to end. -/
theorem astar_result {m : Libm} {g : Graph} (wf : WellFormed g) (nn : NonNeg g)
    (hn : g.node_count ≤ MAX_NODES) {s t : Int} (hs : InRange g s) {path : Nat → Int}
    {cost : ℚ} {fuel : Nat} {st0 : AStarState} {r : AStarResult}
    (h : astar_pathfind m g s t path cost fuel st0 = .ok r) :
    (r.path_length = 0 ∧ r.path = path ∧ r.total_cost = cost) ∨
    (0 < r.path_length ∧ (s = t → r.path_length = 1 ∧ r.total_cost = 0) ∧
      AStarPath g s t r) := by
  unfold astar_pathfind at h
  obtain ⟨st, hinit⟩ := astar_init_some m g s t st0
  rw [hinit] at h
  exact astar_loop_result wf nn hn hs path cost fuel st r (astar_init_inv hs hinit).1 h

/-! ## A*: optimality under a consistent heuristic -/

/-- What the inner loop of `astar_pathfind` leaves alone: the closed set and
the g-costs of closed nodes; g-costs only go down, the open set only grows, by
at most one entry per edge, and every node whose g-cost changed has an entry. -/
theorem astar_relax_frame (m : Libm) (g : Graph) (t u : Int) (rest : List Edge) :
    ∀ (st st' : AStarState), astar_relax m g t u rest st = some st' →
      st'.in_closed_set = st.in_closed_set ∧
      st'.open_set.size ≤ st.open_set.size + rest.length ∧
      (∀ v, st'.g_costs v ≤ st.g_costs v) ∧
      (∀ v, st.in_closed_set v ≠ 0 → st'.g_costs v = st.g_costs v) ∧
      (∀ e ∈ entries st.open_set, e ∈ entries st'.open_set) ∧
      (∀ v, st'.g_costs v ≠ st.g_costs v →
        (g.graph v).is_active ≠ 0 ∧ ∃ e ∈ entries st'.open_set, e.vertex = v) := by
  induction rest with
  | nil =>
    intro st st' h
    simp only [astar_relax, Option.some.injEq] at h
    subst h
    exact ⟨rfl, by simp, fun _ => le_refl _, fun _ _ => rfl, fun _ he => he,
      fun v hv => absurd rfl hv⟩
  | cons e rest ih =>
    intro st st' h
    unfold astar_relax at h
    simp only at h
    by_cases hc : st.in_closed_set e.destination = 0 ∧ (g.graph e.destination).is_active ≠ 0
    · rw [if_pos hc] at h
      by_cases hlt : st.g_costs u + e.current_weight < st.g_costs e.destination
      · rw [if_pos hlt] at h
        cases hins : insert_heap_astar st.open_set e.destination
            (st.g_costs u + e.current_weight) (heuristic_distance m g e.destination t) u with
        | none => rw [hins] at h; simp at h
        | some heap' =>
          rw [hins] at h
          simp only at h
          obtain ⟨_, hsz, hent, _⟩ := insert_heap_astar_some hins
          obtain ⟨h1, h2, h3, h4, h5, h6⟩ := ih _ st' h
          simp only at h1 h2 h3 h4 h5 h6
          refine ⟨h1, ?_, ?_, ?_, ?_, ?_⟩
          · simp only [List.length_cons]; omega
          · intro v
            refine le_trans (h3 v) ?_
            by_cases hv : v = e.destination
            · subst hv; rw [Function.update_same]; exact le_of_lt hlt
            · rw [Function.update_noteq hv]
          · intro v hv
            rw [h4 v hv]
            have hne : v ≠ e.destination := by rintro rfl; exact hv hc.1
            rw [Function.update_noteq hne]
          · intro x hx
            apply h5
            rw [hent]; exact Multiset.mem_cons_of_mem hx
          · intro v hv
            by_cases hv' : st'.g_costs v =
                Function.update st.g_costs e.destination (st.g_costs u + e.current_weight) v
            · have hve : v = e.destination := by
                by_contra hne
                rw [Function.update_noteq hne] at hv'
                exact hv hv'
              subst hve
              exact ⟨hc.2, _, h5 _ (by rw [hent]; exact Multiset.mem_cons_self _ _), rfl⟩
            · exact h6 v hv'
      · rw [if_neg hlt] at h
        obtain ⟨h1, h2, h3, h4, h5, h6⟩ := ih st st' h
        exact ⟨h1, by simp only [List.length_cons]; omega, h3, h4, h5, h6⟩
    · rw [if_neg hc] at h
      obtain ⟨h1, h2, h3, h4, h5, h6⟩ := ih st st' h
      exact ⟨h1, by simp only [List.length_cons]; omega, h3, h4, h5, h6⟩

/-- After the inner loop over the edges of a closed node `u`, none of those
edges can lower a g-cost any more. -/
theorem astar_relax_settles (m : Libm) (g : Graph) (t u : Int) (rest : List Edge) :
    ∀ (st st' : AStarState), st.in_closed_set u ≠ 0 →
      astar_relax m g t u rest st = some st' →
      ∀ e ∈ rest, st'.in_closed_set e.destination ≠ 0 ∨
        (g.graph e.destination).is_active = 0 ∨
        st'.g_costs e.destination ≤ st'.g_costs u + e.current_weight := by
  induction rest with
  | nil => intro st st' _ _ e he; simp at he
  | cons e rest ih =>
    intro st st' hcu h e' he'
    unfold astar_relax at h
    simp only at h
    by_cases hc : st.in_closed_set e.destination = 0 ∧ (g.graph e.destination).is_active ≠ 0
    · rw [if_pos hc] at h
      by_cases hlt : st.g_costs u + e.current_weight < st.g_costs e.destination
      · rw [if_pos hlt] at h
        cases hins : insert_heap_astar st.open_set e.destination
            (st.g_costs u + e.current_weight) (heuristic_distance m g e.destination t) u with
        | none => rw [hins] at h; simp at h
        | some heap' =>
          rw [hins] at h
          simp only at h
          rcases List.mem_cons.mp he' with heq | hmem
          · obtain ⟨_, _, h3, h4, _, _⟩ := astar_relax_frame m g t u rest _ st' h
            simp only at h3 h4
            have hvu : u ≠ e.destination := fun hh => hcu (hh ▸ hc.1)
            have a := h3 e.destination
            rw [Function.update_same] at a
            have b := h4 u hcu
            rw [Function.update_noteq hvu] at b
            rw [heq, b]
            exact Or.inr (Or.inr a)
          · exact ih _ st' (by exact hcu) h e' hmem
      · rw [if_neg hlt] at h
        rcases List.mem_cons.mp he' with heq | hmem
        · obtain ⟨_, _, h3, h4, _, _⟩ := astar_relax_frame m g t u rest st st' h
          rw [heq, h4 u hcu]
          exact Or.inr (Or.inr (le_trans (h3 _) (not_lt.mp hlt)))
        · exact ih st st' hcu h e' hmem
    · rw [if_neg hc] at h
      rcases List.mem_cons.mp he' with heq | hmem
      · obtain ⟨h1, _⟩ := astar_relax_frame m g t u rest st st' h
        rw [heq, h1]
        by_cases h0 : st.in_closed_set e.destination = 0
        · exact Or.inr (Or.inl (by by_contra hact; exact hc ⟨h0, hact⟩))
        · exact Or.inl h0
      · exact ih st st' hcu h e' hmem

/-- The inner loop changes nothing when no edge of the list can lower a
g-cost. -/
theorem astar_relax_settled_noop (m : Libm) (g : Graph) (t u : Int) (rest : List Edge)
    (st : AStarState)
    (h : ∀ e ∈ rest, st.in_closed_set e.destination ≠ 0 ∨
      (g.graph e.destination).is_active = 0 ∨
      st.g_costs e.destination ≤ st.g_costs u + e.current_weight) :
    astar_relax m g t u rest st = some st := by
  induction rest with
  | nil => rfl
  | cons e rest ih =>
    unfold astar_relax
    simp only
    have he := h e (List.mem_cons_self _ _)
    have hrest := ih (fun e' he' => h e' (List.mem_cons_of_mem _ he'))
    by_cases hc : st.in_closed_set e.destination = 0 ∧ (g.graph e.destination).is_active ≠ 0
    · rw [if_pos hc]
      have hnlt : ¬ (st.g_costs u + e.current_weight < st.g_costs e.destination) := by
        rcases he with h1 | h1 | h1
        · exact absurd hc.1 h1
        · exact absurd h1 hc.2
        · exact not_lt.mpr h1
      rw [if_neg hnlt]; exact hrest
    · rw [if_neg hc]; exact hrest

theorem card_entries (heap : MinHeap) : Multiset.card (entries heap) = heap.size := by
  simp [entries, live]

/-- One iteration of the main loop of `astar_pathfind` that does not pop the
goal keeps the sweep invariant and lowers the measure. -/
theorem astar_sweep_step {m : Libm} {g : Graph} {s t : Int} {st : AStarState}
    (inv : AStarInv g s st) (sw : AStarSweep g s t st) {cur : PQNode} {heap' : MinHeap}
    (hext : extract_min st.open_set = some (cur, heap')) (hgoal : cur.vertex ≠ t)
    {st' : AStarState}
    (hrel : astar_relax m g t cur.vertex (g.graph cur.vertex).edges
      { st with open_set := heap',
                in_closed_set := Function.update st.in_closed_set cur.vertex 1 } = some st') :
    AStarSweep g s t st' ∧ astar_measure g st' < astar_measure g st := by
  obtain ⟨_, _, hsz, hent⟩ := extract_min_some hext
  have hkey := inv.heap_key cur (by rw [hent]; exact Multiset.mem_cons_self _ _)
  have hcu1 : Function.update st.in_closed_set cur.vertex 1 cur.vertex ≠ 0 := by
    rw [Function.update_same]; decide
  have hcl1 : ∀ v, st.in_closed_set v ≠ 0 →
      Function.update st.in_closed_set cur.vertex 1 v ≠ 0 := by
    intro v hv
    by_cases hvu : v = cur.vertex
    · rw [hvu]; exact hcu1
    · rw [Function.update_noteq hvu]; exact hv
  obtain ⟨h1, h2, h3, h4, h5, h6⟩ := astar_relax_frame m g t cur.vertex _ _ st' hrel
  simp only at h1 h2 h3 h4 h5 h6
  have hset := astar_relax_settles m g t cur.vertex _ _ st' hcu1 hrel
  have hsweep : AStarSweep g s t st' :=
    { goal_open := by
        rw [h1, Function.update_noteq (Ne.symm hgoal)]; exact sw.goal_open
      active := by
        intro v hv hvs hfin
        by_cases hsame : st'.g_costs v = st.g_costs v
        · rw [hsame] at hfin
          exact sw.active v hv hvs hfin
        · exact (h6 v hsame).1
      closed_finite := by
        intro v hv hcl
        rw [h1] at hcl
        rw [h4 v hcl]
        by_cases hvu : v = cur.vertex
        · rw [hvu]; exact hkey.2
        · rw [Function.update_noteq hvu] at hcl
          exact sw.closed_finite v hv hcl
      queued := by
        intro v hv hfin hcl
        rw [h1] at hcl
        have hvu : v ≠ cur.vertex := by
          rintro rfl
          exact hcu1 hcl
        rw [Function.update_noteq hvu] at hcl
        by_cases hsame : st'.g_costs v = st.g_costs v
        · rw [hsame] at hfin
          obtain ⟨e, he, hev⟩ := sw.queued v hv hfin hcl
          rw [hent] at he
          rcases Multiset.mem_cons.mp he with rfl | he'
          · exact absurd hev.symm hvu
          · exact ⟨e, h5 e he', hev⟩
        · exact (h6 v hsame).2
      settled := by
        intro x hx hcl e he
        rw [h1] at hcl
        by_cases hxu : x = cur.vertex
        · rw [hxu] at he ⊢
          exact hset e he
        · have hclx := hcl
          rw [Function.update_noteq hxu] at hclx
          rcases sw.settled x hx hclx e he with hd | hd | hd
          · left; rw [h1]; exact hcl1 _ hd
          · right; left; exact hd
          · right; right
            rw [h4 x hcl]
            exact le_trans (h3 _) hd }
  refine ⟨hsweep, ?_⟩
  unfold astar_measure
  by_cases hfresh : st.in_closed_set cur.vertex = 0
  · have hmem : cur.vertex ∈ (node_set g).filter (fun v => st.in_closed_set v = 0) :=
      Finset.mem_filter.mpr ⟨mem_node_set.mpr hkey.1, hfresh⟩
    have hfilter : (node_set g).filter (fun v => st'.in_closed_set v = 0) =
        ((node_set g).filter (fun v => st.in_closed_set v = 0)).erase cur.vertex := by
      ext v
      rw [h1]
      simp only [Finset.mem_filter, Finset.mem_erase]
      by_cases hvu : v = cur.vertex
      · subst hvu
        simp
      · rw [Function.update_noteq hvu]
        simp [hvu]
    rw [hfilter]
    have := Finset.add_sum_erase _ (fun v => (g.graph v).edges.length) hmem
    simp only at this
    omega
  · have hnoop := astar_relax_settled_noop m g t cur.vertex (g.graph cur.vertex).edges
      { st with open_set := heap',
                in_closed_set := Function.update st.in_closed_set cur.vertex 1 }
      (by
        intro e he
        rcases sw.settled cur.vertex hkey.1 hfresh e he with hd | hd | hd
        · exact Or.inl (hcl1 _ hd)
        · exact Or.inr (Or.inl hd)
        · exact Or.inr (Or.inr hd))
    rw [hnoop] at hrel
    simp only [Option.some.injEq] at hrel
    subst hrel
    have hfilter : (node_set g).filter
          (fun v => Function.update st.in_closed_set cur.vertex 1 v = 0) =
        (node_set g).filter (fun v => st.in_closed_set v = 0) := by
      ext v
      simp only [Finset.mem_filter]
      by_cases hvu : v = cur.vertex
      · subst hvu
        simp [hfresh]
      · rw [Function.update_noteq hvu]
    simp only
    rw [hfilter]
    omega

/-- Termination of the main loop of `astar_pathfind`: a budget above the
measure is never used up. -/
theorem astar_loop_terminates {m : Libm} {g : Graph} (wf : WellFormed g) (nn : NonNeg g)
    {s t : Int} (path : Nat → Int) (cost : ℚ) (fuel : Nat) :
    ∀ st : AStarState, AStarInv g s st → AStarSweep g s t st → astar_measure g st < fuel →
      astar_loop m g t path cost fuel st ≠ .error .fuel := by
  induction fuel with
  | zero => intro st _ _ h; omega
  | succ fuel ih =>
    intro st inv sw hm
    unfold astar_loop
    by_cases hsz : st.open_set.size > 0
    · rw [if_pos hsz]
      cases hext : extract_min st.open_set with
      | none => simp
      | some p =>
        obtain ⟨cur, heap'⟩ := p
        simp only
        obtain ⟨_, _, _, hent⟩ := extract_min_some hext
        have hkey := inv.heap_key cur (by rw [hent]; exact Multiset.mem_cons_self _ _)
        by_cases hgoal : cur.vertex = t
        · rw [if_pos hgoal]
          cases trace_back st.parents MAX_NODES t path 0 with
          | none => simp
          | some q => simp
        · rw [if_neg hgoal]
          cases hrel : astar_relax m g t cur.vertex (g.graph cur.vertex).edges
              { st with open_set := heap',
                        in_closed_set := Function.update st.in_closed_set cur.vertex 1 } with
          | none => simp
          | some st1 =>
            simp only
            obtain ⟨inv2, _, _⟩ := astar_relax_inv wf nn hkey.1 _ _ st1
              (astar_inv_pop_close inv hext)
              (by show Function.update st.in_closed_set cur.vertex 1 cur.vertex ≠ 0
                  rw [Function.update_same]; decide)
              hkey.2 (fun e he => he) hrel
            obtain ⟨sw2, hlt⟩ := astar_sweep_step inv sw hext hgoal hrel
            exact ih st1 inv2 sw2 (by omega)
    · rw [if_neg hsz]; simp

theorem astar_init_sweep {m : Libm} {g : Graph} {s t : Int} (hs : InRange g s)
    {st0 st : AStarState} (h : astar_init m g s t st0 = some st) :
    AStarSweep g s t st ∧ astar_measure g st = edge_count g + 1 := by
  obtain ⟨_, hcl, hg, hent⟩ := astar_init_inv hs h
  refine ⟨?_, ?_⟩
  · exact
      { goal_open := hcl t
        active := by
          intro v hv hvs hfin
          rw [hg v hv hvs] at hfin
          exact absurd hfin (lt_irrefl _)
        closed_finite := fun v _ hv => absurd (hcl v) hv
        queued := by
          intro v hv hfin _
          have hvs : v = s := by
            by_contra hne
            rw [hg v hv hne] at hfin
            exact lt_irrefl _ hfin
          exact ⟨_, by rw [hent]; exact Multiset.mem_singleton_self _, hvs.symm⟩
        settled := fun u _ hu => absurd (hcl u) hu }
  · unfold astar_measure
    have hsize : st.open_set.size = 1 := by
      rw [← card_entries, hent]; rfl
    have hfilter : (node_set g).filter (fun v => st.in_closed_set v = 0) = node_set g :=
      Finset.filter_true_of_mem (fun v _ => hcl v)
    rw [hsize, hfilter, edge_count_eq]
    omega

/-- With a budget above `edge_count g + 1`, `astar_pathfind` never runs out of
budget: it returns, or it overruns one of its arrays. -/
theorem astar_terminates {m : Libm} {g : Graph} (wf : WellFormed g) (nn : NonNeg g)
    {s : Int} (t : Int) (hs : InRange g s) (path : Nat → Int) (cost : ℚ) {fuel : Nat}
    (hfuel : edge_count g + 1 < fuel) (st0 : AStarState) :
    astar_pathfind m g s t path cost fuel st0 ≠ .error .fuel := by
  unfold astar_pathfind
  cases hinit : astar_init m g s t st0 with
  | none => simp
  | some st =>
    simp only
    obtain ⟨inv, _⟩ := astar_init_inv hs hinit
    obtain ⟨sw, hm⟩ := astar_init_sweep hs hinit
    exact astar_loop_terminates wf nn path cost fuel st inv sw (by omega)

/-! ## A*: a length of 0 is returned exactly when no active route exists -/

theorem isActivePath_snoc {g : Graph} {e : Edge} (es : List Edge) :
    ∀ {s u : Int}, IsActivePath g s es u → e ∈ (g.graph u).edges →
      (g.graph e.destination).is_active ≠ 0 → IsActivePath g s (es ++ [e]) e.destination := by
  induction es with
  | nil =>
    intro s u h he ha
    have hsu : s = u := h
    subst hsu
    exact ⟨he, ha, rfl⟩
  | cons e' es ih =>
    intro s u h he ha
    obtain ⟨h1, h2, h3⟩ := h
    exact ⟨h1, h2, ih h3 he ha⟩

theorem isActivePath_isPath {g : Graph} (es : List Edge) :
    ∀ {s u : Int}, IsActivePath g s es u → IsPath g s es u := by
  induction es with
  | nil => intro s u h; exact h
  | cons e es ih =>
    intro s u h
    obtain ⟨h1, _, h3⟩ := h
    exact ⟨h1, ih h3⟩

theorem isPath_isActivePath {g : Graph} (wf : WellFormed g) (act : AllActive g)
    (es : List Edge) :
    ∀ {s u : Int}, InRange g s → IsPath g s es u → IsActivePath g s es u := by
  induction es with
  | nil => intro s u _ h; exact h
  | cons e es ih =>
    intro s u hs h
    obtain ⟨h1, h2⟩ := h
    have hd := wf s hs e h1
    exact ⟨h1, act _ hd, ih hd h2⟩

/-- The parent chain of a reached node is a route from the start that enters
active nodes only. -/
theorem arooted_active_path {g : Graph} {par : Int → Int} {gc : Int → ℚ} {cl : Int → Int}
    {s v : Int} (hpar : par s = -1)
    (hact : ∀ x, InRange g x → x ≠ s → gc x < INF → (g.graph x).is_active ≠ 0)
    (hfin : ∀ x, InRange g x → cl x ≠ 0 → gc x < INF)
    (h : ARooted g par gc cl s v) (hv : InRange g v) (hgv : gc v < INF) :
    ∃ es, IsActivePath g s es v := by
  induction h with
  | root _ _ => exact ⟨[], rfl⟩
  | @step v u hp hu hcl hedge _ ih =>
    obtain ⟨es, hes⟩ := ih hu (hfin u hu hcl)
    obtain ⟨e, he, hd, _⟩ := hedge
    have hvs : v ≠ s := by
      rintro rfl
      rw [hpar] at hp
      have := hu.1
      omega
    have ha : (g.graph e.destination).is_active ≠ 0 := by
      rw [hd]; exact hact v hv hvs hgv
    exact ⟨es ++ [e], hd ▸ isActivePath_snoc es hes he ha⟩

/-- The parent chain of a reached node, read backwards, is a walk from the
start through closed nodes, with no node repeated, whose weight is the g-cost
of the node. -/
theorem arooted_closed_path {g : Graph} {par : Int → Int} {gc : Int → ℚ} {cl : Int → Int}
    {s v : Int} (hs : InRange g s) (h : ARooted g par gc cl s v) (hv : InRange g v) :
    ∃ l es, Chain par v l ∧ (∀ x ∈ l, x ≠ v → cl x ≠ 0) ∧
      IsPath g s es v ∧ path_nodes s es = l.reverse ∧ path_weight es = gc v := by
  induction h with
  | root h0 h1 =>
    refine ⟨[s], [], Chain.step (by have := hs.1; omega) (h0 ▸ Chain.stop), ?_,
      rfl, rfl, by rw [h1]; rfl⟩
    intro x hx hne
    exact absurd (List.mem_singleton.mp hx) hne
  | @step v u hp hu hcl hedge _ ih =>
    obtain ⟨l, es, hc, hclosed, hpath, hnodes, hw⟩ := ih hu
    obtain ⟨e, he, hd, hg⟩ := hedge
    refine ⟨v :: l, es ++ [e], Chain.step (by have := hv.1; omega) (hp ▸ hc), ?_, ?_, ?_, ?_⟩
    · intro x hx hne
      rcases List.mem_cons.mp hx with rfl | hx
      · exact absurd rfl hne
      · by_cases hxu : x = u
        · rw [hxu]; exact hcl
        · exact hclosed x hx hxu
    · exact hd ▸ isPath_snoc hpath he
    · rw [path_nodes_snoc, hnodes, hd, List.reverse_cons]
    · rw [path_weight_append, hw, path_weight_cons, path_weight_nil, add_zero, hg]

/-- When the open set is empty, every node that an active route leads to from
a closed node is closed. -/
theorem astar_swept_closed {g : Graph} (wf : WellFormed g) (nn : NonNeg g)
    (htot : total_weight g < INF) {s t : Int} (hs : InRange g s) {st : AStarState}
    (inv : AStarInv g s st) (sw : AStarSweep g s t st) (hempty : st.open_set.size = 0)
    (es : List Edge) :
    ∀ {x y : Int}, InRange g x → st.in_closed_set x ≠ 0 → IsActivePath g x es y →
      st.in_closed_set y ≠ 0 := by
  have hnone : ∀ e, e ∉ entries st.open_set := by
    intro e he
    have hcard := card_entries st.open_set
    rw [hempty, Multiset.card_eq_zero] at hcard
    rw [hcard] at he
    exact absurd he (Multiset.not_mem_zero e)
  induction es with
  | nil =>
    intro x y _ hcl h
    have hxy : x = y := h
    exact hxy ▸ hcl
  | cons e es ih =>
    intro x y hx hcl h
    obtain ⟨he, hact, hrest⟩ := h
    have hd : InRange g e.destination := wf x hx e he
    refine ih hd ?_ hrest
    intro hcd
    rcases sw.settled x hx hcl e he with h1 | h1 | h1
    · exact h1 hcd
    · exact hact h1
    · obtain ⟨l, es0, hc, hclosed, hpath, hnodes, hw⟩ :=
        arooted_closed_path hs (inv.rooted x hx (sw.closed_finite x hx hcl)) hx
      have hnotin : e.destination ∉ l := by
        intro hmem
        by_cases hdx : e.destination = x
        · rw [hdx] at hcd; exact hcl hcd
        · exact hclosed _ hmem hdx hcd
      have nd : (path_nodes s (es0 ++ [e])).Nodup := by
        rw [path_nodes_snoc, hnodes]
        refine List.Nodup.append (List.nodup_reverse.mpr (chain_nodup hc))
          (List.nodup_singleton _) ?_
        intro z hz1 hz2
        rw [List.mem_singleton] at hz2
        rw [hz2] at hz1
        exact hnotin (List.mem_reverse.mp hz1)
      have hle := simple_path_le_total wf nn hs (isPath_snoc hpath he) nd
      rw [path_weight_append, hw, path_weight_cons, path_weight_nil, add_zero] at hle
      have hfin : st.g_costs e.destination < INF := by linarith
      obtain ⟨q, hq, _⟩ := sw.queued _ hd hfin hcd
      exact hnone q hq

/-- When the open set is empty, no active route leads from the start to the
goal. -/
theorem astar_swept_no_route {g : Graph} (wf : WellFormed g) (nn : NonNeg g)
    (htot : total_weight g < INF) {s t : Int} (hs : InRange g s) {st : AStarState}
    (inv : AStarInv g s st) (sw : AStarSweep g s t st) (hempty : st.open_set.size = 0) :
    ¬ ∃ es, IsActivePath g s es t := by
  rintro ⟨es, hes⟩
  have hs0 : st.in_closed_set s ≠ 0 := by
    intro hcs
    have hfin : st.g_costs s < INF := by rw [inv.g_start]; decide!
    obtain ⟨q, hq, _⟩ := sw.queued s hs hfin hcs
    have hcard := card_entries st.open_set
    rw [hempty, Multiset.card_eq_zero] at hcard
    rw [hcard] at hq
    exact absurd hq (Multiset.not_mem_zero q)
  exact astar_swept_closed wf nn htot hs inv sw hempty es hs hs0 hes sw.goal_open

/-- Whenever the main loop of `astar_pathfind` returns, the length is 0
exactly when no route through active nodes leads from start to end. -/
theorem astar_loop_no_route_iff {m : Libm} {g : Graph} (wf : WellFormed g) (nn : NonNeg g)
    (htot : total_weight g < INF) (hn : g.node_count ≤ MAX_NODES) {s t : Int}
    (hs : InRange g s) (path : Nat → Int) (cost : ℚ) (fuel : Nat) :
    ∀ (st : AStarState) (r : AStarResult), AStarInv g s st → AStarSweep g s t st →
      astar_loop m g t path cost fuel st = .ok r →
      (r.path_length = 0 ↔ ¬ ∃ es, IsActivePath g s es t) := by
  induction fuel with
  | zero =>
    intro st r _ _ h
    simp [astar_loop] at h
  | succ fuel ih =>
    intro st r inv sw h
    unfold astar_loop at h
    by_cases hsz : st.open_set.size > 0
    · rw [if_pos hsz] at h
      cases hext : extract_min st.open_set with
      | none => rw [hext] at h; simp at h
      | some p =>
        obtain ⟨cur, heap'⟩ := p
        rw [hext] at h
        simp only at h
        obtain ⟨_, _, _, hent⟩ := extract_min_some hext
        have hkey := inv.heap_key cur (by rw [hent]; exact Multiset.mem_cons_self _ _)
        by_cases hgoal : cur.vertex = t
        · rw [if_pos hgoal] at h
          rw [hgoal] at hkey
          obtain ⟨path1, L, htb, hL, _, _⟩ := astar_goal_result hn hs inv hkey.1 hkey.2 path
          rw [htb] at h
          simp only [Except.ok.injEq] at h
          subst h
          have hroute := arooted_active_path inv.par_start sw.active sw.closed_finite
            (inv.rooted t hkey.1 hkey.2) hkey.1 hkey.2
          constructor
          · intro h0
            have h0' : L = 0 := h0
            omega
          · intro hno
            exact absurd hroute hno
        · rw [if_neg hgoal] at h
          cases hrel : astar_relax m g t cur.vertex (g.graph cur.vertex).edges
              { st with open_set := heap',
                        in_closed_set := Function.update st.in_closed_set cur.vertex 1 } with
          | none => rw [hrel] at h; simp at h
          | some st1 =>
            rw [hrel] at h
            simp only at h
            obtain ⟨inv2, _, _⟩ := astar_relax_inv wf nn hkey.1 _ _ st1
              (astar_inv_pop_close inv hext)
              (by show Function.update st.in_closed_set cur.vertex 1 cur.vertex ≠ 0
                  rw [Function.update_same]; decide)
              hkey.2 (fun e he => he) hrel
            obtain ⟨sw2, _⟩ := astar_sweep_step inv sw hext hgoal hrel
            exact ih st1 r inv2 sw2 h
    · rw [if_neg hsz] at h
      simp only [Except.ok.injEq] at h
      subst h
      have hempty : st.open_set.size = 0 := by omega
      exact ⟨fun _ => astar_swept_no_route wf nn htot hs inv sw hempty, fun _ => rfl⟩

/-- Whenever `astar_pathfind` returns, on any graph state with non-negative
weights whose total is below INF, the returned length is 0 exactly when no
route through active nodes leads from start to end. -/
theorem astar_no_route_iff {m : Libm} {g : Graph} (wf : WellFormed g) (nn : NonNeg g)
    (htot : total_weight g < INF) (hn : g.node_count ≤ MAX_NODES) {s t : Int}
    (hs : InRange g s) {path : Nat → Int} {cost : ℚ} {fuel : Nat} {st0 : AStarState}
    {r : AStarResult} (h : astar_pathfind m g s t path cost fuel st0 = .ok r) :
    r.path_length = 0 ↔ ¬ ∃ es, IsActivePath g s es t := by
  unfold astar_pathfind at h
  cases hinit : astar_init m g s t st0 with
  | none => rw [hinit] at h; simp at h
  | some st =>
    rw [hinit] at h
    simp only at h
    obtain ⟨inv, _⟩ := astar_init_inv hs hinit
    obtain ⟨sw, _⟩ := astar_init_sweep hs hinit
    exact astar_loop_no_route_iff wf nn htot hn hs path cost fuel st r inv sw h

/-- Whenever `dijkstra` returns, on a graph with non-negative weights whose
total is below INF, `distances[end]` is INF exactly when no walk leads from
start to end, and then `previous[end]` is -1. The activity flags play no
part. -/
theorem dijkstra_no_walk_iff {g : Graph} (wf : WellFormed g) (nn : NonNeg g)
    (htot : total_weight g < INF) {s t : Int} (hs : InRange g s) (ht : InRange g t)
    {fuel : Nat} {st0 st' : DijkstraState} (h : dijkstra g s t fuel st0 = .ok st') :
    (st'.distances t = INF ↔ ¬ Reachable g s t) ∧
    (st'.distances t = INF → st'.previous t = -1) ∧
    (Reachable g s t → st'.distances t < INF) := by
  have post := dijkstra_post wf nn hs h
  have hreach : Reachable g s t → st'.distances t < INF := by
    intro hr
    have hmin := dijkstra_post_min wf nn hs htot hr post
    obtain ⟨es, hp, hw⟩ := exists_path_le_total wf nn hs hr
    have := hmin.2 es hp
    linarith
  refine ⟨⟨?_, ?_⟩, post.prev_none t ht, hreach⟩
  · intro hinf hr
    have := hreach hr
    rw [hinf] at this
    exact lt_irrefl _ this
  · intro hno
    rcases post.dist_path t ht with h1 | ⟨es, hp, _⟩
    · exact h1
    · exact absurd ⟨es, hp⟩ hno

/-- On a graph whose nodes are all active the two searches signal a missing
route alike: whenever both return, no route through active nodes leads from
start to end exactly when `dijkstra` leaves `distances[end] = INF` (and then
`previous[end] = -1`), and exactly when `astar_pathfind` returns 0; when a
route exists, `distances[end] < INF` and the length is positive. -/
theorem no_route_signals_of_allActive {m : Libm} {g : Graph} (wf : WellFormed g)
    (nn : NonNeg g) (act : AllActive g) (htot : total_weight g < INF)
    (hn : g.node_count ≤ MAX_NODES) {s t : Int} (hs : InRange g s) (ht : InRange g t)
    {fuel : Nat} {dst0 st' : DijkstraState} (hd : dijkstra g s t fuel dst0 = .ok st')
    {path : Nat → Int} {cost : ℚ} {fuel' : Nat} {st0 : AStarState} {r : AStarResult}
    (ha : astar_pathfind m g s t path cost fuel' st0 = .ok r) :
    ((¬ ∃ es, IsActivePath g s es t) ↔ st'.distances t = INF) ∧
    (st'.distances t = INF → st'.previous t = -1) ∧
    ((¬ ∃ es, IsActivePath g s es t) ↔ r.path_length = 0) ∧
    ((∃ es, IsActivePath g s es t) → st'.distances t < INF ∧ 0 < r.path_length) := by
  obtain ⟨h1, h2, h3⟩ := dijkstra_no_walk_iff wf nn htot hs ht hd
  have h4 := astar_no_route_iff wf nn htot hn hs ha
  have hiff : (∃ es, IsActivePath g s es t) ↔ Reachable g s t :=
    ⟨fun ⟨es, h⟩ => ⟨es, isActivePath_isPath es h⟩,
      fun ⟨es, h⟩ => ⟨es, isPath_isActivePath wf act es hs h⟩⟩
  refine ⟨?_, h2, h4.symm, ?_⟩
  · rw [hiff]; exact h1.symm
  · intro hex
    refine ⟨h3 (hiff.mp hex), ?_⟩
    by_contra h0
    exact (h4.mp (by omega)) hex

/-! ## Distances between points with the same latitude and longitude -/

/-- For every math library with `sin 0 = 0`, `sqrt 0 = 0`, `sqrt 1 = 1` and
`atan2 0 1 = 0`, the haversine distance of a point to itself is 0. -/
theorem haversine_distance_same_point (m : Libm) (hsin : m.sin 0 = 0) (hsqrt0 : m.sqrt 0 = 0)
    (hsqrt1 : m.sqrt 1 = 1) (hatan : m.atan2 0 1 = 0) (lat lon : ℚ) :
    haversine_distance m lat lon lat lon = 0 := by
  simp [haversine_distance, hsin, hsqrt0, hsqrt1, hatan]

/-- For every such math library the 3D distance of two points with the same
latitude and longitude is the square root of the squared elevation
difference in kilometres. -/
theorem enhanced_haversine_distance_same_place (m : Libm) (hsin : m.sin 0 = 0)
    (hsqrt0 : m.sqrt 0 = 0) (hsqrt1 : m.sqrt 1 = 1) (hatan : m.atan2 0 1 = 0)
    (lat lon elev1 elev2 : ℚ) :
    enhanced_haversine_distance m lat lon elev1 lat lon elev2 =
      m.sqrt ((elev2 - elev1) / 1000 * ((elev2 - elev1) / 1000)) := by
  simp [enhanced_haversine_distance, hsin, hsqrt0, hsqrt1, hatan]

theorem small_angle_libm_exact :
    small_angle_libm.sin 0 = 0 ∧ small_angle_libm.sqrt 0 = 0 ∧ small_angle_libm.sqrt 1 = 1 ∧
      small_angle_libm.atan2 0 1 = 0 ∧ ∀ x, small_angle_libm.sqrt (x * x) = |x| :=
  ⟨rfl, by decide!, by decide!, by decide!, Rat.sqrt_eq⟩

/-! ## The straight-line scenario -/

theorem build_line_spec {m : Libm} {g0 g : Graph} {idA idB idC : Int}
    {nameA nameB nameC : String} {latA lonA latB lonB latC lonC : ℚ}
    (h : build_line m g0 idA idB idC nameA nameB nameC latA lonA latB lonB latC lonC = some g) :
    g.node_count = 3 ∧
    (g.graph 0).edges = [road 1 (haversine_distance m latA lonA latB lonB)] ∧
    (g.graph 1).edges = [road 2 (haversine_distance m latB lonB latC lonC),
      road 0 (haversine_distance m latA lonA latB lonB)] ∧
    (g.graph 2).edges = [road 1 (haversine_distance m latB lonB latC lonC)] := by
  simp [build_line, init_graph, add_location, add_edge, push_edge, MAX_NODES,
    Option.bind] at h
  subst h
  simp [road, Function.update]

theorem rooted_inv {g : Graph} {prev : Int → Int} {dist : Int → ℚ} {s v : Int}
    (h : Rooted g prev dist s v) (hvs : v ≠ s) :
    InRange g (prev v) ∧ dist (prev v) ≤ dist v ∧
      (∃ e ∈ (g.graph (prev v)).edges,
        e.destination = v ∧ dist (prev v) + e.current_weight ≤ dist v) ∧
      Rooted g prev dist s (prev v) := by
  cases h with
  | root _ => exact absurd rfl hvs
  | step hp hr hle hedge hroot =>
    subst hp
    exact ⟨hr, hle, hedge, hroot⟩

/-- The facts about a graph that consists of the road 0 - 1 - 2 only. -/
theorem line_facts {g : Graph} {w1 w2 : ℚ} (hn : g.node_count = 3)
    (h0 : (g.graph 0).edges = [road 1 w1]) (h1 : (g.graph 1).edges = [road 2 w2, road 0 w1])
    (h2 : (g.graph 2).edges = [road 1 w2]) (hw1 : 0 < w1) (hw2 : 0 < w2) :
    WellFormed g ∧ NonNeg g ∧ edge_count g = 4 ∧ InRange g 0 ∧ InRange g 2 ∧
      g.node_count ≤ MAX_NODES := by
  have hcases : ∀ u, InRange g u → u = 0 ∨ u = 1 ∨ u = 2 := by
    intro u hu
    obtain ⟨hu0, hu3⟩ := hu
    rw [hn] at hu3
    omega
  refine ⟨?_, ?_, ?_, ?_, ?_, ?_⟩
  · intro u hu e he
    unfold InRange
    rw [hn]
    rcases hcases u hu with rfl | rfl | rfl
    · rw [h0] at he; simp at he; subst he; simp [road]
    · rw [h1] at he; simp at he; rcases he with rfl | rfl <;> simp [road]
    · rw [h2] at he; simp at he; subst he; simp [road]
  · intro u hu e he
    rcases hcases u hu with rfl | rfl | rfl
    · rw [h0] at he; simp at he; subst he; exact le_of_lt hw1
    · rw [h1] at he; simp at he
      rcases he with rfl | rfl
      · exact le_of_lt hw2
      · exact le_of_lt hw1
    · rw [h2] at he; simp at he; subst he; exact le_of_lt hw2
  · unfold edge_count
    rw [hn]
    simp [Finset.sum_range_succ, h0, h1, h2]
  · unfold InRange; rw [hn]; omega
  · unfold InRange; rw [hn]; omega
  · rw [hn]; decide

theorem line_walks {g : Graph} {w1 w2 : ℚ}
    (h0 : (g.graph 0).edges = [road 1 w1]) (h1 : (g.graph 1).edges = [road 2 w2, road 0 w1])
    (h2 : (g.graph 2).edges = [road 1 w2]) (hw1 : 0 < w1) (hw2 : 0 < w2) (es : List Edge) :
    (IsPath g 0 es 2 → w1 + w2 ≤ path_weight es) ∧
    (IsPath g 1 es 2 → w2 ≤ path_weight es) ∧
    (IsPath g 2 es 2 → 0 ≤ path_weight es) := by
  induction es with
  | nil =>
    refine ⟨?_, ?_, ?_⟩
    · intro h
      have : (0 : Int) = 2 := h
      omega
    · intro h
      have : (1 : Int) = 2 := h
      omega
    · intro _; exact le_refl _
  | cons e es ih =>
    obtain ⟨ih0, ih1, ih2⟩ := ih
    refine ⟨?_, ?_, ?_⟩
    · rintro ⟨he, hp⟩
      rw [h0] at he
      simp at he
      subst he
      have := ih1 hp
      rw [path_weight_cons]
      show w1 + w2 ≤ w1 + path_weight es
      linarith
    · rintro ⟨he, hp⟩
      rw [h1] at he
      simp at he
      rw [path_weight_cons]
      rcases he with rfl | rfl
      · have := ih2 hp
        show w2 ≤ w2 + path_weight es
        linarith
      · have := ih0 hp
        show w2 ≤ w1 + path_weight es
        linarith
    · rintro ⟨he, hp⟩
      rw [h2] at he
      simp at he
      subst he
      have := ih1 hp
      rw [path_weight_cons]
      show 0 ≤ w2 + path_weight es
      linarith

/-- On the road 0 - 1 - 2 a finished search from 0 to 2 leaves the distance
`w1 + w2` at node 2 and the predecessors 2 -> 1 -> 0. -/
theorem line_post {g : Graph} {w1 w2 : ℚ} (hn : g.node_count = 3)
    (h0 : (g.graph 0).edges = [road 1 w1]) (h1 : (g.graph 1).edges = [road 2 w2, road 0 w1])
    (h2 : (g.graph 2).edges = [road 1 w2]) (hw1 : 0 < w1) (hw2 : 0 < w2)
    (hsum : w1 + w2 < INF) {st : DijkstraState} (post : DijkstraPost g 0 2 st) :
    st.distances 2 = w1 + w2 ∧ st.previous 2 = 1 ∧ st.previous 1 = 0 ∧ st.previous 0 = -1 := by
  obtain ⟨wf, nn, _, hr0, hr2, _⟩ := line_facts hn h0 h1 h2 hw1 hw2
  have hcases : ∀ u, InRange g u → u = 0 ∨ u = 1 ∨ u = 2 := by
    intro u hu
    obtain ⟨hu0, hu3⟩ := hu
    rw [hn] at hu3
    omega
  have hwalk : IsPath g 0 [road 1 w1, road 2 w2] 2 := by
    refine ⟨by rw [h0]; simp, ?_, rfl⟩
    show road 2 w2 ∈ (g.graph 1).edges
    rw [h1]; simp
  have hwt : path_weight [road 1 w1, road 2 w2] = w1 + w2 := by
    simp [path_weight, road]
  have hle : st.distances 2 ≤ w1 + w2 := by
    rcases post.lower 2 _ hwalk with h | h <;> rw [hwt] at h <;> exact h
  have hd2 : st.distances 2 = w1 + w2 := by
    apply le_antisymm hle
    rcases post.dist_path 2 hr2 with h | ⟨es, hp, hw⟩
    · rw [h] at hle; linarith
    · rw [← hw]; exact (line_walks h0 h1 h2 hw1 hw2 es).1 hp
  have hroot2 := post.rooted 2 hr2 (by rw [hd2]; exact hsum)
  obtain ⟨hp2r, _, ⟨e2, he2, hdest2, hwe2⟩, hroot1⟩ := rooted_inv hroot2 (by decide)
  have hp2 : st.previous 2 = 1 := by
    rcases hcases _ hp2r with h | h | h
    · rw [h, h0] at he2; simp at he2; subst he2; simp [road] at hdest2
    · exact h
    · rw [h, h2] at he2; simp at he2; subst he2; simp [road] at hdest2
  rw [hp2] at he2 hwe2 hroot1
  have he2' : e2 = road 2 w2 := by
    rw [h1] at he2; simp at he2
    rcases he2 with h | h
    · exact h
    · subst h; simp [road] at hdest2
  subst he2'
  have hd1 : st.distances 1 ≤ w1 := by
    have : st.distances 1 + w2 ≤ st.distances 2 := hwe2
    linarith
  obtain ⟨hp1r, _, ⟨e1, he1, hdest1, hwe1⟩, _⟩ := rooted_inv hroot1 (by decide)
  have hp1 : st.previous 1 = 0 := by
    rcases hcases _ hp1r with h | h | h
    · exact h
    · rw [h, h1] at he1; simp at he1
      rcases he1 with h' | h' <;> subst h' <;> simp [road] at hdest1
    · exfalso
      rw [h, h2] at he1; simp at he1; subst he1
      rw [h] at hwe1
      have : st.distances 2 + w2 ≤ st.distances 1 := hwe1
      linarith
  exact ⟨hd2, hp2, hp1, post.prev_start⟩

/-! ## Scenario graphs -/

theorem graph_of_edges (adj : List (List Edge)) (i : Nat) :
    ((graph_of adj).graph (i : Int)).edges = adj.getD i [] := by
  simp [graph_of]

theorem graph_of_inRange {adj : List (List Edge)} {u : Int} (h : InRange (graph_of adj) u) :
    ∃ i : Nat, u = i ∧ i < adj.length := by
  obtain ⟨h0, h1⟩ := h
  refine ⟨u.toNat, by omega, ?_⟩
  simp only [graph_of] at h1
  omega

theorem graph_of_mem {adj : List (List Edge)} {u : Int} (hu : InRange (graph_of adj) u)
    {e : Edge} (he : e ∈ ((graph_of adj).graph u).edges) : ∃ row ∈ adj, e ∈ row := by
  obtain ⟨i, rfl, hi⟩ := graph_of_inRange hu
  rw [graph_of_edges, List.getD_eq_getElem _ _ hi] at he
  exact ⟨adj[i], List.getElem_mem _, he⟩

theorem graph_of_wellFormed (adj : List (List Edge))
    (h : ∀ row ∈ adj, ∀ e ∈ row, 0 ≤ e.destination ∧ e.destination < adj.length) :
    WellFormed (graph_of adj) := by
  intro u hu e he
  obtain ⟨row, hrow, her⟩ := graph_of_mem hu he
  exact h row hrow e her

theorem graph_of_nonNeg (adj : List (List Edge))
    (h : ∀ row ∈ adj, ∀ e ∈ row, 0 ≤ e.current_weight) : NonNeg (graph_of adj) := by
  intro u hu e he
  obtain ⟨row, hrow, her⟩ := graph_of_mem hu he
  exact h row hrow e her

theorem wellFormed_of_check (g : Graph)
    (h : ∀ i ∈ List.range g.node_count.toNat, ∀ e ∈ (g.graph (i : Int)).edges,
      0 ≤ e.destination ∧ e.destination < g.node_count) : WellFormed g := by
  intro u hu e he
  obtain ⟨i, rfl⟩ : ∃ i : Nat, u = i := ⟨u.toNat, by have := hu.1; omega⟩
  exact h i (List.mem_range.mpr (by have := hu.2; omega)) e he

theorem nonNeg_of_check (g : Graph)
    (h : ∀ i ∈ List.range g.node_count.toNat, ∀ e ∈ (g.graph (i : Int)).edges,
      0 ≤ e.current_weight) : NonNeg g := by
  intro u hu e he
  obtain ⟨i, rfl⟩ : ∃ i : Nat, u = i := ⟨u.toNat, by have := hu.1; omega⟩
  exact h i (List.mem_range.mpr (by have := hu.2; omega)) e he

theorem astar_length_some {x : Except Fault AStarResult} {n : Nat}
    (h : astar_length x = some n) : ∃ r, x = .ok r ∧ r.path_length = n := by
  cases x with
  | error f => simp [astar_length] at h
  | ok r =>
    simp only [astar_length, Option.some.injEq] at h
    exact ⟨r, rfl, h⟩

theorem dist_at_some {x : Except Fault DijkstraState} {v : Int} {d : ℚ}
    (h : dist_at x v = some d) : ∃ st, x = .ok st ∧ st.distances v = d := by
  cases x with
  | error f => simp [dist_at] at h
  | ok st =>
    simp only [dist_at, Option.some.injEq] at h
    exact ⟨st, rfl, h⟩

/-! ## Claims -/

/-- Every run of `dijkstra` ends in one of three ways: it returns with the
postcondition, it overruns the heap array, or it uses up a budget that was
not above `edge_count g + 1`. -/
theorem dijkstra_cases {g : Graph} (wf : WellFormed g) (nn : NonNeg g) {s : Int} (t : Int)
    (hs : InRange g s) (fuel : Nat) (st0 : DijkstraState) :
    (∃ st', dijkstra g s t fuel st0 = .ok st' ∧ DijkstraPost g s t st') ∨
    dijkstra g s t fuel st0 = .error .bounds ∨
    (dijkstra g s t fuel st0 = .error .fuel ∧ fuel ≤ edge_count g + 1) := by
  cases h : dijkstra g s t fuel st0 with
  | ok st' => exact Or.inl ⟨st', rfl, dijkstra_post wf nn hs h⟩
  | error f =>
    cases f with
    | bounds => exact Or.inr (Or.inl rfl)
    | fuel =>
      refine Or.inr (Or.inr ⟨rfl, ?_⟩)
      by_contra hlt
      exact dijkstra_terminates wf nn t hs (not_le.mp hlt) st0 h

/-- C1. For every graph with non-negative edge weights whose total is below
INF, every start in range and every end reachable from it: a run of `dijkstra`
with a budget above `edge_count g + 1` either overruns the heap array (the
case the claim sets aside) or returns, and then `distances[end]` is the
minimum total `current_weight` over all walks from start to end. -/
theorem C1_dijkstra_goal_distance_minimal {g : Graph} (wf : WellFormed g) (nn : NonNeg g)
    (htot : total_weight g < INF) {s t : Int} (hs : InRange g s) (hreach : Reachable g s t)
    {fuel : Nat} (hfuel : edge_count g + 1 < fuel) (st0 : DijkstraState) :
    dijkstra g s t fuel st0 = .error .bounds ∨
    ∃ st', dijkstra g s t fuel st0 = .ok st' ∧ IsMinDist g s t (st'.distances t) := by
  rcases dijkstra_cases wf nn t hs fuel st0 with ⟨st', h, post⟩ | h | ⟨_, h⟩
  · exact Or.inr ⟨st', h, dijkstra_post_min wf nn hs htot hreach post⟩
  · exact Or.inl h
  · omega

theorem triangle_wellFormed : WellFormed triangle :=
  graph_of_wellFormed _ (by decide)

theorem triangle_nonNeg : NonNeg triangle :=
  graph_of_nonNeg _ (by decide!)

theorem triangle_total : total_weight triangle < INF := by decide!

theorem triangle_inRange_zero : InRange triangle 0 := by decide

theorem C1_witness :
    (WellFormed triangle ∧ NonNeg triangle ∧ total_weight triangle < INF ∧
      InRange triangle 0 ∧ Reachable triangle 0 2 ∧ edge_count triangle + 1 < 10) ∧
    ∃ st', dijkstra triangle 0 2 10 blank_dijkstra = .ok st' ∧
      IsMinDist triangle 0 2 (st'.distances 2) ∧ st'.distances 2 = 2 := by
  have hreach : Reachable triangle 0 2 := ⟨[road 2 5], by decide!, rfl⟩
  refine ⟨⟨triangle_wellFormed, triangle_nonNeg, triangle_total, triangle_inRange_zero,
    hreach, by decide⟩, ?_⟩
  obtain ⟨st, hst, hd⟩ := dist_at_some
    (show dist_at (dijkstra triangle 0 2 10 blank_dijkstra) 2 = some 2 by decide!)
  rcases C1_dijkstra_goal_distance_minimal triangle_wellFormed triangle_nonNeg triangle_total
    triangle_inRange_zero hreach (show edge_count triangle + 1 < 10 by decide)
    blank_dijkstra with h | ⟨st', h, hmin⟩
  · rw [hst] at h; exact absurd h (by simp)
  · rw [hst] at h
    simp only [Except.ok.injEq] at h
    subst h
    exact ⟨st, hst, hmin, hd⟩

/-- The predecessor array of a finished search spells out, from every node it
reached, a path back to the start that `reconstruct_path` returns reversed. -/
theorem reconstruct_path_of_post {g : Graph} (hn : g.node_count ≤ MAX_NODES) {s t x : Int}
    (hs : InRange g s) {st : DijkstraState} (post : DijkstraPost g s t st)
    (hx : InRange g x) (hreached : st.distances x < INF) (path : Nat → Int) :
    ∃ L p, reconstruct_path x st.previous path = some (L, p) ∧ 1 ≤ L ∧
      L ≤ g.node_count.toNat ∧ p 0 = s ∧ p (L - 1) = x ∧
      ∀ i, i + 1 < L → st.previous (p (i + 1)) = p i := by
  obtain ⟨l, hc, hlen, hlast, hr⟩ := rooted_chain hs (post.rooted x hx hreached) hx
  have hle := chain_length_le hc hr
  have hcap : l.length ≤ MAX_NODES := by
    have : (g.node_count.toNat : Int) ≤ MAX_NODES := by
      have := hs.1; have := hs.2; omega
    omega
  obtain ⟨p, hrec, hp⟩ := reconstruct_path_spec hc hcap path
  refine ⟨l.length, p, hrec, hlen, hle, ?_, ?_, ?_⟩
  · rw [hp 0 (by omega), Nat.sub_zero, hlast]
  · rw [hp (l.length - 1) (by omega)]
    have : l.length - 1 - (l.length - 1) = 0 := by omega
    rw [this]
    exact chain_head hc (by intro h; rw [h] at hlen; simp at hlen)
  · intro i hi
    rw [hp (i + 1) hi, hp i (by omega)]
    have h1 : l.length - 1 - i = (l.length - 1 - (i + 1)) + 1 := by omega
    rw [h1, chain_next hc _ (by omega)]

/-- C7 (counterexample). On `far_road`, two nodes joined by one road of
1000000 km, node 1 is reachable from node 0 and no weight is negative, but the
only walk weighs more than `INF = 999999`: `alt < distances[1]` is false,
`dijkstra(0, 1)` leaves `distances[1] = INF` and `previous[1] = -1`, and
`reconstruct_path(1, previous, path)` returns the path `[1]`, whose first node
is not the start. -/
theorem C7_counterexample :
    NonNeg far_road ∧ Reachable far_road 0 1 ∧
    dist_at (dijkstra far_road 0 1 10 blank_dijkstra) 1 = some INF ∧
    prev_at (dijkstra far_road 0 1 10 blank_dijkstra) 1 = some (-1) ∧
    route_at (dijkstra far_road 0 1 10 blank_dijkstra) 1 = some [1] := by
  refine ⟨graph_of_nonNeg _ (by decide!), ⟨[road 1 1000000], by decide!, rfl⟩, by decide!,
    by decide!, by decide!⟩

/-- C7 (amended). For the `previous` array produced by `dijkstra(start, end)`
when end is reachable by a walk whose total weight is below `INF`
(non-negative weights, at most MAX_NODES nodes):
`reconstruct_path(end, previous, path)` returns a length `L ≥ 1` with
`path[0] = start`, `path[L-1] = end` and `previous[path[i+1]] = path[i]` for
every `i < L - 1`. -/
theorem C7_reconstruct_path_start_to_end {g : Graph} (wf : WellFormed g) (nn : NonNeg g)
    (hn : g.node_count ≤ MAX_NODES) {s t : Int} (hs : InRange g s)
    (hreach : ∃ es, IsPath g s es t ∧ path_weight es < INF) {fuel : Nat}
    (hfuel : edge_count g + 1 < fuel) (st0 : DijkstraState) (path : Nat → Int) :
    dijkstra g s t fuel st0 = .error .bounds ∨
    ∃ st', dijkstra g s t fuel st0 = .ok st' ∧
      ∃ L p, reconstruct_path t st'.previous path = some (L, p) ∧ 1 ≤ L ∧
        p 0 = s ∧ p (L - 1) = t ∧ ∀ i, i + 1 < L → st'.previous (p (i + 1)) = p i := by
  rcases dijkstra_cases wf nn t hs fuel st0 with ⟨st', h, post⟩ | h | ⟨_, h⟩
  · refine Or.inr ⟨st', h, ?_⟩
    obtain ⟨es, hp, hw⟩ := hreach
    have ht : InRange g t := isPath_inRange wf hs hp
    have hreached : st'.distances t < INF := by
      rcases post.lower t es hp with h1 | h1 <;> linarith
    obtain ⟨L, p, h1, h2, _, h3, h4, h5⟩ :=
      reconstruct_path_of_post hn hs post ht hreached path
    exact ⟨L, p, h1, h2, h3, h4, h5⟩
  · exact Or.inl h
  · omega

theorem C7_witness :
    (WellFormed triangle ∧ NonNeg triangle ∧ triangle.node_count ≤ MAX_NODES ∧
      InRange triangle 0 ∧ (∃ es, IsPath triangle 0 es 2 ∧ path_weight es < INF) ∧
      edge_count triangle + 1 < 10) ∧
    ∃ st', dijkstra triangle 0 2 10 blank_dijkstra = .ok st' ∧
      ∃ L p, reconstruct_path 2 st'.previous (fun _ => 0) = some (L, p) ∧ 1 ≤ L ∧
        p 0 = 0 ∧ p (L - 1) = 2 ∧ ∀ i, i + 1 < L → st'.previous (p (i + 1)) = p i := by
  have hreach : ∃ es, IsPath triangle 0 es 2 ∧ path_weight es < INF :=
    ⟨[road 2 5], ⟨by decide!, rfl⟩, by decide!⟩
  refine ⟨⟨triangle_wellFormed, triangle_nonNeg, by decide, triangle_inRange_zero, hreach,
    by decide⟩, ?_⟩
  obtain ⟨st, hst, _⟩ := dist_at_some
    (show dist_at (dijkstra triangle 0 2 10 blank_dijkstra) 2 = some 2 by decide!)
  rcases C7_reconstruct_path_start_to_end triangle_wellFormed triangle_nonNeg
    (show triangle.node_count ≤ MAX_NODES by decide) triangle_inRange_zero hreach
    (show edge_count triangle + 1 < 10 by decide) blank_dijkstra (fun _ => 0)
    with h | ⟨st', h, hpath⟩
  · rw [hst] at h; exact absurd h (by simp)
  · exact ⟨st', h, hpath⟩

/-- C8 (counterexample). With `previous[1] = -1` (node 1 never reached),
`reconstruct_path(1, previous, path)` returns length 1 and the path `[1]`,
not an empty path. -/
theorem C8_counterexample :
    path_list (reconstruct_path 1 (fun _ => -1) (fun _ => 0)) = some [1] := by
  decide!

/-- C8 (amended). If `previous[end]` is the "none" value `-1` (the search
never reached end, or end is the start), `reconstruct_path(end, previous,
path)` returns length 1 and writes the single node `end` to `path[0]`. -/
theorem C8_reconstruct_path_unreached_is_singleton (end_ : Int) (previous : Int → Int)
    (path : Nat → Int) (hend : end_ ≠ -1) (hprev : previous end_ = -1) :
    reconstruct_path end_ previous path = some (1, Function.update path 0 end_) := by
  have h : trace_back previous MAX_NODES end_ path 0 =
      some (Function.update path 0 end_, 1) := by
    show trace_back previous (48 + 1 + 1) end_ path 0 = _
    rw [trace_back, if_neg hend, hprev, trace_back, if_pos rfl]
  rw [reconstruct_path, h]
  rfl

theorem C8_witness :
    ((1 : Int) ≠ -1 ∧ (fun _ : Int => (-1 : Int)) 1 = -1) ∧
    reconstruct_path 1 (fun _ => -1) (fun _ => 0) =
      some (1, Function.update (fun _ => 0) 0 1) :=
  ⟨⟨by decide, rfl⟩,
    C8_reconstruct_path_unreached_is_singleton 1 (fun _ => -1) (fun _ => 0) (by decide) rfl⟩

theorem apply_op_ordered {heap heap' : MinHeap} {op : HeapOp}
    (h : apply_op heap op = some heap') (ho : HeapOrdered heap) : HeapOrdered heap' := by
  cases op with
  | insert v d =>
    obtain ⟨_, _, _, _, _, _, hord⟩ := insert_heap_some h
    exact hord ho
  | insert_astar v g hc p => exact (insert_heap_astar_some h).2.2.2 ho
  | extract =>
    simp only [apply_op] at h
    cases hext : extract_min heap with
    | none => rw [hext] at h; simp at h
    | some p =>
      obtain ⟨m, heap1⟩ := p
      rw [hext] at h
      simp only [Option.map_some', Option.some.injEq] at h
      subst h
      exact (extract_min_ordered hext ho).1

theorem run_ops_ordered (ops : List HeapOp) :
    ∀ heap heap' : MinHeap, HeapOrdered heap → run_ops ops heap = some heap' →
      HeapOrdered heap' := by
  induction ops with
  | nil =>
    intro heap heap' ho h
    simp only [run_ops, Option.some.injEq] at h
    exact h ▸ ho
  | cons op ops ih =>
    intro heap heap' ho h
    simp only [run_ops] at h
    cases hop : apply_op heap op with
    | none => rw [hop] at h; simp at h
    | some heap1 =>
      rw [hop] at h
      exact ih heap1 heap' (apply_op_ordered hop ho) h

theorem init_heap_ordered (heap : MinHeap) : HeapOrdered (init_heap heap) := by
  intro i _ hi
  simp [init_heap] at hi

theorem run_ops_take (ops : List HeapOp) :
    ∀ heap heap' : MinHeap, run_ops ops heap = some heap' →
      ∀ k, ∃ heap_k, run_ops (ops.take k) heap = some heap_k := by
  induction ops with
  | nil =>
    intro heap heap' _ k
    exact ⟨heap, by simp [run_ops]⟩
  | cons op ops ih =>
    intro heap heap' h k
    cases k with
    | zero => exact ⟨heap, by simp [run_ops]⟩
    | succ k =>
      simp only [run_ops] at h
      cases hop : apply_op heap op with
      | none => rw [hop] at h; simp at h
      | some heap1 =>
        rw [hop] at h
        obtain ⟨heap_k, hk⟩ := ih heap1 heap' h k
        exact ⟨heap_k, by simp only [List.take_succ_cons, run_ops, hop]; exact hk⟩

/-- C9. For every sequence of `insert_heap` / `insert_heap_astar` /
`extract_min` calls that starts from `init_heap` and neither pops an empty
heap nor exceeds MAX_NODES entries, after each operation (after the first `k`
calls, for every `k`) the array satisfies min-heap order on `distance` (every
entry is at least its parent at `(i-1)/2`), so `nodes[0]` holds an entry of
minimum priority. -/
theorem C9_heap_order_invariant (ops : List HeapOp) (heap0 heap : MinHeap)
    (hrun : run_ops ops (init_heap heap0) = some heap) (k : Nat) :
    ∃ heap_k, run_ops (ops.take k) (init_heap heap0) = some heap_k ∧
      (∀ i, 0 < i → i < heap_k.size →
        (heap_k.nodes ((i - 1) / 2)).distance ≤ (heap_k.nodes i).distance) ∧
      ∀ i, i < heap_k.size → (heap_k.nodes 0).distance ≤ (heap_k.nodes i).distance := by
  obtain ⟨heap_k, hk⟩ := run_ops_take ops _ heap hrun k
  have ho := run_ops_ordered (ops.take k) _ heap_k (init_heap_ordered heap0) hk
  exact ⟨heap_k, hk, ho, fun i hi => ordered_root_le ho i hi⟩

theorem C9_witness :
    ∃ heap, run_ops [.insert 3 (5 / 2), .insert_astar 4 1 (1 / 2) 3, .insert 7 2, .extract]
        (init_heap blank_heap) = some heap ∧
      ∀ k, ∃ heap_k,
        run_ops ([.insert 3 (5 / 2), .insert_astar 4 1 (1 / 2) 3, .insert 7 2, .extract].take k)
          (init_heap blank_heap) = some heap_k ∧
        (∀ i, 0 < i → i < heap_k.size →
          (heap_k.nodes ((i - 1) / 2)).distance ≤ (heap_k.nodes i).distance) ∧
        ∀ i, i < heap_k.size → (heap_k.nodes 0).distance ≤ (heap_k.nodes i).distance := by
  have hsome : (run_ops [.insert 3 (5 / 2), .insert_astar 4 1 (1 / 2) 3, .insert 7 2, .extract]
      (init_heap blank_heap)).isSome = true := by decide!
  obtain ⟨heap, h⟩ := Option.isSome_iff_exists.mp hsome
  exact ⟨heap, h, fun k => C9_heap_order_invariant _ _ heap h k⟩

/-- C10 (counterexample). Push priority 5, pop, push priority 3, pop: the pops
return 5 and then 3, a decreasing sequence. -/
theorem C10_counterexample :
    pop_trace [.insert 1 5, .extract, .insert 2 3, .extract] (init_heap blank_heap) =
      some [5, 3] ∧ ¬ List.Sorted (· ≤ ·) ([5, 3] : List ℚ) := by
  refine ⟨by decide!, ?_⟩
  simp [List.Sorted]
  norm_num

theorem pop_trace_lower_bound (ops : List HeapOp) :
    ∀ (heap : MinHeap) (b : ℚ) (out : List ℚ), HeapOrdered heap →
      (∀ e ∈ entries heap, b ≤ e.distance) →
      (∀ op ∈ ops, ∀ k, op.key = some k → b ≤ k) →
      pop_trace ops heap = some out → ∀ x ∈ out, b ≤ x := by
  induction ops with
  | nil =>
    intro heap b out _ _ _ h x hx
    simp only [pop_trace, Option.some.injEq] at h
    subst h
    simp at hx
  | cons op ops ih =>
    intro heap b out ho hb hk h x hx
    have hk' : ∀ op' ∈ ops, ∀ k, op'.key = some k → b ≤ k :=
      fun op' h' => hk op' (List.mem_cons_of_mem _ h')
    cases op with
    | extract =>
      simp only [pop_trace] at h
      cases hext : extract_min heap with
      | none => rw [hext] at h; simp at h
      | some p =>
        obtain ⟨m, heap'⟩ := p
        rw [hext] at h
        simp only [Option.map_eq_some'] at h
        obtain ⟨out', h1, rfl⟩ := h
        obtain ⟨_, _, _, hent⟩ := extract_min_some hext
        rcases List.mem_cons.mp hx with rfl | hx'
        · exact hb m (by rw [hent]; exact Multiset.mem_cons_self _ _)
        · exact ih heap' b out' (extract_min_ordered hext ho).1
            (fun e he => hb e (by rw [hent]; exact Multiset.mem_cons_of_mem he)) hk' h1 x hx'
    | insert v d =>
      simp only [pop_trace, apply_op] at h
      cases hins : insert_heap heap v d with
      | none => rw [hins] at h; simp at h
      | some heap' =>
        rw [hins] at h
        obtain ⟨_, _, ent, _, hed, hent, hord⟩ := insert_heap_some hins
        refine ih heap' b out (hord ho) ?_ hk' h x hx
        intro e he
        rw [hent] at he
        rcases Multiset.mem_cons.mp he with rfl | he'
        · rw [hed]; exact hk _ (List.mem_cons_self _ _) d rfl
        · exact hb e he'
    | insert_astar v g hc p =>
      simp only [pop_trace, apply_op] at h
      cases hins : insert_heap_astar heap v g hc p with
      | none => rw [hins] at h; simp at h
      | some heap' =>
        rw [hins] at h
        obtain ⟨_, _, hent, hord⟩ := insert_heap_astar_some hins
        refine ih heap' b out (hord ho) ?_ hk' h x hx
        intro e he
        rw [hent] at he
        rcases Multiset.mem_cons.mp he with rfl | he'
        · exact hk _ (List.mem_cons_self _ _) (g + hc) rfl
        · exact hb e he'

theorem pop_trace_sorted (ops : List HeapOp) :
    ∀ (heap : MinHeap) (out : List ℚ), HeapOrdered heap → pushes_above_pops ops heap = true →
      pop_trace ops heap = some out → List.Sorted (· ≤ ·) out := by
  induction ops with
  | nil =>
    intro heap out _ _ h
    simp only [pop_trace, Option.some.injEq] at h
    subst h
    exact List.sorted_nil
  | cons op ops ih =>
    intro heap out ho hpush h
    cases op with
    | extract =>
      simp only [pop_trace] at h
      simp only [pushes_above_pops] at hpush
      cases hext : extract_min heap with
      | none => rw [hext] at h; simp at h
      | some p =>
        obtain ⟨m, heap'⟩ := p
        rw [hext] at h hpush
        simp only [Option.map_eq_some'] at h
        simp only [Bool.and_eq_true, List.all_eq_true] at hpush
        obtain ⟨hpush0, hpush2⟩ := hpush
        have hpush1 : ∀ op ∈ ops, ∀ k, op.key = some k → m.distance ≤ k := by
          intro op hop k hk
          have := hpush0 op hop
          simp only [key_at_least, hk, decide_eq_true_eq] at this
          exact this
        obtain ⟨out', h1, rfl⟩ := h
        obtain ⟨_, _, _, hent⟩ := extract_min_some hext
        obtain ⟨ho', hmin⟩ := extract_min_ordered hext ho
        refine List.sorted_cons.mpr ⟨?_, ih heap' out' ho' hpush2 h1⟩
        exact pop_trace_lower_bound ops heap' m.distance out' ho'
          (fun e he => hmin e (by rw [hent]; exact Multiset.mem_cons_of_mem he)) hpush1 h1
    | insert v d =>
      simp only [pop_trace, apply_op] at h
      simp only [pushes_above_pops, apply_op] at hpush
      cases hins : insert_heap heap v d with
      | none => rw [hins] at h; simp at h
      | some heap' =>
        rw [hins] at h hpush
        obtain ⟨_, _, _, _, _, _, hord⟩ := insert_heap_some hins
        exact ih heap' out (hord ho) hpush h
    | insert_astar v g hc p =>
      simp only [pop_trace, apply_op] at h
      simp only [pushes_above_pops, apply_op] at hpush
      cases hins : insert_heap_astar heap v g hc p with
      | none => rw [hins] at h; simp at h
      | some heap' =>
        rw [hins] at h hpush
        exact ih heap' out ((insert_heap_astar_some hins).2.2.2 ho) hpush h

/-- C10 (amended). In any sequence of pushes and pops on a heap starting from
`init_heap`, with no `decrease_key` call, in which no push has a priority
below that of an earlier pop (in particular in any run of pops with no push
in between), the priorities returned by the successive pops are
non-decreasing. -/
theorem C10_pops_nondecreasing (ops : List HeapOp) (heap0 : MinHeap) (out : List ℚ)
    (hpush : pushes_above_pops ops (init_heap heap0) = true)
    (hrun : pop_trace ops (init_heap heap0) = some out) : List.Sorted (· ≤ ·) out :=
  pop_trace_sorted ops _ out (init_heap_ordered heap0) hpush hrun

theorem C10_witness :
    (pushes_above_pops [.insert 1 5, .insert 2 3, .extract, .insert 3 4, .extract, .extract]
        (init_heap blank_heap) = true ∧
      pop_trace [.insert 1 5, .insert 2 3, .extract, .insert 3 4, .extract, .extract]
        (init_heap blank_heap) = some [3, 4, 5]) ∧
    List.Sorted (· ≤ ·) ([3, 4, 5] : List ℚ) :=
  have h1 : pushes_above_pops
      [.insert 1 5, .insert 2 3, .extract, .insert 3 4, .extract, .extract]
      (init_heap blank_heap) = true := by decide!
  have h2 : pop_trace [.insert 1 5, .insert 2 3, .extract, .insert 3 4, .extract, .extract]
      (init_heap blank_heap) = some [3, 4, 5] := by decide!
  ⟨⟨h1, h2⟩, C10_pops_nondecreasing _ blank_heap _ h1 h2⟩

theorem ridge_wellFormed : WellFormed ridge := wellFormed_of_check _ (by decide!)

theorem ridge_nonNeg : NonNeg ridge := nonNeg_of_check _ (by decide!)

/-- C6. On a well-formed graph with non-negative weights and at most
MAX_NODES nodes, a run of `astar_pathfind(start, end, path, &total_cost)` with
a budget above `edge_count g + 1` never uses it up, and whenever the call
returns `L > 0`: `path[0] = start`, `path[L-1] = end`, `L ≤ node_count`, the
nodes `path[0..L-1]` are the nodes of a walk along stored edges, each taken
from the adjacency list of the node before it, `total_cost` is the sum of the
weights of those edges, and `total_cost = 0`, `L = 1` when start = end. -/
theorem C6_astar_path_contract {m : Libm} {g : Graph} (wf : WellFormed g) (nn : NonNeg g)
    (hn : g.node_count ≤ MAX_NODES) {s t : Int} (hs : InRange g s) (path : Nat → Int)
    (cost : ℚ) (fuel : Nat) (st0 : AStarState) :
    (edge_count g + 1 < fuel → astar_pathfind m g s t path cost fuel st0 ≠ .error .fuel) ∧
    ∀ r, astar_pathfind m g s t path cost fuel st0 = .ok r → 0 < r.path_length →
      r.path 0 = s ∧ r.path (r.path_length - 1) = t ∧ (r.path_length : Int) ≤ g.node_count ∧
      (∃ es, IsPath g s es t ∧ path_nodes s es = (List.range r.path_length).map r.path ∧
        path_weight es = r.total_cost) ∧
      (s = t → r.path_length = 1 ∧ r.total_cost = 0) := by
  refine ⟨fun hfuel => astar_terminates wf nn t hs path cost hfuel st0, ?_⟩
  intro r hrun hL
  rcases astar_result wf nn hn hs hrun with ⟨h0, _⟩ | ⟨_, hst, hpath⟩
  · omega
  · exact ⟨hpath.first, hpath.last, hpath.length_le, hpath.edges, hst⟩

theorem C6_witness :
    (WellFormed ridge ∧ NonNeg ridge ∧ ridge.node_count ≤ MAX_NODES ∧ InRange ridge 0) ∧
    ∃ r, astar_pathfind small_angle_libm ridge 0 2 (fun _ => 7) 0 10 blank_astar = .ok r ∧
      0 < r.path_length ∧
      (r.path 0 = 0 ∧ r.path (r.path_length - 1) = 2 ∧
        (r.path_length : Int) ≤ ridge.node_count ∧
        (∃ es, IsPath ridge 0 es 2 ∧
          path_nodes 0 es = (List.range r.path_length).map r.path ∧
          path_weight es = r.total_cost) ∧
        ((0 : Int) = 2 → r.path_length = 1 ∧ r.total_cost = 0)) := by
  refine ⟨⟨ridge_wellFormed, ridge_nonNeg, by decide, by decide⟩, ?_⟩
  obtain ⟨r, hr, hlen⟩ := astar_length_some
    (show astar_length (astar_pathfind small_angle_libm ridge 0 2 (fun _ => 7) 0 10
      blank_astar) = some 2 by decide!)
  exact ⟨r, hr, by omega,
    (C6_astar_path_contract ridge_wellFormed ridge_nonNeg (by decide) (by decide)
      (fun _ => 7) 0 10 blank_astar).2 r hr (by omega)⟩

/-- C5 (the code at the failing input). On `closed_road`, where the only
route from 0 to 2 passes the inactive node 1, node 2 is not reachable through
active nodes and `astar_pathfind` returns 0, but `dijkstra` relaxes the edges
into and out of node 1 and leaves `distances[2] = 2` with `previous[2] = 1`. -/
theorem C5_dijkstra_ignores_is_active :
    (¬ ∃ es, IsActivePath closed_road 0 es 2) ∧
    astar_length (astar_pathfind small_angle_libm closed_road 0 2 (fun _ => 0) 0 10
      blank_astar) = some 0 ∧
    dist_at (dijkstra closed_road 0 2 10 blank_dijkstra) 2 = some 2 ∧
    prev_at (dijkstra closed_road 0 2 10 blank_dijkstra) 2 = some 1 := by
  refine ⟨?_, by decide!, by decide!, by decide!⟩
  rintro ⟨es, h⟩
  cases es with
  | nil =>
    have h02 : (0 : Int) = 2 := h
    exact absurd h02 (by decide)
  | cons e es =>
    obtain ⟨he, hact, _⟩ := h
    have he' : e = road 1 1 := by
      have : (closed_road.graph 0).edges = [road 1 1] := rfl
      rw [this] at he
      exact List.mem_singleton.mp he
    rw [he'] at hact
    exact hact (by decide)

/-- C4. For three locations A, B, C added in that order (indices 0, 1, 2)
with `add_edge(A, B)` and `add_edge(B, C)` only, and positive edge distances
(whose sum is below INF, as any two haversine distances are): `dijkstra(A, C)`
returns with `distances[C] = weight(A,B) + weight(B,C)`, and
`reconstruct_path(C, previous, path)` then yields length 3 and the path
`[A, B, C]`, which contains no step A -> C. -/
theorem C4_straight_line_route {m : Libm} {g0 g : Graph} {idA idB idC : Int}
    {nameA nameB nameC : String} {latA lonA latB lonB latC lonC : ℚ}
    (hbuild : build_line m g0 idA idB idC nameA nameB nameC latA lonA latB lonB latC lonC =
      some g)
    (hAB : 0 < haversine_distance m latA lonA latB lonB)
    (hBC : 0 < haversine_distance m latB lonB latC lonC)
    (hsum : haversine_distance m latA lonA latB lonB +
      haversine_distance m latB lonB latC lonC < INF)
    {fuel : Nat} (hfuel : 5 < fuel) (st0 : DijkstraState) (path : Nat → Int) :
    ∃ st' p, dijkstra g 0 2 fuel st0 = .ok st' ∧
      st'.distances 2 = haversine_distance m latA lonA latB lonB +
        haversine_distance m latB lonB latC lonC ∧
      reconstruct_path 2 st'.previous path = some (3, p) ∧
      p 0 = 0 ∧ p 1 = 1 ∧ p 2 = 2 ∧ ∀ i, i + 1 < 3 → ¬ (p i = 0 ∧ p (i + 1) = 2) := by
  obtain ⟨hn, h0, h1, h2⟩ := build_line_spec hbuild
  obtain ⟨wf, nn, hec, hr0, _, _⟩ := line_facts hn h0 h1 h2 hAB hBC
  obtain ⟨st', hrun⟩ := dijkstra_returns wf nn 2 hr0 (show edge_count g + 1 < fuel by omega)
    (by rw [hec]; decide) st0
  obtain ⟨hd, hp2, hp1, hp0⟩ := line_post hn h0 h1 h2 hAB hBC hsum (dijkstra_post wf nn hr0 hrun)
  have hc0 : Chain st'.previous 0 [0] :=
    Chain.step (by decide) (by rw [hp0]; exact Chain.stop)
  have hc1 : Chain st'.previous 1 [1, 0] :=
    Chain.step (by decide) (by rw [hp1]; exact hc0)
  have hc : Chain st'.previous 2 [2, 1, 0] :=
    Chain.step (by decide) (by rw [hp2]; exact hc1)
  obtain ⟨p, hrec, hp⟩ := reconstruct_path_spec hc (by decide) path
  have e0 : p 0 = 0 := hp 0 (by decide)
  have e1 : p 1 = 1 := hp 1 (by decide)
  have e2 : p 2 = 2 := hp 2 (by decide)
  refine ⟨st', p, hrun, hd, hrec, e0, e1, e2, ?_⟩
  intro i hi
  have : i = 0 ∨ i = 1 := by omega
  rcases this with rfl | rfl
  · rw [e1]; intro h; exact absurd h.2 (by decide)
  · rw [e1]; intro h; exact absurd h.1 (by decide)

theorem C4_witness :
    ∃ g, build_line small_angle_libm blank_graph 0 1 2 "A" "B" "C"
        0 0 0 (216 / PI) 0 (432 / PI) = some g ∧
      0 < haversine_distance small_angle_libm 0 0 0 (216 / PI) ∧
      0 < haversine_distance small_angle_libm 0 (216 / PI) 0 (432 / PI) ∧
      haversine_distance small_angle_libm 0 0 0 (216 / PI) +
        haversine_distance small_angle_libm 0 (216 / PI) 0 (432 / PI) < INF ∧
      ∃ st' p, dijkstra g 0 2 6 blank_dijkstra = .ok st' ∧
        st'.distances 2 = haversine_distance small_angle_libm 0 0 0 (216 / PI) +
          haversine_distance small_angle_libm 0 (216 / PI) 0 (432 / PI) ∧
        reconstruct_path 2 st'.previous (fun _ => 0) = some (3, p) ∧
        p 0 = 0 ∧ p 1 = 1 ∧ p 2 = 2 ∧ ∀ i, i + 1 < 3 → ¬ (p i = 0 ∧ p (i + 1) = 2) := by
  obtain ⟨g, hg⟩ := Option.isSome_iff_exists.mp
    (show (build_line small_angle_libm blank_graph 0 1 2 "A" "B" "C"
      0 0 0 (216 / PI) 0 (432 / PI)).isSome = true by decide!)
  have hAB : 0 < haversine_distance small_angle_libm 0 0 0 (216 / PI) := by decide!
  have hBC : 0 < haversine_distance small_angle_libm 0 (216 / PI) 0 (432 / PI) := by decide!
  have hsum : haversine_distance small_angle_libm 0 0 0 (216 / PI) +
      haversine_distance small_angle_libm 0 (216 / PI) 0 (432 / PI) < INF := by decide!
  exact ⟨g, hg, hAB, hBC, hsum,
    C4_straight_line_route hg hAB hBC hsum (by decide) blank_dijkstra (fun _ => 0)⟩

/-! ## The heap: `extract_min` -/

theorem option_map_some {α β : Type} {o : Option α} {f : α → β} {b : β}
    (h : o.map f = some b) : ∃ a, o = some a ∧ f a = b := by
  cases o with
  | none => simp at h
  | some a => exact ⟨a, rfl, by simpa using h⟩

/-- C11. For every non-empty heap that satisfies min-heap order, `extract_min`
returns the entry that was at the root, whose priority is at most that of
every entry, lowers `size` by exactly 1, and leaves a heap whose multiset of
entries is the original one minus the returned entry (and which is in
min-heap order again). -/
theorem C11_extract_min_contract (heap : MinHeap) (hne : 0 < heap.size)
    (ho : HeapOrdered heap) :
    ∃ m heap', extract_min heap = some (m, heap') ∧ m = heap.nodes 0 ∧
      (∀ e ∈ entries heap, m.distance ≤ e.distance) ∧
      heap'.size = heap.size - 1 ∧ entries heap' = (entries heap).erase m ∧
      HeapOrdered heap' := by
  cases hext : extract_min heap with
  | none =>
    have := extract_min_none.mp hext
    omega
  | some p =>
    obtain ⟨m, heap'⟩ := p
    obtain ⟨_, hroot, hsz, hent⟩ := extract_min_some hext
    obtain ⟨ho', hmin⟩ := extract_min_ordered hext ho
    refine ⟨m, heap', rfl, hroot, hmin, by omega, ?_, ho'⟩
    rw [hent, Multiset.erase_cons_head]

theorem C11_witness :
    ∃ heap, run_ops [.insert 3 (5 / 2), .insert_astar 4 1 (1 / 2) 3, .insert 7 2]
        (init_heap blank_heap) = some heap ∧ 0 < heap.size ∧ HeapOrdered heap ∧
      ∃ m heap', extract_min heap = some (m, heap') ∧ m = heap.nodes 0 ∧
        (∀ e ∈ entries heap, m.distance ≤ e.distance) ∧
        heap'.size = heap.size - 1 ∧ entries heap' = (entries heap).erase m ∧
        HeapOrdered heap' := by
  obtain ⟨heap, h, hsz⟩ := option_map_some
    (show (run_ops [.insert 3 (5 / 2), .insert_astar 4 1 (1 / 2) 3, .insert 7 2]
      (init_heap blank_heap)).map MinHeap.size = some 3 by decide!)
  have ho := run_ops_ordered _ _ heap (init_heap_ordered blank_heap) h
  exact ⟨heap, h, by omega, ho, C11_extract_min_contract heap (by omega) ho⟩

/-! ## trackmate_advanced.c: the traffic weight -/

/-- C12. On an edge with road type "local", traffic factor 2 and base distance
10, `calculate_dynamic_weight` at hour 8 returns exactly 25.2, which is
10 × (1.5 + 0.3 × 2) × 1.2, and leaves the edge as it was, so that a second
call with the same edge and hour returns the same value. -/
theorem C12_dynamic_weight_local_rush (edge : Edge) (hr : edge.road_type = "local")
    (ht : edge.traffic_factor = 2) (hb : edge.base_distance = 10) :
    (calculate_dynamic_weight edge 8).1 = 126 / 5 ∧
    (126 / 5 : ℚ) = 10 * (3 / 2 + 3 / 10 * 2) * (6 / 5) ∧
    (calculate_dynamic_weight (calculate_dynamic_weight edge 8).2 8).1 = 126 / 5 := by
  have hne : ¬ ("local" : String) = "highway" := by decide
  have hrush : ((8 : Int) ≥ 7 ∧ (8 : Int) ≤ 9) ∨ ((8 : Int) ≥ 18 ∧ (8 : Int) ≤ 20) := by decide
  have h1 : (calculate_dynamic_weight edge 8).1 = 126 / 5 := by
    simp only [calculate_dynamic_weight, hr, ht, hb, hne, if_pos hrush]
    norm_num
  have h2 : (calculate_dynamic_weight edge 8).2 = edge := rfl
  refine ⟨h1, by norm_num, ?_⟩
  rw [h2]; exact h1

theorem C12_witness :
    ((⟨1, 10, 10, "local", 2, 40⟩ : Edge).road_type = "local" ∧
      (⟨1, 10, 10, "local", 2, 40⟩ : Edge).traffic_factor = 2 ∧
      (⟨1, 10, 10, "local", 2, 40⟩ : Edge).base_distance = 10) ∧
    (calculate_dynamic_weight ⟨1, 10, 10, "local", 2, 40⟩ 8).1 = 126 / 5 ∧
    (126 / 5 : ℚ) = 10 * (3 / 2 + 3 / 10 * 2) * (6 / 5) ∧
    (calculate_dynamic_weight (calculate_dynamic_weight ⟨1, 10, 10, "local", 2, 40⟩ 8).2 8).1 =
      126 / 5 :=
  ⟨⟨rfl, rfl, rfl⟩, C12_dynamic_weight_local_rush ⟨1, 10, 10, "local", 2, 40⟩ rfl rfl rfl⟩

/-- C13. For every edge and every hour in 0..23, `calculate_dynamic_weight`
returns `base_distance × T × R`, with `T = 1.5 + 0.3 × traffic_factor` in the
hours 7, 8, 9, 18, 19, 20, `T = 0.8` in the hours 22, 23, 0..6 and `T = 1`
otherwise, and `R = 0.8` for "highway", `1.2` for "local" and `1` for any
other road type; the edge (its `base_distance` and `current_weight` included)
is not modified. -/
theorem C13_dynamic_weight_formula (edge : Edge) (hour : Int) (h0 : 0 ≤ hour)
    (h23 : hour ≤ 23) :
    (calculate_dynamic_weight edge hour).1 = dynamic_weight_spec edge hour ∧
    (calculate_dynamic_weight edge hour).2 = edge := by
  refine ⟨?_, rfl⟩
  simp only [calculate_dynamic_weight, dynamic_weight_spec, List.mem_cons, List.mem_singleton,
    List.not_mem_nil, or_false]
  split_ifs <;> first | omega | ring1

theorem C13_witness :
    ((0 : Int) ≤ 23 ∧ (23 : Int) ≤ 23) ∧
    (calculate_dynamic_weight ⟨1, 10, 10, "highway", 2, 80⟩ 23).1 =
      dynamic_weight_spec ⟨1, 10, 10, "highway", 2, 80⟩ 23 ∧
    (calculate_dynamic_weight ⟨1, 10, 10, "highway", 2, 80⟩ 23).2 =
      ⟨1, 10, 10, "highway", 2, 80⟩ :=
  ⟨⟨by decide, by decide⟩,
    C13_dynamic_weight_formula ⟨1, 10, 10, "highway", 2, 80⟩ 23 (by decide) (by decide)⟩

/-! ## graph.c: lookups -/

/-- C18. `get_location(id)` returns the location stored at index `id` when
`0 ≤ id < node_count` and `NULL` for every other `id`, negative ids and
`id = node_count` included. -/
theorem C18_get_location_range (g : Graph) (id : Int) :
    (0 ≤ id ∧ id < g.node_count → get_location g id = some (g.graph id).location) ∧
    (¬ (0 ≤ id ∧ id < g.node_count) → get_location g id = none) ∧
    (id < 0 → get_location g id = none) ∧
    get_location g g.node_count = none := by
  refine ⟨?_, ?_, ?_, ?_⟩
  · intro h
    simp only [get_location, ge_iff_le]
    rw [if_pos h]
  · intro h
    simp only [get_location, ge_iff_le]
    rw [if_neg h]
  · intro h
    simp only [get_location, ge_iff_le]
    rw [if_neg (by omega)]
  · simp only [get_location, ge_iff_le]
    rw [if_neg (by omega)]

theorem C18_witness :
    ((0 : Int) ≤ 1 ∧ (1 : Int) < triangle.node_count) ∧
    get_location triangle 1 = some (triangle.graph 1).location :=
  ⟨by decide, (C18_get_location_range triangle 1).1 (by decide)⟩

theorem find_location_loop_spec (g : Graph) (name : String) :
    ∀ (k : Nat) (i : Int),
      (find_location_loop g name k i = -1 ∧
        ∀ j, i ≤ j → j < i + k → (g.graph j).location.name ≠ name) ∨
      (i ≤ find_location_loop g name k i ∧ find_location_loop g name k i < i + k ∧
        (g.graph (find_location_loop g name k i)).location.name = name ∧
        ∀ j, i ≤ j → j < find_location_loop g name k i → (g.graph j).location.name ≠ name) := by
  intro k
  induction k with
  | zero =>
    intro i
    left
    refine ⟨rfl, ?_⟩
    intro j h1 h2
    simp at h2
    omega
  | succ k ih =>
    intro i
    unfold find_location_loop
    by_cases hname : (g.graph i).location.name = name
    · rw [if_pos hname]
      right
      refine ⟨le_refl _, by push_cast; omega, hname, ?_⟩
      intro j h1 h2
      omega
    · rw [if_neg hname]
      rcases ih (i + 1) with ⟨h1, h2⟩ | ⟨h1, h2, h3, h4⟩
      · left
        refine ⟨h1, ?_⟩
        intro j hj1 hj2
        by_cases hji : j = i
        · rw [hji]; exact hname
        · exact h2 j (by omega) (by push_cast at hj2 ⊢; omega)
      · right
        refine ⟨by omega, by push_cast at h2 ⊢; omega, h3, ?_⟩
        intro j hj1 hj2
        by_cases hji : j = i
        · rw [hji]; exact hname
        · exact h4 j (by omega) hj2

/-- C19. `find_location_by_name(name)` returns the smallest index in
`[0, node_count)` whose stored name equals `name`, and it returns -1 if and
only if no stored name equals `name`. -/
theorem C19_find_location_by_name (g : Graph) (name : String) :
    (find_location_by_name g name = -1 ↔
      ∀ i, InRange g i → (g.graph i).location.name ≠ name) ∧
    (find_location_by_name g name ≠ -1 →
      InRange g (find_location_by_name g name) ∧
      (g.graph (find_location_by_name g name)).location.name = name ∧
      ∀ j, InRange g j → j < find_location_by_name g name →
        (g.graph j).location.name ≠ name) := by
  unfold find_location_by_name
  have hk : ∀ j : Int, 0 ≤ j → (j < 0 + (g.node_count.toNat : Int) ↔ j < g.node_count) := by
    intro j hj
    constructor <;> intro h <;> omega
  rcases find_location_loop_spec g name g.node_count.toNat 0 with ⟨h1, h2⟩ | ⟨h1, h2, h3, h4⟩
  · refine ⟨⟨fun _ i hi => h2 i hi.1 ((hk i hi.1).mpr hi.2), fun _ => h1⟩, ?_⟩
    intro hne
    exact absurd h1 hne
  · have hin : InRange g (find_location_loop g name g.node_count.toNat 0) :=
      ⟨h1, (hk _ h1).mp h2⟩
    refine ⟨⟨?_, ?_⟩, ?_⟩
    · intro heq
      omega
    · intro hall
      exact absurd h3 (hall _ hin)
    · intro _
      exact ⟨hin, h3, fun j hj hlt => h4 j hj.1 hlt⟩

theorem C19_witness :
    find_location_by_name detour "A" ≠ -1 ∧
    (InRange detour (find_location_by_name detour "A") ∧
      (detour.graph (find_location_by_name detour "A")).location.name = "A" ∧
      ∀ j, InRange detour j → j < find_location_by_name detour "A" →
        (detour.graph j).location.name ≠ "A") :=
  have h : find_location_by_name detour "A" ≠ -1 := by decide!
  ⟨h, (C19_find_location_by_name detour "A").2 h⟩

/-! ## graph.c: building the graph -/

theorem mem_push_edge (g : Graph) (u x : Int) (e a : Edge) :
    a ∈ ((push_edge g u e).graph x).edges ↔ (x = u ∧ a = e) ∨ a ∈ (g.graph x).edges := by
  unfold push_edge
  by_cases hx : x = u
  · subst hx
    simp only [Function.update_same, List.mem_cons, true_and]
  · simp only [Function.update_noteq hx, hx, false_and, false_or]

theorem push_edge_location (g : Graph) (u x : Int) (e : Edge) :
    ((push_edge g u e).graph x).location = (g.graph x).location := by
  unfold push_edge
  by_cases hx : x = u
  · subst hx
    simp only [Function.update_same]
  · simp only [Function.update_noteq hx]

theorem push_edge_node_count (g : Graph) (u : Int) (e : Edge) :
    (push_edge g u e).node_count = g.node_count := rfl

theorem init_graph_edges (g : Graph) (u : Int) (h0 : 0 ≤ u) (h1 : u < MAX_NODES) :
    ((init_graph g).graph u).edges = [] := by
  simp only [init_graph]
  rw [if_pos ⟨h0, h1⟩]

/-- Storing an edge and its twin keeps every edge matched. -/
theorem push_pair_mirrored {g : Graph} (hm : Mirrored g) {f t : Int} (hf : 0 ≤ f ∧ f < MAX_NODES)
    (ht : 0 ≤ t ∧ t < MAX_NODES) {e1 e2 : Edge} (h1 : e1.destination = t)
    (h2 : e2.destination = f) (hb : e2.base_distance = e1.base_distance)
    (hr : e2.road_type = e1.road_type) (htf : e2.traffic_factor = e1.traffic_factor)
    (hs : e2.speed_limit = e1.speed_limit) :
    Mirrored (push_edge (push_edge g f e1) t e2) := by
  intro u hu0 hu1 a ha
  rw [mem_push_edge, mem_push_edge] at ha
  rcases ha with ⟨hut, hae⟩ | ⟨huf, hae⟩ | hold
  · subst hae
    refine ⟨by rw [h2]; exact hf, e1, ?_, ?_, hb.symm, hr.symm, htf.symm, hs.symm⟩
    · rw [mem_push_edge, mem_push_edge]
      exact Or.inr (Or.inl ⟨h2, rfl⟩)
    · rw [h1, hut]
  · subst hae
    refine ⟨by rw [h1]; exact ht, e2, ?_, ?_, hb, hr, htf, hs⟩
    · rw [mem_push_edge]
      exact Or.inl ⟨h1, rfl⟩
    · rw [h2, huf]
  · obtain ⟨hd, e', he', h⟩ := hm u hu0 hu1 a hold
    refine ⟨hd, e', ?_, h⟩
    rw [mem_push_edge, mem_push_edge]
    exact Or.inr (Or.inr he')

theorem apply_edge_op_mirrored {m : Libm} {g g' : Graph} {op : GraphOp}
    (hop : op.is_edge = true) (h : apply_graph_op m g op = some g') (hm : Mirrored g) :
    Mirrored g' := by
  cases op with
  | add_location _ _ _ _ => simp [GraphOp.is_edge] at hop
  | add_enhanced_location _ _ _ _ _ _ _ _ => simp [GraphOp.is_edge] at hop
  | add_edge f t =>
    simp only [apply_graph_op, add_edge] at h
    by_cases hc : 0 ≤ f ∧ f < MAX_NODES ∧ 0 ≤ t ∧ t < MAX_NODES
    · rw [if_pos hc] at h
      simp only [Option.some.injEq] at h
      subst h
      exact push_pair_mirrored hm ⟨hc.1, hc.2.1⟩ ⟨hc.2.2.1, hc.2.2.2⟩ rfl rfl rfl rfl rfl rfl
    · rw [if_neg hc] at h
      simp at h
  | add_enhanced_edge f t rt tf sl =>
    simp only [apply_graph_op, add_enhanced_edge] at h
    by_cases hc : 0 ≤ f ∧ f < MAX_NODES ∧ 0 ≤ t ∧ t < MAX_NODES
    · rw [if_pos hc] at h
      simp only [Option.some.injEq] at h
      subst h
      exact push_pair_mirrored hm ⟨hc.1, hc.2.1⟩ ⟨hc.2.2.1, hc.2.2.2⟩ rfl rfl rfl rfl rfl rfl
    · rw [if_neg hc] at h
      simp at h

theorem init_graph_mirrored (g : Graph) : Mirrored (init_graph g) := by
  intro u h0 h1 e he
  rw [init_graph_edges g u h0 h1] at he
  simp at he

/-- What a call that stores a location does: slot `node_count` receives the
`id` the caller passed, `node_count` grows by 1, the other slots are kept. -/
theorem apply_location_op_spec {m : Libm} {g g' : Graph} {op : GraphOp}
    (hop : op.is_location = true) (h : apply_graph_op m g op = some g') :
    0 ≤ g.node_count ∧ g.node_count < MAX_NODES ∧ g'.node_count = g.node_count + 1 ∧
    (g'.graph g.node_count).location.id = op.given_id ∧
    ((g'.graph g.node_count).edges = [] ∧ (g'.graph g.node_count).is_active = 1) ∧
    ∀ i, i ≠ g.node_count → g'.graph i = g.graph i := by
  cases op with
  | add_edge _ _ => simp [GraphOp.is_location] at hop
  | add_enhanced_edge _ _ _ _ _ => simp [GraphOp.is_location] at hop
  | add_location id name lat lon =>
    simp only [apply_graph_op, add_location] at h
    by_cases hc : 0 ≤ g.node_count ∧ g.node_count < MAX_NODES
    · rw [if_pos hc] at h
      simp only [Option.some.injEq] at h
      subst h
      refine ⟨hc.1, hc.2, rfl, ?_, ⟨?_, ?_⟩, ?_⟩
      · simp only [Function.update_same, GraphOp.given_id]
      · simp only [Function.update_same]
      · simp only [Function.update_same]
      · intro i hi
        simp only [Function.update_noteq hi]
    · rw [if_neg hc] at h
      simp at h
  | add_enhanced_location id name type district lat lon elev traffic =>
    simp only [apply_graph_op, add_enhanced_location] at h
    by_cases hc : 0 ≤ g.node_count ∧ g.node_count < MAX_NODES
    · rw [if_pos hc] at h
      simp only [Option.some.injEq] at h
      subst h
      refine ⟨hc.1, hc.2, rfl, ?_, ⟨?_, ?_⟩, ?_⟩
      · simp only [Function.update_same, GraphOp.given_id]
      · simp only [Function.update_same]
      · simp only [Function.update_same]
      · intro i hi
        simp only [Function.update_noteq hi]
    · rw [if_neg hc] at h
      simp at h

theorem run_location_ops_spec {m : Libm} (ops : List GraphOp) :
    ∀ g g' : Graph, (∀ op ∈ ops, op.is_location = true) → 0 ≤ g.node_count →
      run_graph_ops m ops g = some g' →
      g'.node_count = g.node_count + ops.length ∧
      (∀ i, i < g.node_count → g'.graph i = g.graph i) ∧
      ∀ k (hk : k < ops.length),
        (g'.graph (g.node_count + k)).location.id = ops[k].given_id := by
  induction ops with
  | nil =>
    intro g g' _ _ h
    simp only [run_graph_ops, Option.some.injEq] at h
    subst h
    refine ⟨by simp, fun _ _ => rfl, ?_⟩
    intro k hk
    simp at hk
  | cons op ops ih =>
    intro g g' hops hn h
    simp only [run_graph_ops] at h
    cases hop : apply_graph_op m g op with
    | none => rw [hop] at h; simp at h
    | some g1 =>
      rw [hop] at h
      obtain ⟨_, _, hn1, hid, _, hkeep⟩ :=
        apply_location_op_spec (hops op (List.mem_cons_self _ _)) hop
      obtain ⟨h1, h2, h3⟩ := ih g1 g' (fun o ho => hops o (List.mem_cons_of_mem _ ho))
        (by omega) h
      refine ⟨?_, ?_, ?_⟩
      · rw [h1, hn1]; simp only [List.length_cons]; push_cast; omega
      · intro i hi
        rw [h2 i (by omega), hkeep i (by omega)]
      · intro k hk
        cases k with
        | zero =>
          simp only [Nat.cast_zero, add_zero, List.getElem_cons_zero]
          rw [h2 _ (by omega)]
          exact hid
        | succ k =>
          simp only [List.getElem_cons_succ]
          have hk' : k < ops.length := by simp only [List.length_cons] at hk; omega
          have := h3 k hk'
          rw [hn1] at this
          have heq : g.node_count + ((k + 1 : Nat) : Int) = g.node_count + 1 + (k : Int) := by
            push_cast; omega
          rw [heq]
          exact this

theorem fills_empty_slot_here_edges {g : Graph} {op : GraphOp} (hop : op.is_location = true)
    (h : fills_empty_slot_here g op = true) : (g.graph g.node_count).edges = [] := by
  cases op with
  | add_edge _ _ => simp [GraphOp.is_location] at hop
  | add_enhanced_edge _ _ _ _ _ => simp [GraphOp.is_location] at hop
  | add_location _ _ _ _ => exact List.isEmpty_iff.mp h
  | add_enhanced_location _ _ _ _ _ _ _ _ => exact List.isEmpty_iff.mp h

/-- Storing a location in a slot whose adjacency list is empty keeps every
edge matched: no edge leads to that slot. -/
theorem apply_location_op_mirrored {m : Libm} {g g' : Graph} {op : GraphOp}
    (hop : op.is_location = true) (hfresh : fills_empty_slot_here g op = true)
    (h : apply_graph_op m g op = some g') (hm : Mirrored g) : Mirrored g' := by
  obtain ⟨_, _, _, _, ⟨hedges, _⟩, hkeep⟩ := apply_location_op_spec hop h
  have hempty := fills_empty_slot_here_edges hop hfresh
  intro u hu0 hu1 e he
  by_cases hun : u = g.node_count
  · rw [hun, hedges] at he
    simp at he
  · rw [hkeep u hun] at he
    obtain ⟨hd, e', he', hrest⟩ := hm u hu0 hu1 e he
    have hdn : e.destination ≠ g.node_count := by
      intro heq
      rw [heq, hempty] at he'
      simp at he'
    exact ⟨hd, e', by rw [hkeep _ hdn]; exact he', hrest⟩

theorem apply_graph_op_mirrored {m : Libm} {g g' : Graph} {op : GraphOp}
    (hfresh : fills_empty_slot_here g op = true) (h : apply_graph_op m g op = some g')
    (hm : Mirrored g) : Mirrored g' := by
  cases op with
  | add_location _ _ _ _ => exact apply_location_op_mirrored (by rfl) hfresh h hm
  | add_enhanced_location _ _ _ _ _ _ _ _ => exact apply_location_op_mirrored (by rfl) hfresh h hm
  | add_edge _ _ => exact apply_edge_op_mirrored (by rfl) h hm
  | add_enhanced_edge _ _ _ _ _ => exact apply_edge_op_mirrored (by rfl) h hm

theorem run_graph_ops_mirrored {m : Libm} (ops : List GraphOp) :
    ∀ g g' : Graph, fills_empty_slots m ops g = true → run_graph_ops m ops g = some g' →
      Mirrored g → Mirrored g' := by
  induction ops with
  | nil =>
    intro g g' _ h hm
    simp only [run_graph_ops, Option.some.injEq] at h
    exact h ▸ hm
  | cons op ops ih =>
    intro g g' hf h hm
    simp only [run_graph_ops] at h
    simp only [fills_empty_slots] at hf
    cases hop : apply_graph_op m g op with
    | none => rw [hop] at h; simp at h
    | some g1 =>
      rw [hop] at h hf
      simp only [Bool.and_eq_true] at hf
      exact ih g1 g' hf.2 h (apply_graph_op_mirrored hf.1 hop hm)

/-- A sequence of edge calls alone fills no slot. -/
theorem fills_empty_slots_of_edges (m : Libm) (ops : List GraphOp) :
    ∀ g : Graph, (∀ op ∈ ops, op.is_edge = true) → fills_empty_slots m ops g = true := by
  induction ops with
  | nil => intro g _; rfl
  | cons op ops ih =>
    intro g hops
    simp only [fills_empty_slots]
    cases hop : apply_graph_op m g op with
    | none => rfl
    | some g1 =>
      simp only [Bool.and_eq_true]
      refine ⟨?_, ih g1 (fun o ho => hops o (List.mem_cons_of_mem _ ho))⟩
      have := hops op (List.mem_cons_self _ _)
      cases op <;> simp [GraphOp.is_edge] at this <;> rfl

/-- When every edge call joins two locations added before it, the slots from
`node_count` on stay empty, so every location call fills an empty slot. -/
theorem fills_empty_slots_of_joins_existing (m : Libm) (ops : List GraphOp) :
    ∀ g : Graph, 0 ≤ g.node_count →
      (∀ i, g.node_count ≤ i → i < MAX_NODES → (g.graph i).edges = []) →
      joins_existing m ops g = true → fills_empty_slots m ops g = true := by
  induction ops with
  | nil => intro g _ _ _; rfl
  | cons op ops ih =>
    intro g h0 hempty hj
    simp only [joins_existing, Bool.and_eq_true] at hj
    simp only [fills_empty_slots]
    cases hop : apply_graph_op m g op with
    | none => rfl
    | some g1 =>
      rw [hop] at hj
      simp only [Bool.and_eq_true]
      have hloc : op.is_location = true →
          fills_empty_slot_here g op = true ∧ fills_empty_slots m ops g1 = true := by
        intro hl
        obtain ⟨_, hlt, hn, _, ⟨hedges, _⟩, hkeep⟩ := apply_location_op_spec hl hop
        have hslot := hempty g.node_count (le_refl _) hlt
        refine ⟨?_, ih g1 (by omega) ?_ hj.2⟩
        · cases op with
          | add_edge _ _ => simp [GraphOp.is_location] at hl
          | add_enhanced_edge _ _ _ _ _ => simp [GraphOp.is_location] at hl
          | add_location _ _ _ _ => exact List.isEmpty_iff.mpr hslot
          | add_enhanced_location _ _ _ _ _ _ _ _ => exact List.isEmpty_iff.mpr hslot
        · intro i hi1 hi2
          rw [hkeep i (by omega)]
          exact hempty i (by omega) hi2
      have hedge : ∀ f t : Int, InRange g f → InRange g t → ∀ e1 e2 : Edge,
          g1 = push_edge (push_edge g f e1) t e2 → fills_empty_slots m ops g1 = true := by
        intro f t hf ht e1 e2 hg
        apply ih g1 (by rw [hg]; exact h0) ?_ hj.2
        intro i hi1 hi2
        rw [hg] at hi1 ⊢
        have hi1' : g.node_count ≤ i := hi1
        have h1 : i ≠ t := by have := ht.2; omega
        have h2 : i ≠ f := by have := hf.2; omega
        unfold push_edge
        simp only [Function.update_noteq h1, Function.update_noteq h2]
        exact hempty i hi1' hi2
      cases op with
      | add_location _ _ _ _ => exact hloc rfl
      | add_enhanced_location _ _ _ _ _ _ _ _ => exact hloc rfl
      | add_edge f t =>
        simp only [joins_existing_here, Bool.and_eq_true, decide_eq_true_eq] at hj
        refine ⟨rfl, ?_⟩
        simp only [apply_graph_op, add_edge] at hop
        split at hop
        · simp only [Option.some.injEq] at hop
          exact hedge f t hj.1.1 hj.1.2 _ _ hop.symm
        · simp at hop
      | add_enhanced_edge f t rt tf sl =>
        simp only [joins_existing_here, Bool.and_eq_true, decide_eq_true_eq] at hj
        refine ⟨rfl, ?_⟩
        simp only [apply_graph_op, add_enhanced_edge] at hop
        split at hop
        · simp only [Option.some.injEq] at hop
          exact hedge f t hj.1.1 hj.1.2 _ _ hop.symm
        · simp at hop

/-- C16. After `init_graph` and any sequence of `add_edge` /
`add_enhanced_edge` calls (self-loops and repeated pairs included), alone or
mixed with the `add_location` / `add_enhanced_location` calls that add the
locations, as long as no location call fills a slot that an earlier edge call
has used: for every edge in the adjacency list of a node `u` with destination
`v` there is an edge in the adjacency list of `v` with destination `u` and
equal `base_distance`, `road_type`, `traffic_factor` and `speed_limit`. The
condition holds for every sequence of edge calls alone
(`fills_empty_slots_of_edges`) and for every sequence in which the edge calls
join locations added before them (`fills_empty_slots_of_joins_existing`). -/
theorem C16_edges_are_mirrored (m : Libm) (ops : List GraphOp) (g0 g : Graph)
    (hfresh : fills_empty_slots m ops (init_graph g0) = true)
    (hrun : run_graph_ops m ops (init_graph g0) = some g) :
    ∀ u : Int, 0 ≤ u → u < MAX_NODES → ∀ e ∈ (g.graph u).edges,
      ∃ e' ∈ (g.graph e.destination).edges, e'.destination = u ∧
        e'.base_distance = e.base_distance ∧ e'.road_type = e.road_type ∧
        e'.traffic_factor = e.traffic_factor ∧ e'.speed_limit = e.speed_limit :=
  fun u h0 h1 e he =>
    (run_graph_ops_mirrored ops _ g hfresh hrun (init_graph_mirrored g0) u h0 h1 e he).2

theorem C16_witness :
    ∃ g, fills_empty_slots small_angle_libm
        [.add_location 0 "A" 0 0, .add_enhanced_location 1 "B" "hut" "d" 0 0 1000 1,
         .add_edge 0 1, .add_enhanced_edge 1 1 "local" 2 30, .add_location 2 "C" 0 0,
         .add_edge 2 0, .add_edge 0 1] (init_graph blank_graph) = true ∧
      run_graph_ops small_angle_libm
        [.add_location 0 "A" 0 0, .add_enhanced_location 1 "B" "hut" "d" 0 0 1000 1,
         .add_edge 0 1, .add_enhanced_edge 1 1 "local" 2 30, .add_location 2 "C" 0 0,
         .add_edge 2 0, .add_edge 0 1] (init_graph blank_graph) = some g ∧
      g.node_count = 3 ∧
      ∀ u : Int, 0 ≤ u → u < MAX_NODES → ∀ e ∈ (g.graph u).edges,
        ∃ e' ∈ (g.graph e.destination).edges, e'.destination = u ∧
          e'.base_distance = e.base_distance ∧ e'.road_type = e.road_type ∧
          e'.traffic_factor = e.traffic_factor ∧ e'.speed_limit = e.speed_limit := by
  have hfresh : fills_empty_slots small_angle_libm
      [.add_location 0 "A" 0 0, .add_enhanced_location 1 "B" "hut" "d" 0 0 1000 1,
       .add_edge 0 1, .add_enhanced_edge 1 1 "local" 2 30, .add_location 2 "C" 0 0,
       .add_edge 2 0, .add_edge 0 1] (init_graph blank_graph) = true := by decide!
  obtain ⟨g, hg, hn⟩ := option_map_some
    (show (run_graph_ops small_angle_libm
      [.add_location 0 "A" 0 0, .add_enhanced_location 1 "B" "hut" "d" 0 0 1000 1,
       .add_edge 0 1, .add_enhanced_edge 1 1 "local" 2 30, .add_location 2 "C" 0 0,
       .add_edge 2 0, .add_edge 0 1] (init_graph blank_graph)).map Graph.node_count =
      some 3 by decide!)
  exact ⟨g, hfresh, hg, hn,
    C16_edges_are_mirrored small_angle_libm _ blank_graph g hfresh hg⟩

/-- When a location is added after an edge call has used its index, the call
resets the adjacency list of its slot and the edge into that slot loses its
twin: on `late_location` node 0 keeps the edge 0 -> 1 while the list of node 1
is empty. -/
theorem late_location_unmatched :
    (late_location.map fun g =>
      ((g.graph 0).edges.map Edge.destination, (g.graph 1).edges.map Edge.destination)) =
      some ([1], []) := by
  decide!

/-- C17 (counterexample). After `init_graph` and the single call
`add_location(7, "A", 0, 0)`, the location stored at index 0 has `id` 7, not
0: `get_location(0)` returns a location whose `id` is 7, and `get_location(7)`
returns `NULL`. -/
theorem C17_counterexample :
    id_at (add_location (init_graph blank_graph) 7 "A" 0 0) 0 = some 7 ∧
    found_id (add_location (init_graph blank_graph) 7 "A" 0 0) 0 = some 7 ∧
    found_id (add_location (init_graph blank_graph) 7 "A" 0 0) 7 = none := by
  refine ⟨by decide!, by decide!, by decide!⟩

/-- C17 (amended). After `init_graph` followed by any sequence of
`add_location` / `add_enhanced_location` calls, `node_count` is the number of
calls, the location stored at index `k` is that of call number `k` (counted
from 0) and carries the `id` that call was given, and `get_location(k)`
returns it. The `id` at every index `i` equals `i` when every call passes its
own position as `id`. -/
theorem C17_ids_are_the_given_ones (m : Libm) (ops : List GraphOp) (g0 g : Graph)
    (hops : ∀ op ∈ ops, op.is_location = true)
    (hrun : run_graph_ops m ops (init_graph g0) = some g) :
    g.node_count = ops.length ∧
    (∀ k (hk : k < ops.length),
      (g.graph k).location.id = ops[k].given_id ∧
      get_location g k = some (g.graph k).location) ∧
    ((∀ k (hk : k < ops.length), ops[k].given_id = k) →
      ∀ i, InRange g i →
        (g.graph i).location.id = i ∧ (get_location g i).map Location.id = some i) := by
  obtain ⟨h1, _, h3⟩ := run_location_ops_spec ops (init_graph g0) g hops (le_refl _) hrun
  have hn : g.node_count = ops.length := by
    rw [h1]
    show (0 : Int) + _ = _
    rw [zero_add]
  have hid : ∀ k (hk : k < ops.length), (g.graph k).location.id = ops[k].given_id := by
    intro k hk
    have := h3 k hk
    have h0 : (init_graph g0).node_count + (k : Int) = k := by
      show (0 : Int) + _ = _
      rw [zero_add]
    rw [h0] at this
    exact this
  have hget : ∀ i, InRange g i → get_location g i = some (g.graph i).location := by
    intro i hi
    simp only [get_location, ge_iff_le]
    rw [if_pos ⟨hi.1, hi.2⟩]
  refine ⟨hn, ?_, ?_⟩
  · intro k hk
    exact ⟨hid k hk, hget k ⟨by omega, by rw [hn]; exact_mod_cast hk⟩⟩
  · intro hall i hi
    obtain ⟨k, rfl⟩ : ∃ k : Nat, i = k := ⟨i.toNat, by have := hi.1; omega⟩
    have hk : k < ops.length := by have := hi.2; rw [hn] at this; exact_mod_cast this
    have hik : (g.graph k).location.id = k := by rw [hid k hk, hall k hk]
    refine ⟨hik, ?_⟩
    rw [hget k hi, Option.map_some', hik]

theorem C17_witness :
    ∃ g, (∀ op ∈ [GraphOp.add_location 0 "A" 0 0, .add_enhanced_location 5 "B" "hut" "d" 0 0 9 1],
        op.is_location = true) ∧
      run_graph_ops small_angle_libm
        [.add_location 0 "A" 0 0, .add_enhanced_location 5 "B" "hut" "d" 0 0 9 1]
        (init_graph blank_graph) = some g ∧
      g.node_count = 2 ∧ (g.graph 1).location.id = 5 ∧
      get_location g 1 = some (g.graph 1).location := by
  have hops : ∀ op ∈ [GraphOp.add_location 0 "A" 0 0,
      .add_enhanced_location 5 "B" "hut" "d" 0 0 9 1], op.is_location = true := by decide
  obtain ⟨g, hg⟩ := Option.isSome_iff_exists.mp
    (show (run_graph_ops small_angle_libm
      [.add_location 0 "A" 0 0, .add_enhanced_location 5 "B" "hut" "d" 0 0 9 1]
      (init_graph blank_graph)).isSome = true by decide!)
  obtain ⟨h1, h2, _⟩ := C17_ids_are_the_given_ones small_angle_libm _ blank_graph g hops hg
  have h3 := h2 1 (by decide)
  exact ⟨g, hops, hg, h1, h3.1, h3.2⟩

/-! ## The heap array is too small for lazy deletion -/

theorem fault_of_some {α : Type} {r : Except Fault α} {f : Fault}
    (h : fault_of r = some f) : r = .error f := by
  cases r with
  | ok a => simp [fault_of] at h
  | error e =>
    simp only [fault_of, Option.some.injEq] at h
    rw [h]

/-- C20 (the code at the failing input). On `hub`, a graph of 50 nodes,
`dijkstra(0, 49)` expands node 0 and pushes its 49 neighbours, pops node 1
and pushes the nodes 2 and 3 again, which fills the 50 slots; the push of node
4 then writes `nodes[50]`, past the end of the array. `astar_pathfind(0, 49)`
does the same. -/
theorem C20_heap_overrun_on_hub :
    hub.node_count = 50 ∧ WellFormed hub ∧ NonNeg hub ∧
    dijkstra hub 0 49 200 blank_dijkstra = .error .bounds ∧
    astar_pathfind small_angle_libm hub 0 49 (fun _ => 0) 0 200 blank_astar =
      .error .bounds := by
  refine ⟨by decide, wellFormed_of_check _ (by decide!), nonNeg_of_check _ (by decide!),
    fault_of_some (by decide!), fault_of_some (by decide!)⟩

/-! ## The heuristic against the stored weights -/

theorem enhanced_haversine_distance_symm {m : Libm} (hsin : ∀ x, m.sin (-x) = -m.sin x)
    (lat1 lon1 elev1 lat2 lon2 elev2 : ℚ) :
    enhanced_haversine_distance m lat1 lon1 elev1 lat2 lon2 elev2 =
      enhanced_haversine_distance m lat2 lon2 elev2 lat1 lon1 elev1 := by
  unfold enhanced_haversine_distance
  have h1 : (lat1 * (PI / 180) - lat2 * (PI / 180)) / 2 =
      -((lat2 * (PI / 180) - lat1 * (PI / 180)) / 2) := by ring
  have h2 : (lon1 * (PI / 180) - lon2 * (PI / 180)) / 2 =
      -((lon2 * (PI / 180) - lon1 * (PI / 180)) / 2) := by ring
  simp only [h1, h2, hsin]
  have ha : -m.sin ((lat2 * (PI / 180) - lat1 * (PI / 180)) / 2) *
        -m.sin ((lat2 * (PI / 180) - lat1 * (PI / 180)) / 2) +
      m.cos (lat2 * (PI / 180)) * m.cos (lat1 * (PI / 180)) *
          -m.sin ((lon2 * (PI / 180) - lon1 * (PI / 180)) / 2) *
        -m.sin ((lon2 * (PI / 180) - lon1 * (PI / 180)) / 2) =
      m.sin ((lat2 * (PI / 180) - lat1 * (PI / 180)) / 2) *
        m.sin ((lat2 * (PI / 180) - lat1 * (PI / 180)) / 2) +
      m.cos (lat1 * (PI / 180)) * m.cos (lat2 * (PI / 180)) *
          m.sin ((lon2 * (PI / 180) - lon1 * (PI / 180)) / 2) *
        m.sin ((lon2 * (PI / 180) - lon1 * (PI / 180)) / 2) := by ring
  have he : (elev1 - elev2) / 1000 * ((elev1 - elev2) / 1000) =
      (elev2 - elev1) / 1000 * ((elev2 - elev1) / 1000) := by ring
  rw [ha, he]

theorem heuristic_distance_congr (m : Libm) {g g' : Graph} {u v : Int}
    (hu : (g'.graph u).location = (g.graph u).location)
    (hv : (g'.graph v).location = (g.graph v).location) :
    heuristic_distance m g' u v = heuristic_distance m g u v := by
  unfold heuristic_distance
  rw [hu, hv]

theorem heuristic_distance_symm {m : Libm} (hsin : ∀ x, m.sin (-x) = -m.sin x) (g : Graph)
    (u v : Int) : heuristic_distance m g u v = heuristic_distance m g v u :=
  enhanced_haversine_distance_symm hsin _ _ _ _ _ _

/-- Storing an edge and its twin, each weighing what the heuristic estimates
between its endpoints, keeps every stored weight exact. -/
theorem push_pair_exact {m : Libm} {g : Graph} (hx : EdgesExact m g) {f t : Int}
    (hf : InRange g f) (ht : InRange g t) {e1 e2 : Edge} (h1 : e1.destination = t)
    (h2 : e2.destination = f) (hw1 : heuristic_distance m g f t = e1.current_weight)
    (hw2 : heuristic_distance m g t f = e2.current_weight) :
    EdgesExact m (push_edge (push_edge g f e1) t e2) := by
  have hloc : ∀ x, ((push_edge (push_edge g f e1) t e2).graph x).location =
      (g.graph x).location := by
    intro x
    rw [push_edge_location, push_edge_location]
  have hh : ∀ a b, heuristic_distance m (push_edge (push_edge g f e1) t e2) a b =
      heuristic_distance m g a b := fun a b => heuristic_distance_congr m (hloc a) (hloc b)
  refine ⟨hx.1, ?_⟩
  intro u hu a ha
  have hu' : InRange g u := hu
  rw [mem_push_edge, mem_push_edge] at ha
  rw [hh]
  rcases ha with ⟨hut, hae⟩ | ⟨huf, hae⟩ | hold
  · subst hae
    rw [h2, hut]
    exact ⟨hf, hw2⟩
  · subst hae
    rw [h1, huf]
    exact ⟨ht, hw1⟩
  · exact hx.2 u hu' a hold

theorem apply_graph_op_exact {m : Libm} (hsin : ∀ x, m.sin (-x) = -m.sin x) {g g' : Graph}
    {op : GraphOp} (hplain : op.is_plain_edge = false)
    (hj : joins_existing_here g op = true) (h : apply_graph_op m g op = some g')
    (hx : EdgesExact m g) : EdgesExact m g' := by
  have hloc : op.is_location = true → EdgesExact m g' := by
    intro hop
    obtain ⟨h0, _, hn, _, ⟨hedges, _⟩, hkeep⟩ := apply_location_op_spec hop h
    refine ⟨by omega, ?_⟩
    intro u hu e he
    by_cases hun : u = g.node_count
    · rw [hun, hedges] at he
      simp at he
    · have hu' : InRange g u := ⟨hu.1, by have := hu.2; omega⟩
      rw [hkeep u hun] at he
      obtain ⟨hd, hw⟩ := hx.2 u hu' e he
      refine ⟨⟨hd.1, by have := hd.2; omega⟩, ?_⟩
      rw [← hw]
      exact heuristic_distance_congr m (by rw [hkeep u hun])
        (by rw [hkeep _ (by have := hd.2; omega)])
  cases op with
  | add_location _ _ _ _ => exact hloc rfl
  | add_enhanced_location _ _ _ _ _ _ _ _ => exact hloc rfl
  | add_edge f t => simp [GraphOp.is_plain_edge] at hplain
  | add_enhanced_edge f t rt tf sl =>
    simp only [joins_existing_here, Bool.and_eq_true, decide_eq_true_eq] at hj
    obtain ⟨hf, ht⟩ := hj
    simp only [apply_graph_op, add_enhanced_edge] at h
    by_cases hc : 0 ≤ f ∧ f < MAX_NODES ∧ 0 ≤ t ∧ t < MAX_NODES
    · rw [if_pos hc] at h
      simp only [Option.some.injEq] at h
      subst h
      refine push_pair_exact hx hf ht rfl rfl rfl ?_
      exact heuristic_distance_symm hsin g t f
    · rw [if_neg hc] at h
      simp at h

theorem run_graph_ops_exact {m : Libm} (hsin : ∀ x, m.sin (-x) = -m.sin x)
    (ops : List GraphOp) :
    ∀ g g' : Graph, (∀ op ∈ ops, op.is_plain_edge = false) →
      joins_existing m ops g = true → run_graph_ops m ops g = some g' →
      EdgesExact m g → EdgesExact m g' := by
  induction ops with
  | nil =>
    intro g g' _ _ h hx
    simp only [run_graph_ops, Option.some.injEq] at h
    exact h ▸ hx
  | cons op ops ih =>
    intro g g' hplain hj h hx
    simp only [run_graph_ops] at h
    simp only [joins_existing, Bool.and_eq_true] at hj
    cases hop : apply_graph_op m g op with
    | none => rw [hop] at h; simp at h
    | some g1 =>
      rw [hop] at h hj
      exact ih g1 g' (fun o ho => hplain o (List.mem_cons_of_mem _ ho)) hj.2 h
        (apply_graph_op_exact hsin (hplain op (List.mem_cons_self _ _)) hj.1 hop hx)

theorem init_graph_exact (m : Libm) (g : Graph) : EdgesExact m (init_graph g) := by
  refine ⟨le_refl _, ?_⟩
  intro u hu
  have h1 := hu.1
  have h2 : u < 0 := hu.2
  omega

/-- C14 (counterexample). On `detour` the edge 0 -> 1, stored by `add_edge`
between locations 10000 m apart in elevation, weighs 0 while the heuristic
between its endpoints is 10. On `early_edge`, where `add_enhanced_edge(0, 1)`
was called before location 1 was added, the edge 0 -> 1 weighs 0 while the
heuristic between its endpoints is 1. -/
theorem C14_counterexample :
    (∃ e ∈ (detour.graph 0).edges, e.destination = 1 ∧ e.current_weight = 0 ∧
      heuristic_distance small_angle_libm detour 0 e.destination = 10 ∧
      ¬ heuristic_distance small_angle_libm detour 0 e.destination ≤ e.current_weight) ∧
    (early_edge.map fun g => (g.graph 0).edges.map fun e =>
      (e.destination, e.current_weight, heuristic_distance small_angle_libm g 0 e.destination)) =
      some [(1, 0, 1)] := by
  constructor <;> decide!

/-- C14 (amended). For every graph built from `init_graph` through
`add_location` / `add_enhanced_location` and `add_enhanced_edge` in which
every edge call joins two locations added before it, and for every stored edge
`u -> v`: `heuristic_distance(u, v)` is at most the `current_weight` of the
edge; the two are the same value, `enhanced_haversine_distance` of the same two
locations. Only the oddness of the sine is used, for the twin edge `v -> u`. -/
theorem C14_heuristic_le_weight_on_enhanced_edges {m : Libm}
    (hsin : ∀ x, m.sin (-x) = -m.sin x) (ops : List GraphOp) (g0 g : Graph)
    (hplain : ∀ op ∈ ops, op.is_plain_edge = false)
    (hj : joins_existing m ops (init_graph g0) = true)
    (hrun : run_graph_ops m ops (init_graph g0) = some g) :
    ∀ u, InRange g u → ∀ e ∈ (g.graph u).edges,
      heuristic_distance m g u e.destination ≤ e.current_weight ∧
      heuristic_distance m g u e.destination = e.current_weight := by
  intro u hu e he
  have h := ((run_graph_ops_exact hsin ops _ g hplain hj hrun
    (init_graph_exact m g0)).2 u hu e he).2
  exact ⟨le_of_eq h, h⟩

theorem C14_witness :
    ∃ g, (∀ x, small_angle_libm.sin (-x) = -small_angle_libm.sin x) ∧
      (∀ op ∈ [GraphOp.add_location 0 "A" 0 0,
          .add_enhanced_location 1 "B" "hut" "d" 0 0 1000 1,
          .add_enhanced_edge 0 1 "local" 1 30], op.is_plain_edge = false) ∧
      joins_existing small_angle_libm
        [.add_location 0 "A" 0 0, .add_enhanced_location 1 "B" "hut" "d" 0 0 1000 1,
         .add_enhanced_edge 0 1 "local" 1 30] (init_graph blank_graph) = true ∧
      run_graph_ops small_angle_libm
        [.add_location 0 "A" 0 0, .add_enhanced_location 1 "B" "hut" "d" 0 0 1000 1,
         .add_enhanced_edge 0 1 "local" 1 30] (init_graph blank_graph) = some g ∧
      g.node_count = 2 ∧
      ∀ u, InRange g u → ∀ e ∈ (g.graph u).edges,
        heuristic_distance small_angle_libm g u e.destination ≤ e.current_weight ∧
        heuristic_distance small_angle_libm g u e.destination = e.current_weight := by
  have hsin : ∀ x, small_angle_libm.sin (-x) = -small_angle_libm.sin x := fun _ => rfl
  have hplain : ∀ op ∈ [GraphOp.add_location 0 "A" 0 0,
      .add_enhanced_location 1 "B" "hut" "d" 0 0 1000 1,
      .add_enhanced_edge 0 1 "local" 1 30], op.is_plain_edge = false := by decide
  have hj : joins_existing small_angle_libm
      [.add_location 0 "A" 0 0, .add_enhanced_location 1 "B" "hut" "d" 0 0 1000 1,
       .add_enhanced_edge 0 1 "local" 1 30] (init_graph blank_graph) = true := by decide!
  obtain ⟨g, hg, hn⟩ := option_map_some
    (show (run_graph_ops small_angle_libm
      [.add_location 0 "A" 0 0, .add_enhanced_location 1 "B" "hut" "d" 0 0 1000 1,
       .add_enhanced_edge 0 1 "local" 1 30] (init_graph blank_graph)).map Graph.node_count =
      some 2 by decide!)
  exact ⟨g, hsin, hplain, hj, hg, hn,
    C14_heuristic_le_weight_on_enhanced_edges hsin _ blank_graph g hplain hj hg⟩

/-! ## trackmate_advanced.c: the traffic weight against the base distance -/

/-- For an edge with non-negative base distance and traffic factor, at an hour
in 0..23, the traffic weight reaches the base distance exactly when the base
distance is 0, in the rush hours, and in the plain hours off the highways. -/
theorem dynamic_weight_ge_iff (e : Edge) (hb : 0 ≤ e.base_distance)
    (htf : 0 ≤ e.traffic_factor) (hour : Int) (h0 : 0 ≤ hour) (h23 : hour ≤ 23) :
    e.base_distance ≤ (calculate_dynamic_weight e hour).1 ↔
      e.base_distance = 0 ∨ is_rush_hour hour ∨
        (is_plain_hour hour ∧ e.road_type ≠ "highway") := by
  have htf' : (0 : ℚ) ≤ (e.traffic_factor : ℚ) := by exact_mod_cast htf
  have hprod : 0 ≤ e.base_distance * (e.traffic_factor : ℚ) := mul_nonneg hb htf'
  by_cases hz : e.base_distance = 0
  · simp [calculate_dynamic_weight, hz]
  · have hpos : 0 < e.base_distance := lt_of_le_of_ne hb (Ne.symm hz)
    have hne : ¬ ("local" : String) = "highway" := by decide
    simp only [calculate_dynamic_weight, is_rush_hour, is_plain_hour]
    by_cases hr : (hour ≥ 7 ∧ hour ≤ 9) ∨ (hour ≥ 18 ∧ hour ≤ 20)
    · have hrhs : e.base_distance = 0 ∨ ((7 ≤ hour ∧ hour ≤ 9) ∨ (18 ≤ hour ∧ hour ≤ 20)) ∨
          (((10 ≤ hour ∧ hour ≤ 17) ∨ hour = 21) ∧ e.road_type ≠ "highway") :=
        Or.inr (Or.inl hr)
      rw [if_pos hr]
      by_cases hh : e.road_type = "highway"
      · rw [if_pos hh]
        exact ⟨fun _ => hrhs, fun _ => by nlinarith⟩
      · rw [if_neg hh]
        by_cases hl : e.road_type = "local"
        · rw [if_pos hl]
          exact ⟨fun _ => hrhs, fun _ => by nlinarith⟩
        · rw [if_neg hl]
          exact ⟨fun _ => hrhs, fun _ => by nlinarith⟩
    · rw [if_neg hr]
      by_cases hn : hour ≥ 22 ∨ hour ≤ 6
      · rw [if_pos hn]
        have hrhs : ¬ (e.base_distance = 0 ∨
            ((7 ≤ hour ∧ hour ≤ 9) ∨ (18 ≤ hour ∧ hour ≤ 20)) ∨
            (((10 ≤ hour ∧ hour ≤ 17) ∨ hour = 21) ∧ e.road_type ≠ "highway")) := by
          rintro (h | h | ⟨h, _⟩)
          · exact hz h
          · exact hr h
          · omega
        by_cases hh : e.road_type = "highway"
        · rw [if_pos hh]
          exact ⟨fun h => by nlinarith, fun h => absurd h hrhs⟩
        · rw [if_neg hh]
          by_cases hl : e.road_type = "local"
          · rw [if_pos hl]
            exact ⟨fun h => by nlinarith, fun h => absurd h hrhs⟩
          · rw [if_neg hl]
            exact ⟨fun h => by nlinarith, fun h => absurd h hrhs⟩
      · rw [if_neg hn]
        have hplain : (10 ≤ hour ∧ hour ≤ 17) ∨ hour = 21 := by omega
        by_cases hh : e.road_type = "highway"
        · rw [if_pos hh]
          refine ⟨fun h => by nlinarith, ?_⟩
          rintro (h | h | ⟨_, h⟩)
          · exact absurd h hz
          · exact absurd h hr
          · exact absurd hh h
        · rw [if_neg hh]
          have hrhs : e.base_distance = 0 ∨
              ((7 ≤ hour ∧ hour ≤ 9) ∨ (18 ≤ hour ∧ hour ≤ 20)) ∨
              (((10 ≤ hour ∧ hour ≤ 17) ∨ hour = 21) ∧ e.road_type ≠ "highway") :=
            Or.inr (Or.inr ⟨hplain, hh⟩)
          by_cases hl : e.road_type = "local"
          · rw [if_pos hl]
            exact ⟨fun _ => hrhs, fun _ => by nlinarith⟩
          · rw [if_neg hl]
            exact ⟨fun _ => hrhs, fun _ => by nlinarith⟩

/-- The two edges `add_enhanced_edge` of trackmate_advanced.c stores carry the
3D distance between the two locations, the road type and the traffic factor
it was given. -/
theorem advanced_add_enhanced_edge_new {m : Libm} {g g' : Graph} {from_ to_ : Int}
    {road_type : String} {traffic_factor : Int} {speed_limit : ℚ}
    (hadd : Advanced.add_enhanced_edge m g from_ to_ road_type traffic_factor speed_limit =
      some g')
    {u : Int} {e : Edge} (he : e ∈ (g'.graph u).edges) (hnew : e ∉ (g.graph u).edges) :
    e.base_distance = heuristic_distance m g from_ to_ ∧ e.road_type = road_type ∧
      e.traffic_factor = traffic_factor ∧ (u = from_ ∨ u = to_) := by
  unfold Advanced.add_enhanced_edge at hadd
  by_cases hc : 0 ≤ from_ ∧ from_ < MAX_NODES ∧ 0 ≤ to_ ∧ to_ < MAX_NODES
  · rw [if_pos hc] at hadd
    by_cases hlen : road_type.length < 20
    · simp only [strcpy_buf, if_pos hlen, Option.some.injEq] at hadd
      subst hadd
      rw [mem_push_edge, mem_push_edge] at he
      rcases he with ⟨hu, rfl⟩ | ⟨hu, rfl⟩ | hold
      · exact ⟨rfl, rfl, rfl, Or.inr hu⟩
      · exact ⟨rfl, rfl, rfl, Or.inl hu⟩
      · exact absurd hold hnew
    · simp only [strcpy_buf, if_neg hlen] at hadd
      simp at hadd
  · rw [if_neg hc] at hadd
    simp at hadd

/-- C15 (counterexample). On `night_road` the local road stored by
`add_enhanced_edge` has base distance 1, and at hour 23
`calculate_dynamic_weight` returns 0.96 for it, below the base distance. -/
theorem C15_counterexample :
    (night_road.map fun g => (g.graph 0).edges.map fun e =>
      (e.base_distance, (calculate_dynamic_weight e 23).1)) = some [(1, 24 / 25)] ∧
    ¬ ((1 : ℚ) ≤ 24 / 25) := by
  refine ⟨by decide!, by norm_num⟩

/-- C15 (amended). In the traffic-aware engine, for every edge created by
`add_enhanced_edge` with a traffic factor of at least 0 and every hour in
0..23: `base_distance` is the 3D distance the heuristic computes between the
two locations, and `calculate_dynamic_weight(edge, hour) ≥ base_distance`
holds exactly when the base distance is 0, or the hour is a rush hour (7..9,
18..20), or the hour is one of 10..17, 21 and the road type is not "highway".
At night (22..6) and on highways outside the rush hours the weight is below a
positive base distance. -/
theorem C15_dynamic_weight_vs_base_distance {m : Libm} (hsqrt : ∀ x, 0 ≤ m.sqrt x)
    {g g' : Graph} {from_ to_ : Int} {road_type : String} {traffic_factor : Int}
    {speed_limit : ℚ}
    (hadd : Advanced.add_enhanced_edge m g from_ to_ road_type traffic_factor speed_limit =
      some g')
    (htf : 0 ≤ traffic_factor) {u : Int} {e : Edge} (he : e ∈ (g'.graph u).edges)
    (hnew : e ∉ (g.graph u).edges) {hour : Int} (h0 : 0 ≤ hour) (h23 : hour ≤ 23) :
    e.base_distance = heuristic_distance m g from_ to_ ∧
    (e.base_distance ≤ (calculate_dynamic_weight e hour).1 ↔
      e.base_distance = 0 ∨ is_rush_hour hour ∨
        (is_plain_hour hour ∧ e.road_type ≠ "highway")) := by
  obtain ⟨hb, _, ht, _⟩ := advanced_add_enhanced_edge_new hadd he hnew
  refine ⟨hb, dynamic_weight_ge_iff e ?_ (by rw [ht]; exact htf) hour h0 h23⟩
  rw [hb]
  exact hsqrt _

theorem C15_witness :
    ∃ g', Advanced.add_enhanced_edge small_angle_libm night_nodes 0 1 "local" 1 30 = some g' ∧
      (⟨1, 1, 1, "local", 1, 30⟩ : Edge) ∈ (g'.graph 0).edges ∧
      (⟨1, 1, 1, "local", 1, 30⟩ : Edge) ∉ (night_nodes.graph 0).edges ∧
      (⟨1, 1, 1, "local", 1, 30⟩ : Edge).base_distance =
        heuristic_distance small_angle_libm night_nodes 0 1 ∧
      ((⟨1, 1, 1, "local", 1, 30⟩ : Edge).base_distance ≤
          (calculate_dynamic_weight ⟨1, 1, 1, "local", 1, 30⟩ 12).1 ↔
        (⟨1, 1, 1, "local", 1, 30⟩ : Edge).base_distance = 0 ∨ is_rush_hour 12 ∨
          (is_plain_hour 12 ∧ (⟨1, 1, 1, "local", 1, 30⟩ : Edge).road_type ≠ "highway")) := by
  obtain ⟨g', hg, hedges⟩ := option_map_some
    (show night_road.map (fun g => (g.graph 0).edges) = some [⟨1, 1, 1, "local", 1, 30⟩]
      by decide!)
  have hg' : Advanced.add_enhanced_edge small_angle_libm night_nodes 0 1 "local" 1 30 =
      some g' := hg
  have he : (⟨1, 1, 1, "local", 1, 30⟩ : Edge) ∈ (g'.graph 0).edges := by
    rw [hedges]; exact List.mem_singleton_self _
  have hnew : (⟨1, 1, 1, "local", 1, 30⟩ : Edge) ∉ (night_nodes.graph 0).edges := by decide!
  have h := C15_dynamic_weight_vs_base_distance (m := small_angle_libm)
    (fun x => Rat.sqrt_nonneg x) hg' (show (0 : Int) ≤ 1 by decide) he hnew
    (show (0 : Int) ≤ 12 by decide) (show (12 : Int) ≤ 23 by decide)
  exact ⟨g', hg', he, hnew, h⟩

/-! ## heap.c: decrease_key -/

theorem decrease_key_loop_absent (heap : MinHeap) (vertex : Int) (p : ℚ) (k : Nat) :
    ∀ i, (∀ j, i ≤ j → j < i + k → (heap.nodes j).vertex ≠ vertex) →
      decrease_key_loop heap vertex p k i = heap := by
  induction k with
  | zero => intro i _; rfl
  | succ k ih =>
    intro i h
    rw [decrease_key_loop, if_neg (h i (le_refl _) (by omega))]
    exact ih (i + 1) (fun j h1 h2 => h j (by omega) (by omega))

theorem decrease_key_loop_first (heap : MinHeap) (vertex : Int) (p : ℚ) (i : Nat)
    (hv : (heap.nodes i).vertex = vertex) (k : Nat) :
    ∀ j, j ≤ i → i < j + k → (∀ x, j ≤ x → x < i → (heap.nodes x).vertex ≠ vertex) →
      decrease_key_loop heap vertex p k j =
        heapify_up { heap with nodes := (Function.update heap.nodes i
          { heap.nodes i with distance := p, f_cost := p }) } i := by
  induction k with
  | zero => intro j h1 h2 _; omega
  | succ k ih =>
    intro j h1 h2 h
    by_cases hji : j = i
    · subst hji
      rw [decrease_key_loop, if_pos hv]
    · rw [decrease_key_loop, if_neg (h j (le_refl _) (by omega))]
      exact ih (j + 1) (by omega) (by omega) (fun x hx1 hx2 => h x (by omega) hx2)

theorem live_update {f : Nat → PQNode} {n i : Nat} (hi : i < n) (x : PQNode) :
    live (Function.update f i x) n = x ::ₘ (live f n).erase (f i) := by
  induction n with
  | zero => omega
  | succ n ih =>
    rw [live_succ, live_succ]
    by_cases hin : i = n
    · subst hin
      rw [Function.update_same, Multiset.erase_cons_head]
      congr 1
      exact live_congr (fun j hj => Function.update_noteq (by omega) _ _)
    · have hlt : i < n := by omega
      rw [Function.update_noteq (Ne.symm hin), ih hlt]
      by_cases heq : f n = f i
      · rw [heq, Multiset.erase_cons_head, Multiset.cons_swap,
          Multiset.cons_erase (mem_live.mpr ⟨i, hlt, rfl⟩)]
      · rw [Multiset.erase_cons_tail _ heq, Multiset.cons_swap]

theorem upInv_of_lower {f : Nat → PQNode} {n i : Nat} (ho : Ordered f n) (hi : i < n)
    (x : PQNode) (hx : x.distance ≤ (f i).distance) : UpInv (Function.update f i x) n i := by
  constructor
  · intro j hj hjn hji
    rw [Function.update_noteq hji]
    by_cases hp : (j - 1) / 2 = i
    · rw [hp, Function.update_same]
      have := ho j hj hjn
      rw [hp] at this
      exact le_trans hx this
    · rw [Function.update_noteq hp]
      exact ho j hj hjn
  · intro j hj hjn hp hi0
    have hji : j ≠ i := by omega
    have hpi : (i - 1) / 2 ≠ i := by omega
    rw [Function.update_noteq hji, Function.update_noteq hpi]
    have h1 := ho i hi0 hi
    have h2 := ho j hj hjn
    rw [hp] at h2
    exact le_trans h1 h2

/-- C22. `decrease_key(heap, vertex, p)` on a heap none of whose live slots
holds `vertex` returns the heap as it was (same size, same entry at every
index), so that a second call changes nothing either. -/
theorem C22_decrease_key_absent_is_noop (heap : MinHeap) (vertex : Int) (p : ℚ)
    (h : ∀ i, i < heap.size → (heap.nodes i).vertex ≠ vertex) :
    decrease_key heap vertex p = heap ∧
    decrease_key (decrease_key heap vertex p) vertex p = decrease_key heap vertex p := by
  have h1 : decrease_key heap vertex p = heap :=
    decrease_key_loop_absent heap vertex p heap.size 0 (fun j _ hj => h j (by omega))
  exact ⟨h1, by rw [h1, h1]⟩

theorem C22_witness :
    (∀ i, i < (heap_after [.insert 1 5, .insert 2 3]).size →
      ((heap_after [.insert 1 5, .insert 2 3]).nodes i).vertex ≠ 7) ∧
    decrease_key (heap_after [.insert 1 5, .insert 2 3]) 7 1 =
      heap_after [.insert 1 5, .insert 2 3] ∧
    decrease_key (decrease_key (heap_after [.insert 1 5, .insert 2 3]) 7 1) 7 1 =
      decrease_key (heap_after [.insert 1 5, .insert 2 3]) 7 1 :=
  have h : ∀ i, i < (heap_after [.insert 1 5, .insert 2 3]).size →
      ((heap_after [.insert 1 5, .insert 2 3]).nodes i).vertex ≠ 7 := by decide!
  ⟨h, C22_decrease_key_absent_is_noop _ 7 1 h⟩

/-- C23 (counterexample). Push vertex 1 with priority 5, then vertex 1 again
with priority 7: the slots hold (1, 5) and (1, 7). `decrease_key(heap, 1, 3)`
then lowers the entry pushed first, and the entry pushed last keeps its
priority 7. And `decrease_key(heap, 1, 9)`, whose priority is not below the
old one, leaves the root at 9 above its child at 7: the heap is no longer in
min-heap order. -/
theorem C23_counterexample :
    heap_listing (heap_after [.insert 1 5, .insert 1 7]) = [(1, 5), (1, 7)] ∧
    heap_listing (decrease_key (heap_after [.insert 1 5, .insert 1 7]) 1 3) =
      [(1, 3), (1, 7)] ∧
    heap_listing (decrease_key (heap_after [.insert 1 5, .insert 1 7]) 1 9) =
      [(1, 9), (1, 7)] ∧
    ¬ HeapOrdered (decrease_key (heap_after [.insert 1 5, .insert 1 7]) 1 9) := by
  refine ⟨by decide!, by decide!, by decide!, ?_⟩
  intro h
  have h1 := h 1 (by decide) (by decide!)
  exact absurd h1 (by decide!)

/-- C23 (amended). On a heap in min-heap order, `decrease_key(heap, vertex, p)`
changes the entry for `vertex` at the lowest array index `i`: when `p` is at
most that entry's priority, the size is unchanged, the entries are the old ones
with that one entry's `distance` and `f_cost` set to `p` (every other entry
keeps all its fields), and the heap is in min-heap order again. -/
theorem C23_decrease_key_first_slot (heap : MinHeap) (vertex : Int) (p : ℚ) (i : Nat)
    (ho : HeapOrdered heap) (hi : i < heap.size) (hv : (heap.nodes i).vertex = vertex)
    (hfirst : ∀ j, j < i → (heap.nodes j).vertex ≠ vertex)
    (hp : p ≤ (heap.nodes i).distance) :
    (decrease_key heap vertex p).size = heap.size ∧
    entries (decrease_key heap vertex p) =
      { heap.nodes i with distance := p, f_cost := p } ::ₘ (entries heap).erase (heap.nodes i) ∧
    HeapOrdered (decrease_key heap vertex p) := by
  have heq : decrease_key heap vertex p =
      heapify_up { heap with nodes := (Function.update heap.nodes i
        { heap.nodes i with distance := p, f_cost := p }) } i :=
    decrease_key_loop_first heap vertex p i hv heap.size 0 (Nat.zero_le _) (by omega)
      (fun x _ hx => hfirst x hx)
  have hsz : (decrease_key heap vertex p).size = heap.size := by
    rw [heq]; exact heapify_up_fuel_size _ _ _
  refine ⟨hsz, ?_, ?_⟩
  · unfold entries
    rw [hsz, heq]
    unfold heapify_up
    rw [heapify_up_fuel_live _ _ _ _ hi]
    exact live_update hi _
  · unfold HeapOrdered
    rw [hsz, heq]
    exact heapify_up_fuel_ordered i _ i heap.size (le_refl _) hi (upInv_of_lower ho hi _ hp)

theorem heap_after_ordered (ops : List HeapOp) : HeapOrdered (heap_after ops) := by
  unfold heap_after
  cases h : run_ops ops (init_heap blank_heap) with
  | none => exact init_heap_ordered blank_heap
  | some heap => exact run_ops_ordered ops _ heap (init_heap_ordered blank_heap) h

theorem C23_witness :
    (HeapOrdered (heap_after [.insert 1 5, .insert 1 7]) ∧
      0 < (heap_after [.insert 1 5, .insert 1 7]).size ∧
      ((heap_after [.insert 1 5, .insert 1 7]).nodes 0).vertex = 1 ∧
      (∀ j, j < 0 → ((heap_after [.insert 1 5, .insert 1 7]).nodes j).vertex ≠ 1) ∧
      (3 : ℚ) ≤ ((heap_after [.insert 1 5, .insert 1 7]).nodes 0).distance) ∧
    (decrease_key (heap_after [.insert 1 5, .insert 1 7]) 1 3).size =
      (heap_after [.insert 1 5, .insert 1 7]).size ∧
    entries (decrease_key (heap_after [.insert 1 5, .insert 1 7]) 1 3) =
      { (heap_after [.insert 1 5, .insert 1 7]).nodes 0 with distance := 3, f_cost := 3 } ::ₘ
        (entries (heap_after [.insert 1 5, .insert 1 7])).erase
          ((heap_after [.insert 1 5, .insert 1 7]).nodes 0) ∧
    HeapOrdered (decrease_key (heap_after [.insert 1 5, .insert 1 7]) 1 3) :=
  have h1 : 0 < (heap_after [.insert 1 5, .insert 1 7]).size := by decide!
  have h2 : ((heap_after [.insert 1 5, .insert 1 7]).nodes 0).vertex = 1 := by decide!
  have h3 : ∀ j, j < 0 → ((heap_after [.insert 1 5, .insert 1 7]).nodes j).vertex ≠ 1 :=
    fun j hj => absurd hj (Nat.not_lt_zero j)
  have h4 : (3 : ℚ) ≤ ((heap_after [.insert 1 5, .insert 1 7]).nodes 0).distance := by decide!
  ⟨⟨heap_after_ordered _, h1, h2, h3, h4⟩,
    C23_decrease_key_first_slot _ 1 3 0 (heap_after_ordered _) h1 h2 h3 h4⟩

/-! ## The activity flag and the capacity of the tables -/

/-- C21 (the code at the failing input). On `closed_road`, whose node 1 has
`is_active = 0` and is not the start, `dijkstra(0, 2)` relaxes the edge 0 -> 1
into the inactive node and the edge 1 -> 2 out of it: it leaves
`distances[1] = 1` (not INF), `previous[1] = 0` (not -1), and
`previous[2] = 1`, so the inactive node is the predecessor of node 2. -/
theorem C21_dijkstra_relaxes_into_inactive :
    (closed_road.graph 1).is_active = 0 ∧
    dist_at (dijkstra closed_road 0 2 10 blank_dijkstra) 1 = some 1 ∧
    prev_at (dijkstra closed_road 0 2 10 blank_dijkstra) 1 = some 0 ∧
    prev_at (dijkstra closed_road 0 2 10 blank_dijkstra) 2 = some 1 := by
  refine ⟨by decide, by decide!, by decide!, by decide!⟩

/-- C27 (the code at the failing input). After `init_graph` and MAX_NODES
calls of `add_location` the table is full (`node_count = 50`). One more call
of `add_location` or `add_enhanced_location` tests nothing: it writes
`graph[50]`, a slot the array does not have (the `none` of the embedding),
where the C program goes on to store the location past the end of the array
and to raise `node_count` to 51. -/
theorem C27_full_table_is_overrun :
    crowded.map Graph.node_count = some 50 ∧
    (crowded.bind fun g => add_location g 50 "one more" 0 0).isNone = true ∧
    (crowded.bind fun g =>
      add_enhanced_location g 50 "one more" "station" "d" 0 0 0 1).isNone = true := by
  refine ⟨by decide!, by decide!, by decide!⟩

/-! ## The predecessor array -/

/-- C30. For every graph with non-negative edge weights, edges that lead to
nodes of the graph, and at most MAX_NODES nodes: a run of `dijkstra(start,
end)` with a budget above `edge_count g + 1` either overruns the heap array
or returns, and then `previous[start] = -1` and from every node `x` of the
graph the predecessor pointers spell out a chain `x, previous[x], ...` that
ends at `-1`, has no repeated node and at most `node_count` nodes, and
`reconstruct_path(x, previous, path)` returns with the length of that chain,
without writing past the MAX_NODES slots of the path buffer. -/
theorem C30_previous_is_acyclic {g : Graph} (wf : WellFormed g) (nn : NonNeg g)
    (hn : g.node_count ≤ MAX_NODES) {s : Int} (t : Int) (hs : InRange g s) {fuel : Nat}
    (hfuel : edge_count g + 1 < fuel) (st0 : DijkstraState) :
    dijkstra g s t fuel st0 = .error .bounds ∨
    ∃ st', dijkstra g s t fuel st0 = .ok st' ∧ st'.previous s = -1 ∧
      ∀ x, InRange g x → ∃ l, Chain st'.previous x l ∧ l.Nodup ∧
        l.length ≤ g.node_count.toNat ∧
        ∀ path, ∃ p, reconstruct_path x st'.previous path = some (l.length, p) := by
  rcases dijkstra_cases wf nn t hs fuel st0 with ⟨st', h, post⟩ | h | ⟨_, h⟩
  · refine Or.inr ⟨st', h, post.prev_start, ?_⟩
    intro x hx
    have hcap : g.node_count.toNat ≤ MAX_NODES := by
      have : (g.node_count.toNat : Int) ≤ MAX_NODES := by
        have := hs.1; have := hs.2; omega
      omega
    have key : ∃ l, Chain st'.previous x l ∧ ∀ y ∈ l, InRange g y := by
      by_cases hreached : st'.distances x < INF
      · obtain ⟨l, hc, _, _, hr⟩ := rooted_chain hs (post.rooted x hx hreached) hx
        exact ⟨l, hc, hr⟩
      · have hinf : st'.distances x = INF :=
          le_antisymm (post.dist_le_inf x hx) (not_lt.mp hreached)
        have hprev := post.prev_none x hx hinf
        refine ⟨[x], Chain.step (by have := hx.1; omega) (hprev ▸ Chain.stop), ?_⟩
        intro y hy
        rw [List.mem_singleton.mp hy]; exact hx
    obtain ⟨l, hc, hr⟩ := key
    have hle := chain_length_le hc hr
    refine ⟨l, hc, chain_nodup hc, hle, ?_⟩
    intro path
    obtain ⟨p, hrec, _⟩ := reconstruct_path_spec hc (by omega) path
    exact ⟨p, hrec⟩
  · exact Or.inl h
  · omega

theorem C30_witness :
    (WellFormed triangle ∧ NonNeg triangle ∧ triangle.node_count ≤ MAX_NODES ∧
      InRange triangle 0 ∧ edge_count triangle + 1 < 10) ∧
    ∃ st', dijkstra triangle 0 2 10 blank_dijkstra = .ok st' ∧ st'.previous 0 = -1 ∧
      ∀ x, InRange triangle x → ∃ l, Chain st'.previous x l ∧ l.Nodup ∧
        l.length ≤ triangle.node_count.toNat ∧
        ∀ path, ∃ p, reconstruct_path x st'.previous path = some (l.length, p) := by
  refine ⟨⟨triangle_wellFormed, triangle_nonNeg, by decide, triangle_inRange_zero,
    by decide⟩, ?_⟩
  obtain ⟨st, hst, _⟩ := dist_at_some
    (show dist_at (dijkstra triangle 0 2 10 blank_dijkstra) 2 = some 2 by decide!)
  rcases C30_previous_is_acyclic triangle_wellFormed triangle_nonNeg
    (show triangle.node_count ≤ MAX_NODES by decide) 2 triangle_inRange_zero
    (show edge_count triangle + 1 < 10 by decide) blank_dijkstra with h | ⟨st', h, hall⟩
  · rw [hst] at h; exact absurd h (by simp)
  · exact ⟨st', h, hall⟩

/-! ## pathfinding.c: entries of closed nodes in the open set -/

theorem astarTidy_init {m : Libm} {g : Graph} {s t : Int} {st0 sti : AStarState}
    (h : astar_init m g s t st0 = some sti) : AStarTidy g t sti := by
  unfold astar_init at h
  simp only at h
  split at h
  · simp at h
  · simp only [Option.some.injEq] at h
    subst h
    exact ⟨rfl, fun _ => Or.inl rfl, fun u hu => absurd rfl hu⟩

theorem astarTidy_pop {g : Graph} {t : Int} {st : AStarState} (tidy : AStarTidy g t st)
    (heap' : MinHeap) : AStarTidy g t { st with open_set := heap' } :=
  ⟨tidy.goal_open, tidy.flags, tidy.settled⟩

theorem astarTidy_step {m : Libm} {g : Graph} {t u : Int} {st st' : AStarState}
    (tidy : AStarTidy g t st) (hgoal : u ≠ t) {heap' : MinHeap}
    (hrel : astar_relax m g t u (g.graph u).edges
      { st with open_set := heap',
                in_closed_set := Function.update st.in_closed_set u 1 } = some st') :
    AStarTidy g t st' := by
  obtain ⟨hcl, _, hle, hfix, _, _⟩ := astar_relax_frame m g t u _ _ _ hrel
  simp only at hcl hle hfix
  refine ⟨?_, ?_, ?_⟩
  · rw [hcl, Function.update_noteq (Ne.symm hgoal)]
    exact tidy.goal_open
  · intro v
    rw [hcl]
    by_cases hv : v = u
    · subst hv; rw [Function.update_same]; exact Or.inr rfl
    · rw [Function.update_noteq hv]; exact tidy.flags v
  · intro w hw e he
    by_cases hwu : w = u
    · subst hwu
      exact astar_relax_settles m g t w _ _ st'
        (by simp only [Function.update_same]; decide) hrel e he
    · have hw0 : st.in_closed_set w ≠ 0 := by
        rw [hcl, Function.update_noteq hwu] at hw
        exact hw
      have hw1 : Function.update st.in_closed_set u 1 w ≠ 0 := by
        rw [Function.update_noteq hwu]; exact hw0
      rcases tidy.settled w hw0 e he with h1 | h1 | h1
      · left
        rw [hcl]
        by_cases hd : e.destination = u
        · rw [hd, Function.update_same]; decide
        · rw [Function.update_noteq hd]; exact h1
      · exact Or.inr (Or.inl h1)
      · right; right
        rw [hfix w hw1]
        exact le_trans (hle _) h1

theorem astar_closed_pop_noop {g : Graph} {t : Int} {st : AStarState}
    (tidy : AStarTidy g t st) (m : Libm) {u : Int} (hcu : st.in_closed_set u ≠ 0)
    (heap' : MinHeap) :
    astar_relax m g t u (g.graph u).edges
      { st with open_set := heap',
                in_closed_set := Function.update st.in_closed_set u 1 } =
      some { st with open_set := heap' } := by
  have h1 : st.in_closed_set u = 1 := by
    rcases tidy.flags u with h | h
    · exact absurd h hcu
    · exact h
  have hupd : Function.update st.in_closed_set u 1 = st.in_closed_set := by
    rw [← h1]; exact Function.update_eq_self u st.in_closed_set
  rw [hupd]
  exact astar_relax_settled_noop m g t u _ { st with open_set := heap' } (tidy.settled u hcu)

theorem astar_state_after_tidy (m : Libm) (g : Graph) (t : Int) (k : Nat) :
    ∀ sti st : AStarState, AStarTidy g t sti → astar_state_after m g t k sti = some st →
      AStarTidy g t st := by
  induction k with
  | zero =>
    intro sti st tidy h
    simp only [astar_state_after, Option.some.injEq] at h
    exact h ▸ tidy
  | succ k ih =>
    intro sti st tidy h
    unfold astar_state_after at h
    split at h
    · cases hext : extract_min sti.open_set with
      | none => rw [hext] at h; simp at h
      | some p =>
        obtain ⟨cur, heap'⟩ := p
        rw [hext] at h
        simp only at h
        split at h
        · simp at h
        · rename_i hgoal
          cases hrel : astar_relax m g t cur.vertex (g.graph cur.vertex).edges
              { sti with open_set := heap',
                         in_closed_set := Function.update sti.in_closed_set cur.vertex 1 } with
          | none => rw [hrel] at h; simp at h
          | some st1 =>
            rw [hrel] at h
            exact ih st1 st (astarTidy_step tidy hgoal hrel) h
    · simp at h

theorem astar_loop_eq_skipping (m : Libm) (g : Graph) (t : Int) (path : Nat → Int) (cost : ℚ)
    (fuel : Nat) :
    ∀ st : AStarState, AStarTidy g t st →
      astar_loop m g t path cost fuel st = astar_loop_skipping m g t path cost fuel st := by
  induction fuel with
  | zero => intro st _; rfl
  | succ fuel ih =>
    intro st tidy
    unfold astar_loop astar_loop_skipping
    by_cases hsz : st.open_set.size > 0
    · rw [if_pos hsz, if_pos hsz]
      cases hext : extract_min st.open_set with
      | none => rfl
      | some p =>
        obtain ⟨cur, heap'⟩ := p
        simp only
        by_cases hcu : st.in_closed_set cur.vertex ≠ 0
        · have hgoal : cur.vertex ≠ t := fun h => hcu (h ▸ tidy.goal_open)
          rw [if_pos hcu, if_neg hgoal, astar_closed_pop_noop tidy m hcu heap']
          exact ih _ (astarTidy_pop tidy heap')
        · rw [if_neg hcu]
          by_cases hgoal : cur.vertex = t
          · rw [if_pos hgoal, if_pos hgoal]
          · rw [if_neg hgoal, if_neg hgoal]
            cases hrel : astar_relax m g t cur.vertex (g.graph cur.vertex).edges
                { st with open_set := heap',
                          in_closed_set := Function.update st.in_closed_set cur.vertex 1 } with
            | none => rfl
            | some st1 => exact ih st1 (astarTidy_step tidy hgoal hrel)
    · rw [if_neg hsz, if_neg hsz]

/-- C28. In every state that the main loop of `astar_pathfind` reaches (after
any number `k` of iterations, on any graph state and with any heuristic), an
iteration that pops an entry whose vertex `u ≠ end` is already in the closed
set leaves the g-costs, the parents and the closed flags as they were and
pushes nothing: the state after the iteration is the state before it with the
popped entry removed from the open set. Hence `astar_pathfind` returns what an
A* that skips such entries returns, for every iteration budget. -/
theorem C28_closed_pop_changes_nothing (m : Libm) (g : Graph) (s t : Int) (path : Nat → Int)
    (cost : ℚ) (st0 : AStarState) :
    (∀ (sti : AStarState) (k : Nat) (st : AStarState) (cur : PQNode) (heap' : MinHeap),
      astar_init m g s t st0 = some sti → astar_state_after m g t k sti = some st →
      extract_min st.open_set = some (cur, heap') → cur.vertex ≠ t →
      st.in_closed_set cur.vertex ≠ 0 →
      astar_relax m g t cur.vertex (g.graph cur.vertex).edges
        { st with open_set := heap',
                  in_closed_set := Function.update st.in_closed_set cur.vertex 1 } =
        some { st with open_set := heap' }) ∧
    ∀ fuel, astar_pathfind m g s t path cost fuel st0 =
      astar_pathfind_skipping m g s t path cost fuel st0 := by
  constructor
  · intro sti k st cur heap' hinit hk _ _ hcu
    exact astar_closed_pop_noop (astar_state_after_tidy m g t k sti st (astarTidy_init hinit) hk)
      m hcu heap'
  · intro fuel
    unfold astar_pathfind astar_pathfind_skipping
    cases hinit : astar_init m g s t st0 with
    | none => rfl
    | some sti => exact astar_loop_eq_skipping m g t path cost fuel sti (astarTidy_init hinit)

theorem closed_pop_at_some {m : Libm} {g : Graph} {s t : Int} {st0 : AStarState} {k : Nat}
    {u c : Int} (h : closed_pop_at m g s t st0 k = some (u, c)) :
    ∃ sti st cur heap', astar_init m g s t st0 = some sti ∧
      astar_state_after m g t k sti = some st ∧
      extract_min st.open_set = some (cur, heap') ∧ cur.vertex = u ∧
      st.in_closed_set cur.vertex = c := by
  unfold closed_pop_at at h
  cases hinit : astar_init m g s t st0 with
  | none => rw [hinit] at h; simp at h
  | some sti =>
    rw [hinit] at h
    simp only [Option.some_bind] at h
    cases hk : astar_state_after m g t k sti with
    | none => rw [hk] at h; simp at h
    | some st =>
      rw [hk] at h
      simp only [Option.some_bind] at h
      cases hext : extract_min st.open_set with
      | none => rw [hext] at h; simp at h
      | some p =>
        obtain ⟨cur, heap'⟩ := p
        rw [hext] at h
        simp only [Option.map_some', Option.some.injEq, Prod.mk.injEq] at h
        exact ⟨sti, st, cur, heap', rfl, hk, hext, h.1, h.2⟩

theorem C28_witness :
    ∃ sti st cur heap', astar_init small_angle_libm shortcut 0 3 blank_astar = some sti ∧
      astar_state_after small_angle_libm shortcut 3 3 sti = some st ∧
      extract_min st.open_set = some (cur, heap') ∧ cur.vertex ≠ 3 ∧
      st.in_closed_set cur.vertex ≠ 0 ∧
      astar_relax small_angle_libm shortcut 3 cur.vertex (shortcut.graph cur.vertex).edges
        { st with open_set := heap',
                  in_closed_set := Function.update st.in_closed_set cur.vertex 1 } =
        some { st with open_set := heap' } := by
  obtain ⟨sti, st, cur, heap', h1, h2, h3, h4, h5⟩ := closed_pop_at_some
    (show closed_pop_at small_angle_libm shortcut 0 3 blank_astar 3 = some (2, 1) by decide!)
  have hgoal : cur.vertex ≠ 3 := by rw [h4]; decide
  have hcu : st.in_closed_set cur.vertex ≠ 0 := by rw [h5]; decide
  exact ⟨sti, st, cur, heap', h1, h2, h3, hgoal, hcu,
    (C28_closed_pop_changes_nothing small_angle_libm shortcut 0 3 (fun _ => 0) 0
      blank_astar).1 sti 3 st cur heap' h1 h2 h3 hgoal hcu⟩

/-! ## trackmate.c against pathfinding.c -/

theorem heapSim_refl (a : MinHeap) : HeapSim a a :=
  ⟨rfl, fun _ => ⟨rfl, rfl⟩⟩

theorem heapSim_swap {a b : MinHeap} (h : HeapSim a b) (i j : Nat) :
    HeapSim { a with nodes := swap_nodes a.nodes i j } { b with nodes := swap_nodes b.nodes i j } := by
  refine ⟨h.1, fun k => ?_⟩
  simp only [swap_nodes, Function.update_apply]
  split
  · exact h.2 i
  · split
    · exact h.2 j
    · exact h.2 k

theorem heapSim_heapify_up_fuel (fuel : Nat) :
    ∀ (a b : MinHeap) (i : Nat), HeapSim a b →
      HeapSim (heapify_up_fuel fuel a i) (heapify_up_fuel fuel b i) := by
  induction fuel with
  | zero => intro a b i h; exact h
  | succ fuel ih =>
    intro a b i h
    unfold heapify_up_fuel
    rw [(h.2 i).2, (h.2 ((i - 1) / 2)).2]
    split
    · exact ih _ _ _ (heapSim_swap h _ _)
    · exact h

theorem smallest_child_sim {a b : MinHeap} (h : HeapSim a b) (i : Nat) :
    smallest_child a i = smallest_child b i := by
  unfold smallest_child
  simp only [h.1, (h.2 _).2]

theorem heapSim_heapify_down_fuel (fuel : Nat) :
    ∀ (a b : MinHeap) (i : Nat), HeapSim a b →
      HeapSim (heapify_down_fuel fuel a i) (heapify_down_fuel fuel b i) := by
  induction fuel with
  | zero => intro a b i h; exact h
  | succ fuel ih =>
    intro a b i h
    unfold heapify_down_fuel
    rw [smallest_child_sim h i]
    split
    · exact ih _ _ _ (heapSim_swap h _ _)
    · exact h

theorem heapSim_extract_min {a b : MinHeap} (h : HeapSim a b) :
    (extract_min a = none ∧ extract_min b = none) ∨
    ∃ ca ha cb hb, extract_min a = some (ca, ha) ∧ extract_min b = some (cb, hb) ∧
      ca.vertex = cb.vertex ∧ ca.distance = cb.distance ∧ HeapSim ha hb := by
  rw [extract_min_eq, extract_min_eq, h.1]
  by_cases hpos : 0 < b.size
  · rw [if_pos hpos, if_pos hpos]
    refine Or.inr ⟨_, _, _, _, rfl, rfl, (h.2 0).1, (h.2 0).2, ?_⟩
    unfold heapify_down
    simp only
    apply heapSim_heapify_down_fuel
    refine ⟨rfl, fun k => ?_⟩
    simp only [Function.update_apply]
    split
    · exact h.2 _
    · exact h.2 k
  · rw [if_neg hpos, if_neg hpos]
    exact Or.inl ⟨rfl, rfl⟩

theorem heapSim_insert {a a' b : MinHeap} {v : Int} {d : ℚ} (h : HeapSim a b)
    (hins : Mono.insert_heap a v d = some a') :
    ∃ b', insert_heap b v d = some b' ∧ HeapSim a' b' := by
  unfold Mono.insert_heap at hins
  split at hins
  · rename_i hlt
    simp only [Option.some.injEq] at hins
    subst hins
    have hb : b.size < MAX_NODES := by
      have h20 : Mono.MAX_NODES ≤ MAX_NODES := by decide
      rw [← h.1]; omega
    unfold insert_heap
    rw [if_pos hb]
    refine ⟨_, rfl, ?_⟩
    have hs : HeapSim
        (heapify_up { a with nodes := (Function.update a.nodes a.size
          { a.nodes a.size with vertex := v, distance := d }) } a.size)
        (heapify_up { b with nodes := (Function.update b.nodes b.size
          { b.nodes b.size with vertex := v, distance := d, f_cost := d }) } b.size) := by
      unfold heapify_up
      rw [← h.1]
      apply heapSim_heapify_up_fuel
      refine ⟨rfl, fun k => ?_⟩
      simp only [Function.update_apply]
      split
      · exact ⟨rfl, rfl⟩
      · exact h.2 k
    exact ⟨by simp only [h.1], hs.2⟩
  · simp at hins

theorem stateSim_pop {a b : DijkstraState} (h : StateSim a b) {ha hb : MinHeap}
    (hh : HeapSim ha hb) : StateSim { a with heap := ha } { b with heap := hb } :=
  ⟨hh, h.2.1, h.2.2⟩

theorem mono_relax_sim (u : Int) (rest : List Edge) :
    ∀ (a a' b : DijkstraState), StateSim a b → Mono.dijkstra_relax u rest a = some a' →
      ∃ b', dijkstra_relax u rest b = some b' ∧ StateSim a' b' := by
  induction rest with
  | nil =>
    intro a a' b h hrel
    simp only [Mono.dijkstra_relax, Option.some.injEq] at hrel
    subst hrel
    exact ⟨b, rfl, h⟩
  | cons e rest ih =>
    intro a a' b h hrel
    unfold Mono.dijkstra_relax at hrel
    unfold dijkstra_relax
    simp only at hrel ⊢
    rw [← h.2.1]
    by_cases hlt : a.distances u + e.current_weight < a.distances e.destination
    · rw [if_pos hlt] at hrel ⊢
      cases hins : Mono.insert_heap a.heap e.destination (a.distances u + e.current_weight) with
      | none => rw [hins] at hrel; simp at hrel
      | some ha =>
        rw [hins] at hrel
        simp only at hrel
        obtain ⟨hb, hinsb, hsim⟩ := heapSim_insert h.1 hins
        rw [hinsb]
        simp only
        apply ih _ _ _ _ hrel
        exact ⟨hsim, rfl, by simp only [h.2.2]⟩
    · rw [if_neg hlt] at hrel ⊢
      exact ih _ _ _ h hrel

theorem mono_relax_noop (u : Int) (rest : List Edge) (st : DijkstraState)
    (h : ∀ e ∈ rest, st.distances e.destination ≤ st.distances u + e.current_weight) :
    Mono.dijkstra_relax u rest st = some st := by
  induction rest with
  | nil => rfl
  | cons e rest ih =>
    unfold Mono.dijkstra_relax
    simp only
    rw [if_neg (not_lt.mpr (h e (List.mem_cons_self _ _)))]
    exact ih (fun e' he' => h e' (List.mem_cons_of_mem _ he'))

/-- When the modular loop discards a popped entry as stale, no edge out of its
vertex can lower a distance: expanding it, as the monolithic loop does, changes
nothing. -/
theorem stale_pop_relaxed {g : Graph} (wf : WellFormed g) (nn : NonNeg g) {s : Int}
    {R : Finset Int} {st : DijkstraState} (inv : DijkstraInv g s R st) {cur : PQNode}
    {heap' : MinHeap} (hext : extract_min st.heap = some (cur, heap'))
    (hstale : cur.distance > st.distances cur.vertex) :
    ∀ e ∈ (g.graph cur.vertex).edges,
      st.distances e.destination ≤ st.distances cur.vertex + e.current_weight := by
  obtain ⟨_, _, _, hent⟩ := extract_min_some hext
  have hu : InRange g cur.vertex :=
    (inv.heap_key cur (by rw [hent]; exact Multiset.mem_cons_self _ _)).1
  by_cases hR : cur.vertex ∈ R
  · by_cases hfin : st.distances cur.vertex < INF
    · obtain ⟨e, he, hev, hed⟩ := inv.queued _ hu hfin hR
      have := (extract_min_ordered hext inv.ordered).2 e he
      rw [hed] at this
      exact absurd this (not_le.mpr hstale)
    · intro e he
      have h1 := inv.dist_le_inf _ (wf _ hu e he)
      have h2 := nn _ hu e he
      have h3 := not_lt.mp hfin
      linarith
  · exact inv.relaxed _ hu hR

theorem mono_loop_sim {g : Graph} (wf : WellFormed g) (nn : NonNeg g) {s t : Int}
    (fuel : Nat) :
    ∀ (R : Finset Int) (a b : DijkstraState), StateSim a b → DijkstraInv g s R b →
      Mono.dijkstra_loop g t fuel a = .error .bounds ∨
      (Mono.dijkstra_loop g t fuel a = .error .fuel ∧ dijkstra_loop g t fuel b = .error .fuel) ∨
      ∃ a' b', Mono.dijkstra_loop g t fuel a = .ok a' ∧ dijkstra_loop g t fuel b = .ok b' ∧
        a'.distances = b'.distances ∧ a'.previous = b'.previous := by
  induction fuel with
  | zero => intro R a b _ _; exact Or.inr (Or.inl ⟨rfl, rfl⟩)
  | succ fuel ih =>
    intro R a b hsim inv
    unfold Mono.dijkstra_loop dijkstra_loop
    have hemp : is_empty a.heap = is_empty b.heap := by
      unfold is_empty; rw [hsim.1.1]
    rw [hemp]
    by_cases hb : is_empty b.heap = true
    · rw [if_pos hb, if_pos hb]
      exact Or.inr (Or.inr ⟨a, b, rfl, rfl, hsim.2.1, hsim.2.2⟩)
    · rw [if_neg hb, if_neg hb]
      rcases heapSim_extract_min hsim.1 with ⟨ha, _⟩ | ⟨ca, ha, cb, hb', hea, heb, hv, hd, hh⟩
      · rw [ha]; exact Or.inl rfl
      · rw [hea, heb]
        simp only
        rw [hv]
        by_cases hgoal : cb.vertex = t
        · rw [if_pos hgoal, if_pos hgoal]
          exact Or.inr (Or.inr ⟨_, _, rfl, rfl, hsim.2.1, hsim.2.2⟩)
        · rw [if_neg hgoal, if_neg hgoal]
          by_cases hstale : cb.distance > b.distances cb.vertex
          · rw [if_pos hstale]
            have hnoop := mono_relax_noop cb.vertex (g.graph cb.vertex).edges
              { a with heap := ha }
              (by
                have := stale_pop_relaxed wf nn inv heb hstale
                simp only [hsim.2.1]
                exact this)
            rw [hnoop]
            exact ih R _ _ (stateSim_pop hsim hh) (dijkstra_inv_stale inv heb hstale)
          · rw [if_neg hstale]
            cases hrela : Mono.dijkstra_relax cb.vertex (g.graph cb.vertex).edges
                { a with heap := ha } with
            | none => exact Or.inl rfl
            | some a1 =>
              obtain ⟨b1, hrelb, hsim1⟩ := mono_relax_sim _ _ _ _ _ (stateSim_pop hsim hh) hrela
              rw [hrelb]
              simp only
              obtain ⟨rinv, _⟩ := dijkstra_inv_expand_start inv heb hstale
              by_cases hR : cb.vertex ∈ R
              · obtain ⟨rinv1, _, _, hrelaxed, _⟩ :=
                  dijkstra_relax_spec wf nn _ _ b1 rinv (fun e he => he) hrelb
                exact ih _ a1 b1 hsim1 (dijkstra_inv_expand_finish rinv1 hrelaxed)
              · have hnoop := dijkstra_relax_noop cb.vertex (g.graph cb.vertex).edges
                  { b with heap := hb' } (inv.relaxed _ rinv.current hR)
                rw [hnoop] at hrelb
                simp only [Option.some.injEq] at hrelb
                subst hrelb
                have hrelaxed := inv.relaxed _ rinv.current hR
                exact ih _ a1 _ hsim1 (dijkstra_inv_expand_finish rinv hrelaxed)

theorem mono_init_sim {g : Graph} {s : Int} {st0 a : DijkstraState}
    (h : Mono.dijkstra_init g s st0 = some a) :
    ∃ b, dijkstra_init g s st0 = some b ∧ StateSim a b := by
  unfold Mono.dijkstra_init at h
  unfold dijkstra_init
  simp only at h ⊢
  cases hins : Mono.insert_heap (init_heap st0.heap) s 0 with
  | none => rw [hins] at h; simp at h
  | some ha =>
    rw [hins] at h
    simp only [Option.some.injEq] at h
    subst h
    obtain ⟨hb, hinsb, hsim⟩ := heapSim_insert (heapSim_refl _) hins
    rw [hinsb]
    exact ⟨_, rfl, hsim, rfl, rfl⟩

/-- C29 (counterexample). On `hub20`, a graph of 20 nodes with non-negative
weights, the `dijkstra(0, 19)` of trackmate.c expands node 0 and pushes its 19
neighbours, pops node 1 and pushes the nodes 2 and 3 again, which fills its 20
slots; the push of node 4 then writes `nodes[20]`, past the end of its heap
array, while the `dijkstra(0, 19)` of pathfinding.c, whose heap has 50 slots,
returns with `distances[19] = 10`. -/
theorem C29_counterexample :
    hub20.node_count = 20 ∧ WellFormed hub20 ∧ NonNeg hub20 ∧
    Mono.dijkstra hub20 0 19 200 blank_dijkstra = .error .bounds ∧
    dist_at (dijkstra hub20 0 19 200 blank_dijkstra) 19 = some 10 := by
  refine ⟨by decide, wellFormed_of_check _ (by decide!), nonNeg_of_check _ (by decide!),
    fault_of_some (by decide!), by decide!⟩

/-- C29 (amended). For every graph with non-negative edge weights whose edges
lead to nodes of the graph, every start in range and every end: run on the
same adjacency lists with a budget above `edge_count g + 1`, the `dijkstra` of
trackmate.c (every popped entry is expanded) either writes past its heap array
of 20 slots or returns, and whenever it returns the `dijkstra` of
pathfinding.c (stale entries are discarded) returns too, with the same
`distances` and the same `previous` array. -/
theorem C29_monolithic_matches_modular {g : Graph} (wf : WellFormed g) (nn : NonNeg g)
    {s : Int} (t : Int) (hs : InRange g s) {fuel : Nat} (hfuel : edge_count g + 1 < fuel)
    (st0 : DijkstraState) :
    Mono.dijkstra g s t fuel st0 = .error .bounds ∨
    ∃ a b, Mono.dijkstra g s t fuel st0 = .ok a ∧ dijkstra g s t fuel st0 = .ok b ∧
      a.distances = b.distances ∧ a.previous = b.previous := by
  have hterm := dijkstra_terminates wf nn t hs hfuel st0
  unfold Mono.dijkstra
  unfold dijkstra at hterm ⊢
  cases hinit : Mono.dijkstra_init g s st0 with
  | none => exact Or.inl rfl
  | some a =>
    obtain ⟨b, hinitb, hsim⟩ := mono_init_sim hinit
    rw [hinitb] at hterm ⊢
    simp only at hterm ⊢
    obtain ⟨R, inv⟩ : ∃ R, DijkstraInv g s R b := ⟨_, (dijkstra_init_inv hs hinitb).1⟩
    rcases mono_loop_sim wf nn fuel R a b hsim inv with h | ⟨_, h⟩ | h
    · exact Or.inl h
    · exact absurd h hterm
    · exact Or.inr h

theorem shortcut_wellFormed : WellFormed shortcut :=
  graph_of_wellFormed _ (by decide)

theorem shortcut_nonNeg : NonNeg shortcut :=
  graph_of_nonNeg _ (by decide!)

theorem C29_witness :
    (WellFormed shortcut ∧ NonNeg shortcut ∧ InRange shortcut 0 ∧
      edge_count shortcut + 1 < 10) ∧
    ∃ a b, Mono.dijkstra shortcut 0 3 10 blank_dijkstra = .ok a ∧
      dijkstra shortcut 0 3 10 blank_dijkstra = .ok b ∧
      a.distances = b.distances ∧ a.previous = b.previous := by
  refine ⟨⟨shortcut_wellFormed, shortcut_nonNeg, by decide, by decide⟩, ?_⟩
  obtain ⟨st, hst, _⟩ := dist_at_some
    (show dist_at (Mono.dijkstra shortcut 0 3 10 blank_dijkstra) 3 = some 12 by decide!)
  rcases C29_monolithic_matches_modular shortcut_wellFormed shortcut_nonNeg 3
    (show InRange shortcut 0 by decide) (show edge_count shortcut + 1 < 10 by decide)
    blank_dijkstra with h | h
  · rw [hst] at h; exact absurd h (by simp)
  · exact h


/-! ## distance.c over the reals -/

/-- The quantity `a` of the haversine formula is half of one minus the dot
product of the unit vectors of the two points. -/
theorem haversine_a_eq_dot (φ1 l1 φ2 l2 : ℝ) :
    Real.sin ((φ2 - φ1) / 2) * Real.sin ((φ2 - φ1) / 2) +
      Real.cos φ1 * Real.cos φ2 * Real.sin ((l2 - l1) / 2) * Real.sin ((l2 - l1) / 2) =
    (1 - (Real.cos φ1 * Real.cos l1 * (Real.cos φ2 * Real.cos l2) +
      Real.cos φ1 * Real.sin l1 * (Real.cos φ2 * Real.sin l2) +
      Real.sin φ1 * Real.sin φ2)) / 2 := by
  have e1 : Real.cos (φ2 - φ1) = 1 - 2 * Real.sin ((φ2 - φ1) / 2) ^ 2 := by
    have h : φ2 - φ1 = 2 * ((φ2 - φ1) / 2) := by ring
    rw [h, Real.cos_two_mul, Real.cos_sq']
    ring_nf
  have e2 : Real.cos (l2 - l1) = 1 - 2 * Real.sin ((l2 - l1) / 2) ^ 2 := by
    have h : l2 - l1 = 2 * ((l2 - l1) / 2) := by ring
    rw [h, Real.cos_two_mul, Real.cos_sq']
    ring_nf
  rw [Real.cos_sub] at e1 e2
  linear_combination (1 / 2 : ℝ) * e1 + (Real.cos φ1 * Real.cos φ2 / 2) * e2

theorem unit_vector_norm (φ l : ℝ) :
    (Real.cos φ * Real.cos l) ^ 2 + (Real.cos φ * Real.sin l) ^ 2 + Real.sin φ ^ 2 = 1 := by
  have h1 := Real.sin_sq_add_cos_sq φ
  have h2 := Real.sin_sq_add_cos_sq l
  linear_combination h1 + Real.cos φ ^ 2 * h2

theorem unit_dot_bounds {x1 y1 z1 x2 y2 z2 : ℝ} (h1 : x1 ^ 2 + y1 ^ 2 + z1 ^ 2 = 1)
    (h2 : x2 ^ 2 + y2 ^ 2 + z2 ^ 2 = 1) :
    -1 ≤ x1 * x2 + y1 * y2 + z1 * z2 ∧ x1 * x2 + y1 * y2 + z1 * z2 ≤ 1 := by
  constructor
  · nlinarith [sq_nonneg (x1 + x2), sq_nonneg (y1 + y2), sq_nonneg (z1 + z2)]
  · nlinarith [sq_nonneg (x1 - x2), sq_nonneg (y1 - y2), sq_nonneg (z1 - z2)]

theorem cauchy_schwarz_three (p1 p2 p3 q1 q2 q3 : ℝ) :
    (p1 * q1 + p2 * q2 + p3 * q3) ^ 2 ≤
      (p1 ^ 2 + p2 ^ 2 + p3 ^ 2) * (q1 ^ 2 + q2 ^ 2 + q3 ^ 2) := by
  nlinarith [sq_nonneg (p1 * q2 - p2 * q1), sq_nonneg (p1 * q3 - p3 * q1),
    sq_nonneg (p2 * q3 - p3 * q2)]

theorem cross_norm_sq (x1 y1 z1 x2 y2 z2 : ℝ) :
    (y1 * z2 - z1 * y2) ^ 2 + (z1 * x2 - x1 * z2) ^ 2 + (x1 * y2 - y1 * x2) ^ 2 =
      (x1 ^ 2 + y1 ^ 2 + z1 ^ 2) * (x2 ^ 2 + y2 ^ 2 + z2 ^ 2) -
        (x1 * x2 + y1 * y2 + z1 * z2) ^ 2 := by
  ring

theorem cross_dot_cross (x1 y1 z1 x2 y2 z2 x3 y3 z3 : ℝ) :
    (y1 * z2 - z1 * y2) * (y2 * z3 - z2 * y3) + (z1 * x2 - x1 * z2) * (z2 * x3 - x2 * z3) +
        (x1 * y2 - y1 * x2) * (x2 * y3 - y2 * x3) =
      (x1 * x2 + y1 * y2 + z1 * z2) * (x2 * x3 + y2 * y3 + z2 * z3) -
        (x1 * x3 + y1 * y3 + z1 * z3) * (x2 ^ 2 + y2 ^ 2 + z2 ^ 2) := by
  ring

/-- The Gram determinant of three unit vectors is not negative. -/
theorem unit_gram {x1 y1 z1 x2 y2 z2 x3 y3 z3 : ℝ} (h1 : x1 ^ 2 + y1 ^ 2 + z1 ^ 2 = 1)
    (h2 : x2 ^ 2 + y2 ^ 2 + z2 ^ 2 = 1) (h3 : x3 ^ 2 + y3 ^ 2 + z3 ^ 2 = 1) :
    ((x1 * x2 + y1 * y2 + z1 * z2) * (x2 * x3 + y2 * y3 + z2 * z3) -
        (x1 * x3 + y1 * y3 + z1 * z3)) ^ 2 ≤
      (1 - (x1 * x2 + y1 * y2 + z1 * z2) ^ 2) * (1 - (x2 * x3 + y2 * y3 + z2 * z3) ^ 2) := by
  have hcs := cauchy_schwarz_three (y1 * z2 - z1 * y2) (z1 * x2 - x1 * z2) (x1 * y2 - y1 * x2)
    (y2 * z3 - z2 * y3) (z2 * x3 - x2 * z3) (x2 * y3 - y2 * x3)
  rw [cross_norm_sq, cross_norm_sq, cross_dot_cross, h1, h2, h3, one_mul, mul_one] at hcs
  exact hcs

/-- The angle `2 * atan2(sqrt a, sqrt (1 - a))` of the haversine formula lies
in `[0, π]` and has cosine `1 - 2 a`. -/
theorem haversine_angle_spec {a : ℝ} (h0 : 0 ≤ a) (h1 : a ≤ 1) :
    0 ≤ 2 * Complex.arg ⟨Real.sqrt (1 - a), Real.sqrt a⟩ ∧
    2 * Complex.arg ⟨Real.sqrt (1 - a), Real.sqrt a⟩ ≤ Real.pi ∧
    Real.cos (2 * Complex.arg ⟨Real.sqrt (1 - a), Real.sqrt a⟩) = 1 - 2 * a := by
  have habs : Complex.abs ⟨Real.sqrt (1 - a), Real.sqrt a⟩ = 1 := by
    rw [Complex.abs_apply, Complex.normSq_mk, Real.mul_self_sqrt (by linarith),
      Real.mul_self_sqrt h0]
    norm_num
  have hnn : 0 ≤ Complex.arg ⟨Real.sqrt (1 - a), Real.sqrt a⟩ :=
    Complex.arg_nonneg_iff.mpr (Real.sqrt_nonneg a)
  have hle : Complex.arg ⟨Real.sqrt (1 - a), Real.sqrt a⟩ ≤ Real.pi / 2 :=
    Complex.arg_le_pi_div_two_iff.mpr (Or.inl (Real.sqrt_nonneg (1 - a)))
  have hsin : Real.sin (Complex.arg ⟨Real.sqrt (1 - a), Real.sqrt a⟩) = Real.sqrt a := by
    rw [Complex.sin_arg, habs, div_one]
  refine ⟨by linarith, by linarith, ?_⟩
  rw [Real.cos_two_mul, Real.cos_sq', hsin, Real.sq_sqrt h0]
  ring

/-- Three angles in `[0, π]` whose cosines satisfy the Gram inequality obey the
triangle inequality. -/
theorem angle_triangle {t12 t23 t13 d12 d23 d13 : ℝ}
    (h12 : 0 ≤ t12 ∧ t12 ≤ Real.pi ∧ Real.cos t12 = d12)
    (h23 : 0 ≤ t23 ∧ t23 ≤ Real.pi ∧ Real.cos t23 = d23)
    (h13 : 0 ≤ t13 ∧ t13 ≤ Real.pi ∧ Real.cos t13 = d13)
    (hgram : (d12 * d23 - d13) ^ 2 ≤ (1 - d12 ^ 2) * (1 - d23 ^ 2)) :
    t13 ≤ t12 + t23 := by
  by_contra hcon
  have hlt : t12 + t23 < t13 := not_le.mp hcon
  have hcos : Real.cos t13 < Real.cos (t12 + t23) :=
    Real.cos_lt_cos_of_nonneg_of_le_pi (by linarith [h12.1, h23.1]) h13.2.1 hlt
  rw [Real.cos_add, h13.2.2, h12.2.2, h23.2.2] at hcos
  have hs12 : 0 ≤ Real.sin t12 := Real.sin_nonneg_of_nonneg_of_le_pi h12.1 h12.2.1
  have hs23 : 0 ≤ Real.sin t23 := Real.sin_nonneg_of_nonneg_of_le_pi h23.1 h23.2.1
  have hq12 : Real.sin t12 ^ 2 = 1 - d12 ^ 2 := by
    rw [Real.sin_sq, h12.2.2]
  have hq23 : Real.sin t23 ^ 2 = 1 - d23 ^ 2 := by
    rw [Real.sin_sq, h23.2.2]
  have hpos : 0 ≤ Real.sin t12 * Real.sin t23 := mul_nonneg hs12 hs23
  have hlt2 : Real.sin t12 * Real.sin t23 < d12 * d23 - d13 := by linarith
  have hsq : (Real.sin t12 * Real.sin t23) ^ 2 < (d12 * d23 - d13) ^ 2 :=
    by rw [sq, sq]; exact mul_self_lt_mul_self hpos hlt2
  have hprod : (Real.sin t12 * Real.sin t23) ^ 2 = (1 - d12 ^ 2) * (1 - d23 ^ 2) := by
    rw [mul_pow, hq12, hq23]
  linarith


theorem haversine_distance_over_rat (m : Libm) (lat1 lon1 lat2 lon2 : ℚ) :
    haversine_distance_over m.over lat1 lon1 lat2 lon2 =
      haversine_distance m lat1 lon1 lat2 lon2 := by
  simp only [haversine_distance_over, haversine_distance, Libm.over, Rat.cast_id]

theorem enhanced_haversine_distance_over_rat (m : Libm) (lat1 lon1 elev1 lat2 lon2 elev2 : ℚ) :
    enhanced_haversine_distance_over m.over lat1 lon1 elev1 lat2 lon2 elev2 =
      enhanced_haversine_distance m lat1 lon1 elev1 lat2 lon2 elev2 := by
  simp only [enhanced_haversine_distance_over, enhanced_haversine_distance, Libm.over,
    Rat.cast_id]

/-- C24. Over every field of numbers (the reals in particular) and for every
math library whose sine is odd (the real sine in particular),
`haversine_distance(lat1, lon1, lat2, lon2)` and
`haversine_distance(lat2, lon2, lat1, lon1)` are equal, exactly, for all
coordinates. -/
theorem C24_haversine_symmetric {α : Type} [Field α] (m : LibmOver α)
    (hsin : ∀ x, m.sin (-x) = -m.sin x) (lat1 lon1 lat2 lon2 : α) :
    haversine_distance_over m lat1 lon1 lat2 lon2 =
      haversine_distance_over m lat2 lon2 lat1 lon1 := by
  unfold haversine_distance_over
  have h1 : (lat1 * (PI : α) / 180 - lat2 * (PI : α) / 180) / 2 =
      -((lat2 * (PI : α) / 180 - lat1 * (PI : α) / 180) / 2) := by ring
  have h2 : (lon1 * (PI : α) / 180 - lon2 * (PI : α) / 180) / 2 =
      -((lon2 * (PI : α) / 180 - lon1 * (PI : α) / 180) / 2) := by ring
  simp only [h1, h2, hsin]
  have ha : -m.sin ((lat2 * (PI : α) / 180 - lat1 * (PI : α) / 180) / 2) *
        -m.sin ((lat2 * (PI : α) / 180 - lat1 * (PI : α) / 180) / 2) +
      m.cos (lat2 * (PI : α) / 180) * m.cos (lat1 * (PI : α) / 180) *
        -m.sin ((lon2 * (PI : α) / 180 - lon1 * (PI : α) / 180) / 2) *
        -m.sin ((lon2 * (PI : α) / 180 - lon1 * (PI : α) / 180) / 2) =
      m.sin ((lat2 * (PI : α) / 180 - lat1 * (PI : α) / 180) / 2) *
        m.sin ((lat2 * (PI : α) / 180 - lat1 * (PI : α) / 180) / 2) +
      m.cos (lat1 * (PI : α) / 180) * m.cos (lat2 * (PI : α) / 180) *
        m.sin ((lon2 * (PI : α) / 180 - lon1 * (PI : α) / 180) / 2) *
        m.sin ((lon2 * (PI : α) / 180 - lon1 * (PI : α) / 180) / 2) := by ring
  rw [ha]

theorem C24_witness :
    (∀ x : ℝ, Real.sin (-x) = -Real.sin x) ∧
    haversine_distance_over
        (⟨Real.sin, Real.cos, Real.sqrt, fun y x => Complex.arg ⟨x, y⟩⟩ : LibmOver ℝ)
        12 77 13 78 =
      haversine_distance_over
        (⟨Real.sin, Real.cos, Real.sqrt, fun y x => Complex.arg ⟨x, y⟩⟩ : LibmOver ℝ)
        13 78 12 77 :=
  ⟨Real.sin_neg,
    C24_haversine_symmetric
      (⟨Real.sin, Real.cos, Real.sqrt, fun y x => Complex.arg ⟨x, y⟩⟩ : LibmOver ℝ)
      Real.sin_neg 12 77 13 78⟩

/-- C25. Over every field of numbers and for every math library with
`sin 0 = 0`, `sqrt 0 = 0`, `sqrt 1 = 1` and `atan2(0, 1) = 0` (the real
functions in particular), `haversine_distance(lat, lon, lat, lon)` is 0 for
every point, and so is `enhanced_haversine_distance` of a point with itself
at one elevation. -/
theorem C25_distance_to_itself_is_zero {α : Type} [Field α] (m : LibmOver α)
    (hsin : m.sin 0 = 0) (hsqrt0 : m.sqrt 0 = 0) (hsqrt1 : m.sqrt 1 = 1)
    (hatan : m.atan2 0 1 = 0) (lat lon elev : α) :
    haversine_distance_over m lat lon lat lon = 0 ∧
    enhanced_haversine_distance_over m lat lon elev lat lon elev = 0 := by
  constructor
  · simp [haversine_distance_over, hsin, hsqrt0, hsqrt1, hatan]
  · simp [enhanced_haversine_distance_over, hsin, hsqrt0, hsqrt1, hatan]

theorem arg_one_zero : Complex.arg ⟨1, 0⟩ = 0 := by
  have h : (⟨1, 0⟩ : ℂ) = 1 := rfl
  rw [h, Complex.arg_one]

theorem C25_witness :
    (Real.sin 0 = 0 ∧ Real.sqrt 0 = 0 ∧ Real.sqrt 1 = 1 ∧ Complex.arg ⟨1, 0⟩ = 0) ∧
    haversine_distance_over
        (⟨Real.sin, Real.cos, Real.sqrt, fun y x => Complex.arg ⟨x, y⟩⟩ : LibmOver ℝ)
        12 77 12 77 = 0 ∧
    enhanced_haversine_distance_over
        (⟨Real.sin, Real.cos, Real.sqrt, fun y x => Complex.arg ⟨x, y⟩⟩ : LibmOver ℝ)
        12 77 900 12 77 900 = 0 :=
  ⟨⟨Real.sin_zero, Real.sqrt_zero, Real.sqrt_one, arg_one_zero⟩,
    C25_distance_to_itself_is_zero
      (⟨Real.sin, Real.cos, Real.sqrt, fun y x => Complex.arg ⟨x, y⟩⟩ : LibmOver ℝ)
      Real.sin_zero Real.sqrt_zero Real.sqrt_one arg_one_zero 12 77 900⟩

/-- Over the reals `haversine_distance` is the Earth radius times the angle in
`[0, π]` between the unit vectors of the two points. -/
theorem haversine_over_real {m : LibmOver ℝ} (hm : RealLibm m) (lat1 lon1 lat2 lon2 : ℝ) :
    ∃ θ : ℝ, haversine_distance_over m lat1 lon1 lat2 lon2 = (EARTH_RADIUS : ℝ) * θ ∧
      0 ≤ θ ∧ θ ≤ Real.pi ∧
      Real.cos θ =
        Real.cos (lat1 * (PI : ℝ) / 180) * Real.cos (lon1 * (PI : ℝ) / 180) *
            (Real.cos (lat2 * (PI : ℝ) / 180) * Real.cos (lon2 * (PI : ℝ) / 180)) +
          Real.cos (lat1 * (PI : ℝ) / 180) * Real.sin (lon1 * (PI : ℝ) / 180) *
            (Real.cos (lat2 * (PI : ℝ) / 180) * Real.sin (lon2 * (PI : ℝ) / 180)) +
          Real.sin (lat1 * (PI : ℝ) / 180) * Real.sin (lat2 * (PI : ℝ) / 180) := by
  unfold haversine_distance_over
  simp only [hm.sin_eq, hm.cos_eq, hm.sqrt_eq, hm.atan2_eq]
  rw [haversine_a_eq_dot]
  have hb := unit_dot_bounds (unit_vector_norm (lat1 * (PI : ℝ) / 180) (lon1 * (PI : ℝ) / 180))
    (unit_vector_norm (lat2 * (PI : ℝ) / 180) (lon2 * (PI : ℝ) / 180))
  obtain ⟨h0, h1, hc⟩ := haversine_angle_spec
    (a := (1 - (Real.cos (lat1 * (PI : ℝ) / 180) * Real.cos (lon1 * (PI : ℝ) / 180) *
            (Real.cos (lat2 * (PI : ℝ) / 180) * Real.cos (lon2 * (PI : ℝ) / 180)) +
          Real.cos (lat1 * (PI : ℝ) / 180) * Real.sin (lon1 * (PI : ℝ) / 180) *
            (Real.cos (lat2 * (PI : ℝ) / 180) * Real.sin (lon2 * (PI : ℝ) / 180)) +
          Real.sin (lat1 * (PI : ℝ) / 180) * Real.sin (lat2 * (PI : ℝ) / 180))) / 2)
    (by linarith [hb.2]) (by linarith [hb.1])
  refine ⟨_, rfl, h0, h1, ?_⟩
  rw [hc]
  ring

/-- Over the reals, with the real sine, cosine, square root and two-argument
arctangent, `haversine_distance(a, c)` is at most
`haversine_distance(a, b) + haversine_distance(b, c)` for any three points,
whatever their latitudes and longitudes. This is a fact about the formula, not
about its evaluation in doubles, where rounding moves each side by a few units
in the last place. -/
theorem haversine_triangle_inequality_over_reals (m : LibmOver ℝ) (hm : RealLibm m)
    (latA lonA latB lonB latC lonC : ℝ) :
    haversine_distance_over m latA lonA latC lonC ≤
      haversine_distance_over m latA lonA latB lonB +
        haversine_distance_over m latB lonB latC lonC := by
  obtain ⟨t12, e12, h12a, h12b, h12c⟩ := haversine_over_real hm latA lonA latB lonB
  obtain ⟨t23, e23, h23a, h23b, h23c⟩ := haversine_over_real hm latB lonB latC lonC
  obtain ⟨t13, e13, h13a, h13b, h13c⟩ := haversine_over_real hm latA lonA latC lonC
  rw [e12, e23, e13, ← mul_add]
  have hR : (0 : ℝ) ≤ (EARTH_RADIUS : ℝ) := by
    have h : (0 : ℚ) ≤ EARTH_RADIUS := by decide!
    exact_mod_cast h
  refine mul_le_mul_of_nonneg_left ?_ hR
  exact angle_triangle ⟨h12a, h12b, h12c⟩ ⟨h23a, h23b, h23c⟩ ⟨h13a, h13b, h13c⟩
    (unit_gram (unit_vector_norm _ _) (unit_vector_norm _ _) (unit_vector_norm _ _))

theorem realLibm_of_real_functions :
    RealLibm ⟨Real.sin, Real.cos, Real.sqrt, fun y x => Complex.arg ⟨x, y⟩⟩ :=
  ⟨fun _ => rfl, fun _ => rfl, fun _ => rfl, fun _ _ => rfl⟩

end TrackMate
